import Mathlib

/-!
# Limit order book (`src/orderbook/order_book.{h,cpp}`)

A shallow embedding of `OrderBook::Implementation` and of the four public
operations of `OrderBook`.

Representation choices.

* `double` prices are only ever compared (`std::less`, `std::greater`, `!=`);
  a finite `double` is modelled by its exact rational value (`Price := ℚ`).
  NaN is not a valid key of a `std::map` and is not modelled.
* `uint64_t` quantities and aggregates are natural numbers; the two
  arithmetic statements of the program (`+=`, `-=`) are reduced modulo `2^64`
  explicitly.
* `OrderNode` objects live on a heap: an association list from addresses to
  their `order` field.  `new OrderNode()` returns an address that is not live,
  `delete node` removes the address.  The field `position_in_level` of a node
  is the list cell of its level's queue that holds the node's address; the
  queue is the list of addresses, so the cell is found by the address.
* `Level` objects are owned by exactly one map entry each and never aliased,
  so a `Level*` map value is modelled by the `Level` itself.
* `std::unordered_map` and `std::map` are association lists; for `std::map`
  the list is kept in comparator order, which is the iteration order.
* Undefined behaviour (dereferencing a dangling node pointer or the null
  `Level*` that `operator[]` inserts for a missing key, erasing through an
  iterator that is not in the list) is the result `none`.
* The allocations of single objects (nodes, levels, list and map cells) are
  taken to succeed.  The call `output.reserve(depth)` of `extract_levels`, whose
  size the caller chooses, may throw: `std::length_error` when `depth` exceeds
  `max_size()`, `std::bad_alloc` when the storage is not to be had.  The value
  of `max_size()` is a constant of the library and a parameter here.
-/

namespace OrderBook

/-- The price type of the program (`double`), by exact value. -/
abbrev Price := ℚ

/-- The modulus of `uint64_t` arithmetic. -/
def U64 : Nat := 2 ^ 64

/-- Unsigned 64-bit addition (`a += b`). -/
def wrap_add (a b : Nat) : Nat := (a + b) % U64

/-- Unsigned 64-bit subtraction (`a -= b`). -/
def wrap_sub (a b : Nat) : Nat := (a + (U64 - b % U64)) % U64

/-- The record `struct Order` of `order_book.h`. -/
structure Order where
  order_id : Nat
  is_buy : Bool
  price : Price
  quantity : Nat
  timestamp_ns : Nat
deriving DecidableEq

/-- The record `struct PriceLevel` of `order_book.h`. -/
structure PriceLevel where
  price : Price
  total_quantity : Nat
deriving DecidableEq

/-- The record `struct Level`: `order_queue` lists the addresses of the queued
nodes, front first. -/
structure Level where
  price : Price
  aggregated_volume : Nat
  order_queue : List Nat
deriving DecidableEq

/-- The constructor `Level(double p)`. -/
def Level.new (p : Price) : Level := ⟨p, 0, []⟩

/-- Lookup in an association list (`find`, for both map kinds). -/
def map_find {κ β : Type} [DecidableEq κ] : List (κ × β) → κ → Option β
  | [], _ => none
  | (k, v) :: r, x => if k = x then some v else map_find r x

/-- Removal of a key (`erase`); keys are unique in a map, so this removes the
one element with that key. -/
def map_erase {κ β : Type} [DecidableEq κ] (m : List (κ × β)) (x : κ) : List (κ × β) :=
  m.filter (fun p => decide (p.1 ≠ x))

/-- Overwrite the value stored at an existing key (a write through the pointer
or reference that a lookup returned). -/
def map_update {κ β : Type} [DecidableEq κ] : List (κ × β) → κ → β → List (κ × β)
  | [], _, _ => []
  | (k, w) :: r, x, v =>
    if k = x then (k, v) :: map_update r x v else (k, w) :: map_update r x v

/-- The statement `m[x] = v` on a `std::unordered_map`. -/
def map_assign {κ β : Type} [DecidableEq κ] (m : List (κ × β)) (x : κ) (v : β) : List (κ × β) :=
  match map_find m x with
  | none => m ++ [(x, v)]
  | some _ => map_update m x v

/-- The statement `side[px] = lvl` on a `std::map` with comparator `before`
for a key that is not in the map: the entry goes to its place in comparator
order. -/
def side_insert (before : Price → Price → Bool) :
    List (Price × Level) → Price → Level → List (Price × Level)
  | [], x, v => [(x, v)]
  | (k, w) :: r, x, v =>
    if before x k then (x, v) :: (k, w) :: r else (k, w) :: side_insert before r x v

/-- The comparator `std::greater<double>` of `bid_levels`. -/
def bid_before (a b : Price) : Bool := decide (a > b)

/-- The comparator `std::less<double>` of `ask_levels`. -/
def ask_before (a b : Price) : Bool := decide (a < b)

/-- The state of `OrderBook::Implementation`, with the heap of its
`OrderNode` objects. -/
structure Implementation where
  nodes : List (Nat × Order)
  order_registry : List (Nat × Nat)
  bid_levels : List (Price × Level)
  ask_levels : List (Price × Level)
deriving DecidableEq

/-- The state after the constructor `OrderBook()`. -/
def Implementation.empty : Implementation := ⟨[], [], [], []⟩

/-- The address returned by `new OrderNode()`: one that is not live. -/
def fresh_node (heap : List (Nat × Order)) : Nat :=
  (heap.map Prod.fst).foldr max 0 + 1

/-- The template `insert_into_side`; `node` is the address of the node and
`ord` its `order` field, which `insert_order` has just written. -/
def insert_into_side (before : Price → Price → Bool) (node : Nat) (ord : Order)
    (side : List (Price × Level)) : List (Price × Level) :=
  let px := ord.price
  match map_find side px with
  | none =>
    side_insert before side px
      { Level.new px with
        order_queue := (Level.new px).order_queue ++ [node]
        aggregated_volume := wrap_add (Level.new px).aggregated_volume ord.quantity }
  | some lvl =>
    map_update side px
      { lvl with
        order_queue := lvl.order_queue ++ [node]
        aggregated_volume := wrap_add lvl.aggregated_volume ord.quantity }

/-- The method `insert_order`. -/
def insert_order (b : Implementation) (ord : Order) : Implementation :=
  let node := fresh_node b.nodes
  let heap := map_assign b.nodes node ord
  if ord.is_buy then
    { nodes := heap
      bid_levels := insert_into_side bid_before node ord b.bid_levels
      ask_levels := b.ask_levels
      order_registry := map_assign b.order_registry ord.order_id node }
  else
    { nodes := heap
      bid_levels := b.bid_levels
      ask_levels := insert_into_side ask_before node ord b.ask_levels
      order_registry := map_assign b.order_registry ord.order_id node }

/-- The template `remove_from_side`; `node` is the address of the node and
`ord` its `order` field. -/
def remove_from_side (node : Nat) (ord : Order) (side : List (Price × Level))
    (price : Price) : Option (List (Price × Level)) :=
  match map_find side price with
  | none => some side
  | some lvl =>
    if node ∈ lvl.order_queue then
      let lvl1 : Level :=
        { lvl with
          aggregated_volume := wrap_sub lvl.aggregated_volume ord.quantity
          order_queue := lvl.order_queue.erase node }
      if lvl1.order_queue.isEmpty then some (map_erase side price)
      else some (map_update side price lvl1)
    else none

/-- The method `remove_order`. -/
def remove_order (b : Implementation) (oid : Nat) : Option (Bool × Implementation) :=
  match map_find b.order_registry oid with
  | none => some (false, b)
  | some node =>
    match map_find b.nodes node with
    | none => none
    | some ord =>
      if ord.is_buy then
        match remove_from_side node ord b.bid_levels ord.price with
        | none => none
        | some side =>
          some (true,
            { nodes := map_erase b.nodes node
              bid_levels := side
              ask_levels := b.ask_levels
              order_registry := map_erase b.order_registry oid })
      else
        match remove_from_side node ord b.ask_levels ord.price with
        | none => none
        | some side =>
          some (true,
            { nodes := map_erase b.nodes node
              bid_levels := b.bid_levels
              ask_levels := side
              order_registry := map_erase b.order_registry oid })

/-- The quantity-only branch of `modify_order` on one side: `side[px]`, then
the two updates of the level's aggregate. -/
def requantify_side (side : List (Price × Level)) (px : Price) (old_qty new_qty : Nat) :
    Option (List (Price × Level)) :=
  match map_find side px with
  | none => none
  | some lvl =>
    some (map_update side px
      { lvl with
        aggregated_volume := wrap_add (wrap_sub lvl.aggregated_volume old_qty) new_qty })

/-- The method `modify_order`. -/
def modify_order (b : Implementation) (oid : Nat) (new_px : Price) (new_qty : Nat) :
    Option (Bool × Implementation) :=
  match map_find b.order_registry oid with
  | none => some (false, b)
  | some node =>
    match map_find b.nodes node with
    | none => none
    | some ord =>
      if ord.price ≠ new_px then
        let temp_order : Order := { ord with price := new_px, quantity := new_qty }
        match remove_order b oid with
        | none => none
        | some (_, b1) => some (true, insert_order b1 temp_order)
      else
        let heap := map_update b.nodes node { ord with quantity := new_qty }
        if ord.is_buy then
          match requantify_side b.bid_levels ord.price ord.quantity new_qty with
          | none => none
          | some side => some (true, { b with nodes := heap, bid_levels := side })
        else
          match requantify_side b.ask_levels ord.price ord.quantity new_qty with
          | none => none
          | some side => some (true, { b with nodes := heap, ask_levels := side })

/-- The loop of `extract_levels`: `count` levels have been copied to `output`. -/
def extract_loop (depth : Nat) : List (Price × Level) → Nat → List PriceLevel → List PriceLevel
  | [], _, output => output
  | (_, lvl) :: rest, count, output =>
    if count ≥ depth then output
    else extract_loop depth rest (count + 1) (output ++ [⟨lvl.price, lvl.aggregated_volume⟩])

/-- The exceptions that `std::vector::reserve` throws. -/
inductive Thrown where
  | length_error
  | bad_alloc
deriving DecidableEq

/-- The call `output.reserve(n)` on the cleared vector: the exception that it
throws, if any.  `max_size` is `std::vector<PriceLevel>::max_size()`;
`storage_ok` says whether room for `n` elements is to be had, because the
capacity of the vector suffices or because the allocator supplies the storage.
Room for no element is always there.  A call that throws leaves the vector as
it was. -/
def vector_reserve (max_size : Nat) (storage_ok : Bool) (n : Nat) : Option Thrown :=
  if n > max_size then some Thrown.length_error
  else if n = 0 ∨ storage_ok = true then none
  else some Thrown.bad_alloc

/-- The template `extract_levels`: the exception thrown, if any, and the contents
of `output` after the call.  `output` is cleared; if `reserve` throws it stays
empty, otherwise the loop fills it. -/
def extract_levels (max_size : Nat) (storage_ok : Bool) (side : List (Price × Level))
    (depth : Nat) (_output : List PriceLevel) : Option Thrown × List PriceLevel :=
  match vector_reserve max_size storage_ok depth with
  | some e => (some e, [])
  | none => (none, extract_loop depth side 0 [])

/-- The constructor `OrderBook::OrderBook`. -/
def new_book : Implementation := Implementation.empty

/-- The method `OrderBook::add_order`. -/
def add_order (b : Implementation) (order : Order) : Implementation :=
  insert_order b order

/-- The method `OrderBook::cancel_order`. -/
def cancel_order (b : Implementation) (order_id : Nat) : Option (Bool × Implementation) :=
  remove_order b order_id

/-- The method `OrderBook::amend_order`. -/
def amend_order (b : Implementation) (order_id : Nat) (new_price : Price) (new_quantity : Nat) :
    Option (Bool × Implementation) :=
  modify_order b order_id new_price new_quantity

/-- The method `OrderBook::get_snapshot`: the exception thrown, if any (`none` when
the call returns), and the contents of `bids` and of `asks` after the call.
`bids_ok` and `asks_ok` say whether the storage is to be had in the two calls of
`reserve`.  When the extraction of the bids throws, `asks` is not touched. -/
def get_snapshot (max_size : Nat) (bids_ok asks_ok : Bool) (b : Implementation) (depth : Nat)
    (bids asks : List PriceLevel) : Option Thrown × List PriceLevel × List PriceLevel :=
  match extract_levels max_size bids_ok b.bid_levels depth bids with
  | (some e, bids1) => (some e, bids1, asks)
  | (none, bids1) =>
    match extract_levels max_size asks_ok b.ask_levels depth asks with
    | (r, asks1) => (r, bids1, asks1)

/-- The value of `std::vector<PriceLevel>::max_size()` in libstdc++ on a 64-bit
target: `PTRDIFF_MAX / sizeof(PriceLevel)`, with `sizeof(PriceLevel) = 16`. -/
def max_size_lp64 : Nat := 2 ^ 59 - 1

/-- The properties of a `std::map` comparator on prices: a strict total order. -/
structure StrictCmp (before : Price → Price → Bool) : Prop where
  irrefl : ∀ a, before a a = false
  trans : ∀ a b c, before a b = true → before b c = true → before a c = true
  total : ∀ a b, a ≠ b → before a b = true ∨ before b a = true

/-- The side map that holds the orders with flag `is_buy`. -/
def side_of (b : Implementation) (is_buy : Bool) : List (Price × Level) :=
  if is_buy then b.bid_levels else b.ask_levels

/-- The level stored at price `p` on a side, if any. -/
def level_at (b : Implementation) (is_buy : Bool) (p : Price) : Option Level :=
  map_find (side_of b is_buy) p

/-- The order behind the index entry of `oid`: `order_registry.find(oid)->second->order`. -/
def resting_order (b : Implementation) (oid : Nat) : Option Order :=
  match map_find b.order_registry oid with
  | none => none
  | some node => map_find b.nodes node

/-- The quantity stored in the node at address `a` (0 when no node lives there). -/
def node_qty (heap : List (Nat × Order)) (a : Nat) : Nat :=
  match map_find heap a with
  | some o => o.quantity
  | none => 0

/-- The sum of the quantities of the nodes of a queue. -/
def queue_sum (heap : List (Nat × Order)) (q : List Nat) : Nat :=
  (q.map (node_qty heap)).sum

/-- The state of one level stored under key `k` on the side `is_buy` is
consistent with the heap. -/
structure LevelOK (is_buy : Bool) (heap : List (Nat × Order)) (k : Price) (lvl : Level) :
    Prop where
  price_eq : lvl.price = k
  nonempty : lvl.order_queue ≠ []
  nodup : lvl.order_queue.Nodup
  nodes : ∀ a ∈ lvl.order_queue,
    ∃ o, map_find heap a = some o ∧ o.price = k ∧ o.is_buy = is_buy
  agg : lvl.aggregated_volume = queue_sum heap lvl.order_queue % U64

/-- A side map is in comparator order and all its levels are consistent. -/
structure SideOK (is_buy : Bool) (before : Price → Price → Bool) (heap : List (Nat × Order))
    (side : List (Price × Level)) : Prop where
  sorted : (side.map Prod.fst).Pairwise (fun x y => before x y = true)
  levels : ∀ p ∈ side, LevelOK is_buy heap p.1 p.2

/-- The representation invariant of the book: it holds in every state that the
public operations can produce, whatever their arguments. -/
structure WF (b : Implementation) : Prop where
  bids : SideOK true bid_before b.nodes b.bid_levels
  asks : SideOK false ask_before b.nodes b.ask_levels
  reg_keys : (b.order_registry.map Prod.fst).Nodup
  registry : ∀ oid a, map_find b.order_registry oid = some a →
    ∃ o, map_find b.nodes a = some o ∧ o.order_id = oid ∧
      ∃ lvl, level_at b o.is_buy o.price = some lvl ∧ a ∈ lvl.order_queue

/-- Every queued node is the node that the index holds for its order id.  It
holds as long as no order id is added while it rests. -/
def Indexed (b : Implementation) : Prop :=
  ∀ (s : Bool) (p : Price × Level) (a : Nat), p ∈ side_of b s → a ∈ p.2.order_queue →
    ∃ o, map_find b.nodes a = some o ∧ map_find b.order_registry o.order_id = some a

/-- The states reachable from the empty book by the public mutating
operations, with any arguments. -/
inductive Reachable : Implementation → Prop
  | init : Reachable new_book
  | add (b : Implementation) (o : Order) : Reachable b → Reachable (add_order b o)
  | cancel (b b1 : Implementation) (oid : Nat) (r : Bool) :
      Reachable b → cancel_order b oid = some (r, b1) → Reachable b1
  | amend (b b1 : Implementation) (oid : Nat) (px : Price) (qty : Nat) (r : Bool) :
      Reachable b → amend_order b oid px qty = some (r, b1) → Reachable b1

/-- The states reachable from the empty book when `add_order` is only called
with an order id that is not in the order index. -/
inductive ReachableFresh : Implementation → Prop
  | init : ReachableFresh new_book
  | add (b : Implementation) (o : Order) :
      ReachableFresh b → map_find b.order_registry o.order_id = none →
      ReachableFresh (add_order b o)
  | cancel (b b1 : Implementation) (oid : Nat) (r : Bool) :
      ReachableFresh b → cancel_order b oid = some (r, b1) → ReachableFresh b1
  | amend (b b1 : Implementation) (oid : Nat) (px : Price) (qty : Nat) (r : Bool) :
      ReachableFresh b → amend_order b oid px qty = some (r, b1) → ReachableFresh b1

/-- The comparator of the side map that holds the orders with flag `is_buy`. -/
def before_of (is_buy : Bool) : Price → Price → Bool :=
  if is_buy then bid_before else ask_before

/-- The state with heap `heap`, index `reg`, the side map of flag `s` replaced by
`side` and the other side map of `b`. -/
def with_side (s : Bool) (heap : List (Nat × Order)) (reg : List (Nat × Nat))
    (side : List (Price × Level)) (b : Implementation) : Implementation :=
  if s then ⟨heap, reg, side, b.ask_levels⟩ else ⟨heap, reg, b.bid_levels, side⟩

/-- The level that `insert_into_side` leaves at the price of `ord`, from the
level `l` found there before (if any). -/
def pushed_level (l : Option Level) (node : Nat) (ord : Order) : Level :=
  match l with
  | none => ⟨ord.price, wrap_add 0 ord.quantity, [node]⟩
  | some lvl => ⟨lvl.price, wrap_add lvl.aggregated_volume ord.quantity, lvl.order_queue ++ [node]⟩

/-- The level that `remove_from_side` leaves in place of `lvl` when the queue
does not become empty. -/
def popped_level (lvl : Level) (node : Nat) (ord : Order) : Level :=
  ⟨lvl.price, wrap_sub lvl.aggregated_volume ord.quantity, lvl.order_queue.erase node⟩

/-- Scenario A of the specification: three buy orders, two of them at 100.50. -/
def scenario_A : Implementation :=
  add_order (add_order (add_order new_book ⟨1, true, mkRat 201 2, 500, 0⟩)
    ⟨2, true, mkRat 401 4, 300, 0⟩) ⟨3, true, mkRat 201 2, 200, 0⟩

/-- A book with two bid levels and two ask levels (the orders of `test_cancel_operations`). -/
def two_sided_book : Implementation :=
  add_order (add_order (add_order (add_order (add_order new_book
    ⟨1001, true, 50, 100, 0⟩) ⟨1002, true, 50, 200, 0⟩) ⟨1003, true, mkRat 99 2, 150, 0⟩)
    ⟨2001, false, 51, 120, 0⟩) ⟨2002, false, mkRat 103 2, 180, 0⟩

/-- The state after `cancel_order(1001)` on `two_sided_book`. -/
def two_sided_after_cancel : Implementation :=
  ((cancel_order two_sided_book 1001).getD (false, new_book)).2

/-- The state after `amend_order(1002, 49.50, 70)` on `two_sided_book`. -/
def two_sided_after_amend : Implementation :=
  ((amend_order two_sided_book 1002 (mkRat 99 2) 70).getD (false, new_book)).2

/-- The book that holds the single buy order `(1, 100.00, 500)`. -/
def one_buy_book : Implementation :=
  add_order new_book ⟨1, true, 100, 500, 0⟩

/-- Scenario D before the amend: the single sell order `(1, 101.00, 400)`. -/
def scenario_D : Implementation :=
  add_order new_book ⟨1, false, 101, 400, 0⟩

/-- A book whose single bid level holds the largest 64-bit quantity. -/
def full_level_book : Implementation :=
  add_order new_book ⟨1, true, 100, 2 ^ 64 - 1, 0⟩

/-- Two buy orders of quantity 5 at 100.00. -/
def two_fives_book : Implementation :=
  add_order (add_order new_book ⟨1, true, 100, 5, 0⟩) ⟨2, true, 100, 5, 0⟩

/-- Two buy orders of quantity `2^63` at 100.00: their aggregate has wrapped to 0. -/
def wrapped_book : Implementation :=
  add_order (add_order new_book ⟨1, true, 100, 2 ^ 63, 0⟩) ⟨2, true, 100, 2 ^ 63, 0⟩

/-- Scenario B before the cancel: buy orders `(1, 100.00, 100)` and `(2, 100.00, 200)`. -/
def scenario_B : Implementation :=
  add_order (add_order new_book ⟨1, true, 100, 100, 0⟩) ⟨2, true, 100, 200, 0⟩

/-- The orders that currently rest: the orders behind the entries of the order index. -/
def resting_orders (b : Implementation) : List Order :=
  b.order_registry.filterMap (fun e => map_find b.nodes e.2)

/-- The snapshot as the specification words it, prices: the distinct prices among
the orders of side `s` (`true` for buy), highest first for the buy side and
lowest first for the sell side. -/
def spec_prices (s : Bool) (os : List Order) : List Price :=
  if s then
    (((os.filter (fun o => decide (o.is_buy = s))).map (fun o => o.price)).dedup).insertionSort
      (fun x y => x ≥ y)
  else
    (((os.filter (fun o => decide (o.is_buy = s))).map (fun o => o.price)).dedup).insertionSort
      (fun x y => x ≤ y)

/-- The snapshot as the specification words it, quantity: the sum of the
quantities of all orders of side `s` at price `p`. -/
def spec_quantity (s : Bool) (os : List Order) (p : Price) : Nat :=
  ((os.filter (fun o => decide (o.is_buy = s ∧ o.price = p))).map (fun o => o.quantity)).sum

/-- The snapshot as the specification words it: one entry per distinct price of
side `s`, best price first, with the sum of the quantities at that price. -/
def spec_levels (s : Bool) (os : List Order) : List PriceLevel :=
  (spec_prices s os).map (fun p => ⟨p, spec_quantity s os p⟩)

/-- The snapshot as the specification words it, at depth `depth`. -/
def spec_snapshot (os : List Order) (depth : Nat) : List PriceLevel × List PriceLevel :=
  ((spec_levels true os).take depth, (spec_levels false os).take depth)

/-- The entries of a snapshot with their quantities reduced to 64 bits. -/
def wrap_levels (l : List PriceLevel) : List PriceLevel :=
  l.map (fun e => ⟨e.price, e.total_quantity % U64⟩)

/-- The node at address `a` holds an order of side `s` at price `p`. -/
def node_at_level (heap : List (Nat × Order)) (s : Bool) (p : Price) (a : Nat) : Bool :=
  match map_find heap a with
  | some o => decide (o.is_buy = s ∧ o.price = p)
  | none => false

/-- The order with its timestamp set to 0. -/
def strip_time (o : Order) : Order := { o with timestamp_ns := 0 }

/-- An association list with the function `g` applied to every value. -/
def map_values {κ β γ : Type} (g : β → γ) (m : List (κ × β)) : List (κ × γ) :=
  m.map (fun e => (e.1, g e.2))

/-- The state with the timestamp of every node set to 0. -/
def strip_times (b : Implementation) : Implementation :=
  { b with nodes := map_values strip_time b.nodes }

/-- A call of one of the three public mutating operations. -/
inductive Op where
  | add (order : Order)
  | cancel (order_id : Nat)
  | amend (order_id : Nat) (new_price : Price) (new_quantity : Nat)
deriving DecidableEq

/-- The call with the timestamp of an added order set to 0. -/
def strip_op : Op → Op
  | Op.add o => Op.add (strip_time o)
  | Op.cancel oid => Op.cancel oid
  | Op.amend oid px qty => Op.amend oid px qty

/-- One call: its boolean result (`true` for `add_order`, which returns nothing)
and the state after it. -/
def apply_op (b : Implementation) : Op → Option (Bool × Implementation)
  | Op.add o => some (true, add_order b o)
  | Op.cancel oid => cancel_order b oid
  | Op.amend oid px qty => amend_order b oid px qty

/-- A sequence of calls: the results of the calls and the final state. -/
def run_ops : Implementation → List Op → Option (List Bool × Implementation)
  | b, [] => some ([], b)
  | b, op :: rest =>
    match apply_op b op with
    | none => none
    | some (r, b1) =>
      match run_ops b1 rest with
      | none => none
      | some (rs, b2) => some (r :: rs, b2)

/-- The order ids of the nodes of a queue, front first. -/
def queue_ids (b : Implementation) (q : List Nat) : List (Option Nat) :=
  q.map (fun a => (map_find b.nodes a).map (fun o => o.order_id))

/-- Two buy orders at 100.00; the second carries the smaller timestamp. -/
def late_first_calls : List Op :=
  [Op.add ⟨1, true, 100, 10, 500⟩, Op.add ⟨2, true, 100, 20, 100⟩, Op.cancel 7,
    Op.amend 1 100 15]

/-- The calls of `late_first_calls` with other timestamps. -/
def early_first_calls : List Op :=
  [Op.add ⟨1, true, 100, 10, 3⟩, Op.add ⟨2, true, 100, 20, 999⟩, Op.cancel 7,
    Op.amend 1 100 15]

/-- The states that a sequence of public calls reaches from the state `b`. -/
inductive Steps (b : Implementation) : Implementation → Prop
  | refl : Steps b b
  | step (b1 b2 : Implementation) (op : Op) (r : Bool) :
      Steps b b1 → apply_op b1 op = some (r, b2) → Steps b b2

/-- The node at address `a` holds the order `o`, is queued in the level at the
price of `o` on its side, and no entry of the order index points to it. -/
structure Orphan (a : Nat) (o : Order) (b : Implementation) : Prop where
  live : map_find b.nodes a = some o
  queued : ∃ lvl, level_at b o.is_buy o.price = some lvl ∧ a ∈ lvl.order_queue
  unindexed : ∀ k a1, map_find b.order_registry k = some a1 → a1 ≠ a

/-- The book in which buy order 1 was added twice. -/
def twice_added_book : Implementation :=
  add_order one_buy_book ⟨1, true, 100, 300, 0⟩

/-- The history of a state: `History b placed n` says that `n` public calls
(adds only with ids that are not resting) lead from the empty book to `b`, and
that `placed` maps the address of a node to the number of the call that placed
its order: its `add_order`, or the last `amend_order` that changed its price.  A
cancel, an amend of an unknown id and a quantity-only amend place nothing. -/
inductive History : Implementation → List (Nat × Nat) → Nat → Prop
  | init : History new_book [] 0
  | add (b : Implementation) (placed : List (Nat × Nat)) (n : Nat) (o : Order) (a : Nat) :
      History b placed n → map_find b.order_registry o.order_id = none →
      map_find (add_order b o).order_registry o.order_id = some a →
      History (add_order b o) (map_assign placed a n) (n + 1)
  | cancel (b b1 : Implementation) (placed : List (Nat × Nat)) (n : Nat) (oid : Nat)
      (r : Bool) :
      History b placed n → cancel_order b oid = some (r, b1) → History b1 placed (n + 1)
  | amend_in_place (b b1 : Implementation) (placed : List (Nat × Nat)) (n : Nat) (oid : Nat)
      (px : Price) (qty : Nat) (r : Bool) :
      History b placed n → amend_order b oid px qty = some (r, b1) →
      (∀ o, resting_order b oid = some o → o.price = px) → History b1 placed (n + 1)
  | amend_price (b b1 : Implementation) (placed : List (Nat × Nat)) (n : Nat) (oid : Nat)
      (px : Price) (qty : Nat) (r : Bool) (o : Order) (a : Nat) :
      History b placed n → amend_order b oid px qty = some (r, b1) →
      resting_order b oid = some o → o.price ≠ px →
      map_find b1.order_registry oid = some a →
      History b1 (map_assign placed a n) (n + 1)

/-- The node `a1` was placed by an earlier call than the node `a2`. -/
def placed_before (placed : List (Nat × Nat)) (a1 a2 : Nat) : Prop :=
  ∃ t1 t2, map_find placed a1 = some t1 ∧ map_find placed a2 = some t2 ∧ t1 < t2

/-- Every queued node was placed by one of the first `n` calls, and every queue
is in the order of placement. -/
structure PlacedOK (b : Implementation) (placed : List (Nat × Nat)) (n : Nat) : Prop where
  bound : ∀ s e, e ∈ side_of b s → ∀ a ∈ e.2.order_queue,
    ∃ t, map_find placed a = some t ∧ t < n
  ordered : ∀ s e, e ∈ side_of b s → e.2.order_queue.Pairwise (placed_before placed)

/-- Two buy orders at 100.00, then order 1 is moved to 101.00 and back to 100.00. -/
def fifo_book_2 : Implementation :=
  add_order (add_order new_book ⟨1, true, 100, 10, 0⟩) ⟨2, true, 100, 20, 0⟩

/-- The state after `amend_order(1, 101.00, 10)` on `fifo_book_2`. -/
def fifo_book_3 : Implementation :=
  ((amend_order fifo_book_2 1 101 10).getD (false, new_book)).2

/-- The state after `amend_order(1, 100.00, 10)` on `fifo_book_3`. -/
def fifo_book_4 : Implementation :=
  ((amend_order fifo_book_3 1 100 10).getD (false, new_book)).2

/-- The levels that the loop of `extract_levels` copies: the first `depth` levels
of the side, each with its price and aggregate. -/
def top_levels (side : List (Price × Level)) (depth : Nat) : List PriceLevel :=
  (side.take depth).map (fun p => ⟨p.2.price, p.2.aggregated_volume⟩)

/-! ## Association lists -/

section Maps

variable {κ β : Type} [DecidableEq κ]

theorem map_find_mem {m : List (κ × β)} {k : κ} {v : β} (h : map_find m k = some v) :
    (k, v) ∈ m := by
  induction m with
  | nil => simp [map_find] at h
  | cons p r ih =>
    obtain ⟨k1, v1⟩ := p
    by_cases hk : k1 = k
    · simp [map_find, hk] at h
      subst hk; subst h; simp
    · simp [map_find, hk] at h
      exact List.mem_cons_of_mem _ (ih h)

theorem map_find_eq_none {m : List (κ × β)} {k : κ} :
    map_find m k = none ↔ k ∉ m.map Prod.fst := by
  induction m with
  | nil => simp [map_find]
  | cons p r ih =>
    obtain ⟨k1, v1⟩ := p
    by_cases hk : k1 = k
    · simp [map_find, hk]
    · simp only [map_find, hk, if_false, ih, List.map_cons, List.mem_cons]
      constructor
      · intro h1 h2
        rcases h2 with h2 | h2
        · exact hk h2.symm
        · exact h1 h2
      · intro h1 h2
        exact h1 (Or.inr h2)

theorem map_find_of_mem {m : List (κ × β)} {k : κ} {v : β}
    (hn : (m.map Prod.fst).Nodup) (h : (k, v) ∈ m) : map_find m k = some v := by
  induction m with
  | nil => simp at h
  | cons p r ih =>
    obtain ⟨k1, v1⟩ := p
    simp only [List.map_cons, List.nodup_cons] at hn
    rcases List.mem_cons.1 h with h | h
    · cases h
      simp [map_find]
    · have hk : k1 ≠ k := by
        intro e
        subst e
        exact hn.1 (List.mem_map_of_mem Prod.fst h)
      simp only [map_find, hk, if_false]
      exact ih hn.2 h

theorem map_find_erase (m : List (κ × β)) (x k : κ) :
    map_find (map_erase m x) k = if k = x then none else map_find m k := by
  induction m with
  | nil => simp [map_erase, map_find]
  | cons p r ih =>
    obtain ⟨k1, v1⟩ := p
    unfold map_erase at ih ⊢
    by_cases h1 : k1 = x
    · subst h1
      by_cases h2 : k = k1
      · subst h2; simpa [List.filter_cons] using ih
      · have h3 : k1 ≠ k := fun e => h2 e.symm
        simpa [List.filter_cons, map_find, h2, h3] using ih
    · by_cases h2 : k1 = k
      · subst h2
        simp [List.filter_cons, h1, map_find]
      · simpa [List.filter_cons, h1, map_find, h2] using ih

theorem map_find_update (m : List (κ × β)) (x k : κ) (v : β) :
    map_find (map_update m x v) k =
      if k = x then (map_find m x).map (fun _ => v) else map_find m k := by
  induction m with
  | nil => simp [map_update, map_find]
  | cons p r ih =>
    obtain ⟨k1, v1⟩ := p
    by_cases h1 : k1 = x
    · subst h1
      by_cases h2 : k = k1
      · subst h2; simp [map_update, map_find]
      · have h3 : k1 ≠ k := fun e => h2 e.symm
        simpa [map_update, map_find, h2, h3] using ih
    · by_cases h2 : k1 = k
      · subst h2
        simp [map_update, h1, map_find]
      · simpa [map_update, h1, map_find, h2] using ih

theorem map_update_keys (m : List (κ × β)) (x : κ) (v : β) :
    (map_update m x v).map Prod.fst = m.map Prod.fst := by
  induction m with
  | nil => simp [map_update]
  | cons p r ih =>
    obtain ⟨k1, v1⟩ := p
    by_cases h1 : k1 = x <;> simp [map_update, h1, ih]

theorem map_find_assign (m : List (κ × β)) (x k : κ) (v : β) :
    map_find (map_assign m x v) k = if k = x then some v else map_find m k := by
  unfold map_assign
  cases hx : map_find m x with
  | some w =>
    simp only [map_find_update, hx, Option.map_some']
  | none =>
    simp only
    induction m with
    | nil =>
      by_cases h : k = x
      · subst h; simp [map_find]
      · have h3 : x ≠ k := fun e => h e.symm
        simp [map_find, h, h3]
    | cons p r ih =>
      obtain ⟨k1, v1⟩ := p
      by_cases h1 : k1 = x
      · simp [map_find, h1] at hx
      · simp only [map_find, h1, if_false] at hx
        by_cases h2 : k1 = k
        · subst h2
          have h3 : k1 ≠ x := h1
          simp [map_find, h3]
        · simpa [map_find, h2] using ih hx

theorem map_assign_keys_nodup {m : List (κ × β)} (x : κ) (v : β)
    (h : (m.map Prod.fst).Nodup) : ((map_assign m x v).map Prod.fst).Nodup := by
  unfold map_assign
  cases hx : map_find m x with
  | some w => simpa [map_update_keys] using h
  | none =>
    simp only [List.map_append, List.map_cons, List.map_nil]
    rw [List.nodup_append]
    refine ⟨h, by simp, ?_⟩
    intro a ha hb
    have : a = x := by simpa using hb
    subst this
    exact (map_find_eq_none.1 hx) ha

theorem map_erase_keys_nodup {m : List (κ × β)} (x : κ)
    (h : (m.map Prod.fst).Nodup) : ((map_erase m x).map Prod.fst).Nodup := by
  unfold map_erase
  exact h.sublist ((List.filter_sublist _).map _)

theorem mem_map_erase {m : List (κ × β)} {x : κ} {p : κ × β} :
    p ∈ map_erase m x ↔ p ∈ m ∧ p.1 ≠ x := by
  simp [map_erase, List.mem_filter]

theorem mem_map_update {m : List (κ × β)} {x : κ} {v : β} {p : κ × β}
    (h : p ∈ map_update m x v) : (p ∈ m ∧ p.1 ≠ x) ∨ (p = (x, v) ∧ x ∈ m.map Prod.fst) := by
  induction m with
  | nil => simp [map_update] at h
  | cons q r ih =>
    obtain ⟨k1, v1⟩ := q
    by_cases h1 : k1 = x
    · simp only [map_update, h1, if_true, List.mem_cons] at h
      rcases h with h | h
      · right; subst h1; exact ⟨h, by simp⟩
      · rcases ih h with ⟨h2, h3⟩ | ⟨h2, h3⟩
        · left; exact ⟨List.mem_cons_of_mem _ h2, h3⟩
        · right; exact ⟨h2, by simp [h3]⟩
    · simp only [map_update, h1, if_false, List.mem_cons] at h
      rcases h with h | h
      · left; subst h; exact ⟨by simp, h1⟩
      · rcases ih h with ⟨h2, h3⟩ | ⟨h2, h3⟩
        · left; exact ⟨List.mem_cons_of_mem _ h2, h3⟩
        · right; exact ⟨h2, by simp [h3]⟩

end Maps

/-! ## Ordered maps -/

theorem bid_before_cmp : StrictCmp bid_before where
  irrefl a := by simp [bid_before]
  trans a b c h1 h2 := by
    simp only [bid_before, decide_eq_true_eq] at *
    exact lt_trans h2 h1
  total a b h := by
    simp only [bid_before, decide_eq_true_eq]
    rcases lt_or_gt_of_ne h with h1 | h1
    · exact Or.inr h1
    · exact Or.inl h1

theorem ask_before_cmp : StrictCmp ask_before where
  irrefl a := by simp [ask_before]
  trans a b c h1 h2 := by
    simp only [ask_before, decide_eq_true_eq] at *
    exact lt_trans h1 h2
  total a b h := by
    simp only [ask_before, decide_eq_true_eq]
    exact lt_or_gt_of_ne h

theorem sorted_keys_nodup {before : Price → Price → Bool} (hc : StrictCmp before)
    {keys : List Price} (h : keys.Pairwise (fun x y => before x y = true)) : keys.Nodup := by
  refine List.Pairwise.imp ?_ h
  intro a b hab e
  subst e
  rw [hc.irrefl] at hab
  exact Bool.false_ne_true hab

theorem mem_side_insert {before : Price → Price → Bool} {m : List (Price × Level)}
    {x : Price} {v : Level} {p : Price × Level} :
    p ∈ side_insert before m x v ↔ p = (x, v) ∨ p ∈ m := by
  induction m with
  | nil => simp [side_insert]
  | cons q r ih =>
    obtain ⟨k, w⟩ := q
    by_cases h : before x k = true
    · simp [side_insert, h]
    · simp only [side_insert, h, Bool.false_eq_true, if_false, List.mem_cons, ih]
      tauto

theorem side_insert_keys_mem {before : Price → Price → Bool} {m : List (Price × Level)}
    {x : Price} {v : Level} {k : Price} :
    k ∈ (side_insert before m x v).map Prod.fst ↔ k = x ∨ k ∈ m.map Prod.fst := by
  simp only [List.mem_map, mem_side_insert]
  constructor
  · rintro ⟨p, hp | hp, rfl⟩
    · left; rw [hp]
    · right; exact ⟨p, hp, rfl⟩
  · rintro (h | ⟨p, hp, rfl⟩)
    · exact ⟨(x, v), Or.inl rfl, h.symm⟩
    · exact ⟨p, Or.inr hp, rfl⟩

theorem sorted_side_insert {before : Price → Price → Bool} (hc : StrictCmp before)
    {m : List (Price × Level)} {x : Price} (v : Level)
    (hs : (m.map Prod.fst).Pairwise (fun a b => before a b = true))
    (hx : map_find m x = none) :
    ((side_insert before m x v).map Prod.fst).Pairwise (fun a b => before a b = true) := by
  induction m with
  | nil => simp [side_insert]
  | cons q r ih =>
    obtain ⟨k, w⟩ := q
    have hkx : k ≠ x := by
      intro e
      simp [map_find, e] at hx
    have hx1 : map_find r x = none := by
      simpa [map_find, hkx] using hx
    simp only [List.map_cons, List.pairwise_cons] at hs
    by_cases h : before x k = true
    · simp only [side_insert, h, if_true, List.map_cons, List.pairwise_cons]
      refine ⟨?_, hs⟩
      intro a ha
      rcases List.mem_cons.1 ha with ha | ha
      · rw [ha]; exact h
      · exact hc.trans _ _ _ h (hs.1 a ha)
    · simp only [side_insert, h, Bool.false_eq_true, if_false, List.map_cons,
        List.pairwise_cons]
      refine ⟨?_, ih hs.2 hx1⟩
      intro a ha
      rcases side_insert_keys_mem.1 ha with ha | ha
      · rw [ha]
        rcases hc.total k x hkx with h1 | h1
        · exact h1
        · exact absurd h1 h
      · exact hs.1 a ha

theorem map_find_side_insert {before : Price → Price → Bool} {m : List (Price × Level)}
    {x : Price} (v : Level) (k : Price) (hx : map_find m x = none) :
    map_find (side_insert before m x v) k = if k = x then some v else map_find m k := by
  induction m with
  | nil =>
    by_cases h : k = x
    · subst h; simp [side_insert, map_find]
    · have h3 : x ≠ k := fun e => h e.symm
      simp [side_insert, map_find, h, h3]
  | cons q r ih =>
    obtain ⟨k1, w⟩ := q
    have hkx : k1 ≠ x := by
      intro e
      simp [map_find, e] at hx
    have hx1 : map_find r x = none := by
      simpa [map_find, hkx] using hx
    by_cases h : before x k1 = true
    · by_cases h2 : k = x
      · subst h2; simp [side_insert, h, map_find]
      · have h3 : x ≠ k := fun e => h2 e.symm
        simp [side_insert, h, map_find, h2, h3]
    · by_cases h2 : k1 = k
      · subst h2
        simp [side_insert, h, map_find, hkx]
      · simp [side_insert, h, map_find, h2, ih hx1]

theorem sorted_map_erase {before : Price → Price → Bool} {m : List (Price × Level)} (x : Price)
    (hs : (m.map Prod.fst).Pairwise (fun a b => before a b = true)) :
    ((map_erase m x).map Prod.fst).Pairwise (fun a b => before a b = true) := by
  unfold map_erase
  exact hs.sublist ((List.filter_sublist _).map _)

theorem sorted_map_update {before : Price → Price → Bool} {m : List (Price × Level)} (x : Price)
    (v : Level) (hs : (m.map Prod.fst).Pairwise (fun a b => before a b = true)) :
    ((map_update m x v).map Prod.fst).Pairwise (fun a b => before a b = true) := by
  rw [map_update_keys]
  exact hs

/-! ## The heap and 64-bit arithmetic -/

theorem lt_fresh_node (heap : List (Nat × Order)) :
    ∀ a ∈ heap.map Prod.fst, a < fresh_node heap := by
  unfold fresh_node
  induction heap with
  | nil => simp
  | cons p r ih =>
    intro a ha
    simp only [List.map_cons, List.mem_cons] at ha
    simp only [List.map_cons, List.foldr_cons]
    rcases ha with ha | ha
    · omega
    · have := ih a ha
      omega

theorem map_find_fresh_node (heap : List (Nat × Order)) :
    map_find heap (fresh_node heap) = none := by
  rw [map_find_eq_none]
  intro h
  exact lt_irrefl _ (lt_fresh_node heap _ h)

theorem queue_sum_congr {h1 h2 : List (Nat × Order)} {q : List Nat}
    (h : ∀ a ∈ q, map_find h1 a = map_find h2 a) : queue_sum h1 q = queue_sum h2 q := by
  unfold queue_sum
  congr 1
  apply List.map_congr_left
  intro a ha
  simp [node_qty, h a ha]

theorem queue_sum_append (heap : List (Nat × Order)) (q : List Nat) (a : Nat) :
    queue_sum heap (q ++ [a]) = queue_sum heap q + node_qty heap a := by
  simp [queue_sum]

theorem queue_sum_erase (heap : List (Nat × Order)) {q : List Nat} {a : Nat} (h : a ∈ q) :
    queue_sum heap q = node_qty heap a + queue_sum heap (q.erase a) := by
  induction q with
  | nil => simp at h
  | cons c r ih =>
    by_cases hc : c = a
    · subst hc; simp [queue_sum]
    · have hr : a ∈ r := by
        rcases List.mem_cons.1 h with h | h
        · exact absurd h.symm hc
        · exact h
      have := ih hr
      simp only [queue_sum, List.map_cons, List.sum_cons] at this ⊢
      rw [List.erase_cons_tail (by simpa using hc)]
      simp only [List.map_cons, List.sum_cons]
      omega

theorem wrap_add_mod (s q : Nat) : wrap_add (s % U64) q = (s + q) % U64 := by
  unfold wrap_add
  exact Nat.mod_add_mod s U64 q

theorem wrap_sub_mod {s q : Nat} (h : q ≤ s) : wrap_sub (s % U64) q = (s - q) % U64 := by
  unfold wrap_sub U64
  omega

/-! ## Preservation of the representation invariant -/

theorem LevelOK.level_heap_congr {s : Bool} {h1 h2 : List (Nat × Order)} {k : Price} {lvl : Level}
    (h : LevelOK s h1 k lvl)
    (hc : ∀ a ∈ lvl.order_queue, map_find h2 a = map_find h1 a) : LevelOK s h2 k lvl where
  price_eq := h.price_eq
  nonempty := h.nonempty
  nodup := h.nodup
  nodes a ha := by
    rw [hc a ha]
    exact h.nodes a ha
  agg := by
    rw [h.agg, queue_sum_congr hc]

theorem SideOK.side_heap_congr {s : Bool} {before : Price → Price → Bool}
    {h1 h2 : List (Nat × Order)} {side : List (Price × Level)} (h : SideOK s before h1 side)
    (hc : ∀ p ∈ side, ∀ a ∈ p.2.order_queue, map_find h2 a = map_find h1 a) :
    SideOK s before h2 side where
  sorted := h.sorted
  levels p hp := (h.levels p hp).level_heap_congr (hc p hp)

theorem SideOK.queued_live {s : Bool} {before : Price → Price → Bool}
    {heap : List (Nat × Order)} {side : List (Price × Level)} (h : SideOK s before heap side)
    {p : Price × Level} (hp : p ∈ side) {a : Nat} (ha : a ∈ p.2.order_queue) :
    ∃ o, map_find heap a = some o ∧ o.price = p.1 ∧ o.is_buy = s :=
  (h.levels p hp).nodes a ha

theorem insert_into_side_new {before : Price → Price → Bool} {node : Nat} {ord : Order}
    {side : List (Price × Level)} (h : map_find side ord.price = none) :
    insert_into_side before node ord side =
      side_insert before side ord.price ⟨ord.price, wrap_add 0 ord.quantity, [node]⟩ := by
  simp [insert_into_side, h, Level.new]

theorem insert_into_side_old {before : Price → Price → Bool} {node : Nat} {ord : Order}
    {side : List (Price × Level)} {lvl : Level} (h : map_find side ord.price = some lvl) :
    insert_into_side before node ord side =
      map_update side ord.price
        ⟨lvl.price, wrap_add lvl.aggregated_volume ord.quantity, lvl.order_queue ++ [node]⟩ := by
  simp [insert_into_side, h]

theorem SideOK.insert {s : Bool} {before : Price → Price → Bool} (hc : StrictCmp before)
    {heap : List (Nat × Order)} {side : List (Price × Level)} (h : SideOK s before heap side)
    {node : Nat} {ord : Order} (hs : ord.is_buy = s) (hfresh : map_find heap node = none) :
    SideOK s before (map_assign heap node ord) (insert_into_side before node ord side) := by
  have hold : ∀ p ∈ side, ∀ a ∈ p.2.order_queue,
      map_find (map_assign heap node ord) a = map_find heap a := by
    intro p hp a ha
    obtain ⟨o, ho, -⟩ := h.queued_live hp ha
    have hne : a ≠ node := by
      intro e
      rw [e, hfresh] at ho
      exact Option.noConfusion ho
    simp [map_find_assign, hne]
  have hnew : map_find (map_assign heap node ord) node = some ord := by
    simp [map_find_assign]
  cases hf : map_find side ord.price with
  | none =>
    rw [insert_into_side_new hf]
    refine ⟨sorted_side_insert hc _ h.sorted hf, ?_⟩
    intro p hp
    rcases mem_side_insert.1 hp with hp | hp
    · subst hp
      refine ⟨rfl, by simp, by simp, ?_, ?_⟩
      · intro a ha
        have : a = node := by simpa using ha
        subst this
        exact ⟨ord, hnew, rfl, hs⟩
      · simp [queue_sum, node_qty, hnew, wrap_add]
    · exact (h.levels p hp).level_heap_congr (hold p hp)
  | some lvl =>
    rw [insert_into_side_old hf]
    have hmem := map_find_mem hf
    have hl : LevelOK s heap ord.price lvl := h.levels _ hmem
    refine ⟨sorted_map_update _ _ h.sorted, ?_⟩
    intro p hp
    rcases mem_map_update hp with ⟨hp, -⟩ | ⟨hp, -⟩
    · exact (h.levels p hp).level_heap_congr (hold p hp)
    · subst hp
      have hnotin : node ∉ lvl.order_queue := by
        intro hin
        obtain ⟨o, ho, -⟩ := hl.nodes node hin
        rw [hfresh] at ho
        exact Option.noConfusion ho
      refine ⟨hl.price_eq, by simp, ?_, ?_, ?_⟩
      · simp only
        rw [List.nodup_append]
        refine ⟨hl.nodup, by simp, ?_⟩
        intro a ha hb
        have : a = node := by simpa using hb
        subst this
        exact hnotin ha
      · intro a ha
        simp only [List.mem_append, List.mem_singleton] at ha
        rcases ha with ha | ha
        · rw [hold _ hmem a ha]
          exact hl.nodes a ha
        · subst ha
          exact ⟨ord, hnew, rfl, hs⟩
      · simp only
        rw [queue_sum_append, queue_sum_congr (hold _ hmem), hl.agg, wrap_add_mod]
        simp [node_qty, hnew]

theorem SideOK.heap_change_at {s : Bool} {before : Price → Price → Bool}
    {heap heap1 : List (Nat × Order)} {side : List (Price × Level)}
    (h : SideOK s before heap side) {node : Nat}
    (hnot : ∀ p ∈ side, node ∉ p.2.order_queue)
    (hh : ∀ a, a ≠ node → map_find heap1 a = map_find heap a) : SideOK s before heap1 side := by
  refine h.side_heap_congr ?_
  intro p hp a ha
  apply hh
  intro e
  subst e
  exact hnot p hp ha

theorem SideOK.not_queued {s : Bool} {before : Price → Price → Bool}
    {heap : List (Nat × Order)} {side : List (Price × Level)} (h : SideOK s before heap side)
    {node : Nat} {ord : Order} (hn : map_find heap node = some ord)
    {p : Price × Level} (hp : p ∈ side) (hne : ord.price ≠ p.1 ∨ ord.is_buy ≠ s) :
    node ∉ p.2.order_queue := by
  intro hin
  obtain ⟨o, ho, h1, h2⟩ := h.queued_live hp hin
  rw [hn] at ho
  cases ho
  rcases hne with hne | hne
  · exact hne h1
  · exact hne h2

theorem remove_from_side_eq {node : Nat} {ord : Order} {side : List (Price × Level)}
    {price : Price} {lvl : Level} (hf : map_find side price = some lvl)
    (hin : node ∈ lvl.order_queue) :
    remove_from_side node ord side price =
      some (if lvl.order_queue.erase node = [] then map_erase side price
        else map_update side price
          ⟨lvl.price, wrap_sub lvl.aggregated_volume ord.quantity,
            lvl.order_queue.erase node⟩) := by
  simp only [remove_from_side, hf, hin, if_true, List.isEmpty_iff]
  split <;> rfl

theorem SideOK.remove {s : Bool} {before : Price → Price → Bool}
    {heap : List (Nat × Order)} {side : List (Price × Level)} (h : SideOK s before heap side)
    {node : Nat} {ord : Order} {lvl : Level} (hn : map_find heap node = some ord)
    (hf : map_find side ord.price = some lvl) (hin : node ∈ lvl.order_queue) :
    SideOK s before (map_erase heap node)
      (if lvl.order_queue.erase node = [] then map_erase side ord.price
        else map_update side ord.price
          ⟨lvl.price, wrap_sub lvl.aggregated_volume ord.quantity,
            lvl.order_queue.erase node⟩) := by
  have hmem := map_find_mem hf
  have hl : LevelOK s heap ord.price lvl := h.levels _ hmem
  have hh : ∀ a, a ≠ node → map_find (map_erase heap node) a = map_find heap a := by
    intro a ha
    simp [map_find_erase, ha]
  have hother : ∀ p ∈ side, p.1 ≠ ord.price → LevelOK s (map_erase heap node) p.1 p.2 := by
    intro p hp hne
    refine (h.levels p hp).level_heap_congr ?_
    intro a ha
    apply hh
    intro e
    subst e
    exact h.not_queued hn hp (Or.inl (fun e => hne e.symm)) ha
  split
  · refine ⟨sorted_map_erase _ h.sorted, ?_⟩
    intro p hp
    obtain ⟨hp1, hp2⟩ := mem_map_erase.1 hp
    exact hother p hp1 hp2
  · rename_i hne
    refine ⟨sorted_map_update _ _ h.sorted, ?_⟩
    intro p hp
    rcases mem_map_update hp with ⟨hp1, hp2⟩ | ⟨hp1, -⟩
    · exact hother p hp1 hp2
    · subst hp1
      have hsub : ∀ a ∈ lvl.order_queue.erase node, a ∈ lvl.order_queue ∧ a ≠ node := by
        intro a ha
        have := (hl.nodup.mem_erase_iff).1 ha
        exact ⟨this.2, this.1⟩
      refine ⟨hl.price_eq, hne, hl.nodup.erase _, ?_, ?_⟩
      · intro a ha
        obtain ⟨h1, h2⟩ := hsub a ha
        rw [hh a h2]
        exact hl.nodes a h1
      · simp only
        have hsum := queue_sum_erase heap hin
        have hq : node_qty heap node = ord.quantity := by simp [node_qty, hn]
        rw [hq] at hsum
        have hc : queue_sum (map_erase heap node) (lvl.order_queue.erase node) =
            queue_sum heap (lvl.order_queue.erase node) :=
          queue_sum_congr (fun a ha => hh a (hsub a ha).2)
        rw [hc, hl.agg, wrap_sub_mod (by omega)]
        congr 1
        omega

theorem requantify_side_eq {side : List (Price × Level)} {px : Price} {lvl : Level}
    (old_qty new_qty : Nat) (hf : map_find side px = some lvl) :
    requantify_side side px old_qty new_qty =
      some (map_update side px
        ⟨lvl.price, wrap_add (wrap_sub lvl.aggregated_volume old_qty) new_qty,
          lvl.order_queue⟩) := by
  simp [requantify_side, hf]

theorem SideOK.requantify {s : Bool} {before : Price → Price → Bool}
    {heap : List (Nat × Order)} {side : List (Price × Level)} (h : SideOK s before heap side)
    {node : Nat} {ord : Order} {lvl : Level} (new_qty : Nat)
    (hn : map_find heap node = some ord)
    (hf : map_find side ord.price = some lvl) (hin : node ∈ lvl.order_queue) :
    SideOK s before (map_update heap node { ord with quantity := new_qty })
      (map_update side ord.price
        ⟨lvl.price, wrap_add (wrap_sub lvl.aggregated_volume ord.quantity) new_qty,
          lvl.order_queue⟩) := by
  have hmem := map_find_mem hf
  have hl : LevelOK s heap ord.price lvl := h.levels _ hmem
  have hh : ∀ a, a ≠ node →
      map_find (map_update heap node { ord with quantity := new_qty }) a = map_find heap a := by
    intro a ha
    simp [map_find_update, ha]
  have hnew : map_find (map_update heap node { ord with quantity := new_qty }) node =
      some { ord with quantity := new_qty } := by
    simp [map_find_update, hn]
  refine ⟨sorted_map_update _ _ h.sorted, ?_⟩
  intro p hp
  rcases mem_map_update hp with ⟨hp1, hp2⟩ | ⟨hp1, -⟩
  · refine (h.levels p hp1).level_heap_congr ?_
    intro a ha
    apply hh
    intro e
    subst e
    exact h.not_queued hn hp1 (Or.inl (fun e => hp2 e.symm)) ha
  · subst hp1
    refine ⟨hl.price_eq, hl.nonempty, hl.nodup, ?_, ?_⟩
    · intro a ha
      by_cases e : a = node
      · subst e
        obtain ⟨o, ho, h1, h2⟩ := hl.nodes a ha
        rw [hn] at ho
        cases ho
        exact ⟨_, hnew, h1, h2⟩
      · rw [hh a e]
        exact hl.nodes a ha
    · simp only
      have hsub : ∀ a ∈ lvl.order_queue.erase node, a ≠ node := by
        intro a ha
        exact ((hl.nodup.mem_erase_iff).1 ha).1
      have hsum := queue_sum_erase heap hin
      have hsum1 := queue_sum_erase (map_update heap node { ord with quantity := new_qty }) hin
      have hq : node_qty heap node = ord.quantity := by simp [node_qty, hn]
      have hq1 : node_qty (map_update heap node { ord with quantity := new_qty }) node =
          new_qty := by simp [node_qty, hnew]
      have hc : queue_sum (map_update heap node { ord with quantity := new_qty })
            (lvl.order_queue.erase node) = queue_sum heap (lvl.order_queue.erase node) :=
        queue_sum_congr (fun a ha => hh a (hsub a ha))
      rw [hq] at hsum
      rw [hq1, hc] at hsum1
      rw [hsum1, hl.agg, wrap_sub_mod (by omega), wrap_add_mod]
      congr 1
      omega

/-! ## The operations, one side at a time -/

theorem before_of_cmp (s : Bool) : StrictCmp (before_of s) := by
  cases s
  · exact ask_before_cmp
  · exact bid_before_cmp

@[simp] theorem with_side_nodes (s : Bool) (heap : List (Nat × Order)) (reg : List (Nat × Nat))
    (side : List (Price × Level)) (b : Implementation) :
    (with_side s heap reg side b).nodes = heap := by
  cases s <;> rfl

@[simp] theorem with_side_registry (s : Bool) (heap : List (Nat × Order))
    (reg : List (Nat × Nat)) (side : List (Price × Level)) (b : Implementation) :
    (with_side s heap reg side b).order_registry = reg := by
  cases s <;> rfl

theorem side_of_with_side (s t : Bool) (heap : List (Nat × Order)) (reg : List (Nat × Nat))
    (side : List (Price × Level)) (b : Implementation) :
    side_of (with_side s heap reg side b) t = if t = s then side else side_of b t := by
  cases s <;> cases t <;> rfl

@[simp] theorem side_of_with_side_self (s : Bool) (heap : List (Nat × Order))
    (reg : List (Nat × Nat)) (side : List (Price × Level)) (b : Implementation) :
    side_of (with_side s heap reg side b) s = side := by
  cases s <;> rfl

theorem side_of_with_side_ne {s t : Bool} (h : t ≠ s) (heap : List (Nat × Order))
    (reg : List (Nat × Nat)) (side : List (Price × Level)) (b : Implementation) :
    side_of (with_side s heap reg side b) t = side_of b t := by
  cases s <;> cases t <;> first | rfl | exact absurd rfl h

theorem WF.side {b : Implementation} (h : WF b) (s : Bool) :
    SideOK s (before_of s) b.nodes (side_of b s) := by
  cases s
  · exact h.asks
  · exact h.bids

theorem WF.of_sides {b : Implementation}
    (hs : ∀ s, SideOK s (before_of s) b.nodes (side_of b s))
    (hk : (b.order_registry.map Prod.fst).Nodup)
    (hr : ∀ oid a, map_find b.order_registry oid = some a →
      ∃ o, map_find b.nodes a = some o ∧ o.order_id = oid ∧
        ∃ lvl, level_at b o.is_buy o.price = some lvl ∧ a ∈ lvl.order_queue) : WF b :=
  ⟨hs true, hs false, hk, hr⟩

theorem insert_order_eq (b : Implementation) (o : Order) :
    insert_order b o =
      with_side o.is_buy (map_assign b.nodes (fresh_node b.nodes) o)
        (map_assign b.order_registry o.order_id (fresh_node b.nodes))
        (insert_into_side (before_of o.is_buy) (fresh_node b.nodes) o (side_of b o.is_buy)) b := by
  cases h : o.is_buy <;> simp [insert_order, with_side, side_of, before_of, h]

theorem remove_order_eq {b : Implementation} {oid a : Nat} {o : Order} {lvl : Level}
    (hr : map_find b.order_registry oid = some a) (hn : map_find b.nodes a = some o)
    (hf : level_at b o.is_buy o.price = some lvl) (hin : a ∈ lvl.order_queue) :
    remove_order b oid =
      some (true, with_side o.is_buy (map_erase b.nodes a) (map_erase b.order_registry oid)
        (if lvl.order_queue.erase a = [] then map_erase (side_of b o.is_buy) o.price
          else map_update (side_of b o.is_buy) o.price
            ⟨lvl.price, wrap_sub lvl.aggregated_volume o.quantity, lvl.order_queue.erase a⟩)
        b) := by
  unfold level_at at hf
  cases h : o.is_buy
  · simp only [h, side_of, Bool.false_eq_true, if_false] at hf
    simp [remove_order, hr, hn, h, remove_from_side_eq hf hin, with_side, side_of]
  · simp only [h, side_of, if_true] at hf
    simp [remove_order, hr, hn, h, remove_from_side_eq hf hin, with_side, side_of]

theorem modify_order_qty_eq {b : Implementation} {oid a : Nat} {o : Order} {lvl : Level}
    (new_qty : Nat)
    (hr : map_find b.order_registry oid = some a) (hn : map_find b.nodes a = some o)
    (hf : level_at b o.is_buy o.price = some lvl) :
    modify_order b oid o.price new_qty =
      some (true, with_side o.is_buy (map_update b.nodes a { o with quantity := new_qty })
        b.order_registry
        (map_update (side_of b o.is_buy) o.price
          ⟨lvl.price, wrap_add (wrap_sub lvl.aggregated_volume o.quantity) new_qty,
            lvl.order_queue⟩)
        b) := by
  unfold level_at at hf
  cases h : o.is_buy
  · simp only [h, side_of, Bool.false_eq_true, if_false] at hf
    simp [modify_order, hr, hn, h, requantify_side_eq _ _ hf, with_side, side_of]
  · simp only [h, side_of, if_true] at hf
    simp [modify_order, hr, hn, h, requantify_side_eq _ _ hf, with_side, side_of]

theorem modify_order_px_eq {b b1 : Implementation} {oid a : Nat} {o : Order} {r : Bool}
    {new_px : Price} (new_qty : Nat)
    (hr : map_find b.order_registry oid = some a) (hn : map_find b.nodes a = some o)
    (hpx : o.price ≠ new_px) (hrem : remove_order b oid = some (r, b1)) :
    modify_order b oid new_px new_qty =
      some (true, insert_order b1 { o with price := new_px, quantity := new_qty }) := by
  simp [modify_order, hr, hn, hpx, hrem]

theorem find_insert_into_side (before : Price → Price → Bool) (node : Nat) (ord : Order)
    (side : List (Price × Level)) (p : Price) :
    map_find (insert_into_side before node ord side) p =
      if p = ord.price then some (pushed_level (map_find side ord.price) node ord)
      else map_find side p := by
  cases hf : map_find side ord.price with
  | none =>
    rw [insert_into_side_new hf, map_find_side_insert _ _ hf]
    rfl
  | some lvl =>
    rw [insert_into_side_old hf, map_find_update, hf]
    rfl

theorem find_removed_side {side : List (Price × Level)} {price : Price} {lvl : Level}
    (node : Nat) (ord : Order) (p : Price) (hf : map_find side price = some lvl) :
    map_find (if lvl.order_queue.erase node = [] then map_erase side price
        else map_update side price
          ⟨lvl.price, wrap_sub lvl.aggregated_volume ord.quantity,
            lvl.order_queue.erase node⟩) p =
      if p = price then
        (if lvl.order_queue.erase node = [] then none else some (popped_level lvl node ord))
      else map_find side p := by
  by_cases he : lvl.order_queue.erase node = []
  · simp only [he, if_true, map_find_erase]
  · simp only [he, if_false, map_find_update, hf, Option.map_some']
    rfl

theorem WF.after_insert {b : Implementation} (h : WF b) (o : Order) : WF (insert_order b o) := by
  rw [insert_order_eq]
  have hfr := map_find_fresh_node b.nodes
  have hold : ∀ a o1, map_find b.nodes a = some o1 →
      map_find (map_assign b.nodes (fresh_node b.nodes) o) a = some o1 := by
    intro a o1 ha
    have hne : a ≠ fresh_node b.nodes := by
      intro e
      rw [e, hfr] at ha
      exact Option.noConfusion ha
    simpa [map_find_assign, hne] using ha
  apply WF.of_sides
  · intro t
    by_cases ht : t = o.is_buy
    · subst ht
      rw [with_side_nodes, side_of_with_side_self]
      exact (h.side _).insert (before_of_cmp _) rfl hfr
    · rw [with_side_nodes, side_of_with_side_ne ht]
      refine (h.side t).side_heap_congr ?_
      intro p hp a ha
      obtain ⟨o1, ho1, -⟩ := (h.side t).queued_live hp ha
      rw [hold a o1 ho1, ho1]
  · rw [with_side_registry]
    exact map_assign_keys_nodup _ _ h.reg_keys
  · intro oid a hreg
    rw [with_side_registry, map_find_assign] at hreg
    rw [with_side_nodes]
    by_cases hid : oid = o.order_id
    · rw [if_pos hid] at hreg
      cases hreg
      refine ⟨o, by simp [map_find_assign], hid.symm, ?_⟩
      unfold level_at
      rw [side_of_with_side_self, find_insert_into_side, if_pos rfl]
      refine ⟨_, rfl, ?_⟩
      cases map_find (side_of b o.is_buy) o.price <;> simp [pushed_level]
    · rw [if_neg hid] at hreg
      obtain ⟨o1, ho1, hid1, lvl, hl, hin⟩ := h.registry oid a hreg
      refine ⟨o1, hold a o1 ho1, hid1, ?_⟩
      unfold level_at at hl ⊢
      by_cases ht : o1.is_buy = o.is_buy
      · rw [ht, side_of_with_side_self, find_insert_into_side]
        rw [ht] at hl
        by_cases hp : o1.price = o.price
        · rw [if_pos hp]
          rw [hp] at hl
          refine ⟨_, rfl, ?_⟩
          rw [hl]
          simp [pushed_level, hin]
        · rw [if_neg hp]
          exact ⟨lvl, hl, hin⟩
      · rw [side_of_with_side_ne ht]
        exact ⟨lvl, hl, hin⟩

theorem WF.resting {b : Implementation} (h : WF b) {oid a : Nat}
    (hr : map_find b.order_registry oid = some a) :
    ∃ o lvl, map_find b.nodes a = some o ∧ o.order_id = oid ∧
      level_at b o.is_buy o.price = some lvl ∧ a ∈ lvl.order_queue := by
  obtain ⟨o, h1, h2, lvl, h3, h4⟩ := h.registry oid a hr
  exact ⟨o, lvl, h1, h2, h3, h4⟩

theorem WF.other_side_not_queued {b : Implementation} (h : WF b) {a : Nat} {o : Order}
    (hn : map_find b.nodes a = some o) {t : Bool} (ht : t ≠ o.is_buy) :
    ∀ p ∈ side_of b t, a ∉ p.2.order_queue := by
  intro p hp
  exact (h.side t).not_queued hn hp (Or.inr (fun e => ht e.symm))

theorem WF.wf_removed {b : Implementation} (h : WF b) {oid a : Nat} {o : Order} {lvl : Level}
    (hr : map_find b.order_registry oid = some a) (hn : map_find b.nodes a = some o)
    (hf : level_at b o.is_buy o.price = some lvl) (hin : a ∈ lvl.order_queue) :
    WF (with_side o.is_buy (map_erase b.nodes a) (map_erase b.order_registry oid)
        (if lvl.order_queue.erase a = [] then map_erase (side_of b o.is_buy) o.price
          else map_update (side_of b o.is_buy) o.price
            ⟨lvl.price, wrap_sub lvl.aggregated_volume o.quantity, lvl.order_queue.erase a⟩)
        b) := by
  have hh : ∀ c, c ≠ a → map_find (map_erase b.nodes a) c = map_find b.nodes c := by
    intro c hc
    simp [map_find_erase, hc]
  have hoid : o.order_id = oid := by
    obtain ⟨o1, h1, h2, -⟩ := h.registry oid a hr
    rw [hn] at h1
    cases h1
    exact h2
  apply WF.of_sides
  · intro t
    by_cases ht : t = o.is_buy
    · subst ht
      rw [with_side_nodes, side_of_with_side_self]
      exact (h.side _).remove hn hf hin
    · rw [with_side_nodes, side_of_with_side_ne ht]
      exact (h.side t).heap_change_at (h.other_side_not_queued hn ht) hh
  · rw [with_side_registry]
    exact map_erase_keys_nodup _ h.reg_keys
  · intro oid1 a1 hreg
    rw [with_side_registry, map_find_erase] at hreg
    rw [with_side_nodes]
    by_cases hid : oid1 = oid
    · rw [if_pos hid] at hreg
      exact Option.noConfusion hreg
    · rw [if_neg hid] at hreg
      obtain ⟨o1, ho1, hid1, lvl1, hl1, hin1⟩ := h.registry oid1 a1 hreg
      have hne : a1 ≠ a := by
        intro e
        rw [e, hn] at ho1
        cases ho1
        exact hid (hid1.symm.trans hoid)
      refine ⟨o1, by rw [hh a1 hne]; exact ho1, hid1, ?_⟩
      unfold level_at at hl1 hf ⊢
      by_cases ht : o1.is_buy = o.is_buy
      · rw [ht, side_of_with_side_self, find_removed_side a o _ hf]
        rw [ht] at hl1
        by_cases hp : o1.price = o.price
        · rw [if_pos hp]
          rw [hp, hf] at hl1
          cases hl1
          have hmem : a1 ∈ lvl.order_queue.erase a := (List.mem_erase_of_ne hne).2 hin1
          have hne2 : lvl.order_queue.erase a ≠ [] := List.ne_nil_of_mem hmem
          rw [if_neg hne2]
          exact ⟨_, rfl, hmem⟩
        · rw [if_neg hp]
          exact ⟨lvl1, hl1, hin1⟩
      · rw [side_of_with_side_ne ht]
        exact ⟨lvl1, hl1, hin1⟩

theorem remove_order_miss {b : Implementation} {oid : Nat}
    (hr : map_find b.order_registry oid = none) : remove_order b oid = some (false, b) := by
  simp [remove_order, hr]

theorem modify_order_miss {b : Implementation} {oid : Nat} (px : Price) (qty : Nat)
    (hr : map_find b.order_registry oid = none) :
    modify_order b oid px qty = some (false, b) := by
  simp [modify_order, hr]

theorem WF.after_remove {b b1 : Implementation} (h : WF b) {oid : Nat} {r : Bool}
    (hrem : remove_order b oid = some (r, b1)) : WF b1 := by
  cases hr : map_find b.order_registry oid with
  | none =>
    rw [remove_order_miss hr] at hrem
    cases hrem
    exact h
  | some a =>
    obtain ⟨o, lvl, hn, -, hf, hin⟩ := h.resting hr
    rw [remove_order_eq hr hn hf hin] at hrem
    cases hrem
    exact h.wf_removed hr hn hf hin

theorem WF.wf_requantified {b : Implementation} (h : WF b) {oid a : Nat} {o : Order} {lvl : Level}
    (new_qty : Nat)
    (hr : map_find b.order_registry oid = some a) (hn : map_find b.nodes a = some o)
    (hf : level_at b o.is_buy o.price = some lvl) (hin : a ∈ lvl.order_queue) :
    WF (with_side o.is_buy (map_update b.nodes a { o with quantity := new_qty })
        b.order_registry
        (map_update (side_of b o.is_buy) o.price
          ⟨lvl.price, wrap_add (wrap_sub lvl.aggregated_volume o.quantity) new_qty,
            lvl.order_queue⟩)
        b) := by
  have hh : ∀ c, c ≠ a →
      map_find (map_update b.nodes a { o with quantity := new_qty }) c = map_find b.nodes c := by
    intro c hc
    simp [map_find_update, hc]
  have hnew : map_find (map_update b.nodes a { o with quantity := new_qty }) a =
      some { o with quantity := new_qty } := by
    simp [map_find_update, hn]
  apply WF.of_sides
  · intro t
    by_cases ht : t = o.is_buy
    · subst ht
      rw [with_side_nodes, side_of_with_side_self]
      exact (h.side _).requantify new_qty hn hf hin
    · rw [with_side_nodes, side_of_with_side_ne ht]
      exact (h.side t).heap_change_at (h.other_side_not_queued hn ht) hh
  · rw [with_side_registry]
    exact h.reg_keys
  · intro oid1 a1 hreg
    rw [with_side_registry] at hreg
    rw [with_side_nodes]
    obtain ⟨o1, ho1, hid1, lvl1, hl1, hin1⟩ := h.registry oid1 a1 hreg
    unfold level_at at hl1 hf ⊢
    by_cases hne : a1 = a
    · subst hne
      rw [hn] at ho1
      cases ho1
      refine ⟨_, hnew, hid1, ?_⟩
      simp only
      rw [side_of_with_side_self, map_find_update, if_pos rfl, hf]
      exact ⟨_, rfl, hin⟩
    · refine ⟨o1, by rw [hh a1 hne]; exact ho1, hid1, ?_⟩
      by_cases ht : o1.is_buy = o.is_buy
      · rw [ht, side_of_with_side_self, map_find_update]
        rw [ht] at hl1
        by_cases hp : o1.price = o.price
        · rw [if_pos hp, hf]
          rw [hp, hf] at hl1
          cases hl1
          exact ⟨_, rfl, hin1⟩
        · rw [if_neg hp]
          exact ⟨lvl1, hl1, hin1⟩
      · rw [side_of_with_side_ne ht]
        exact ⟨lvl1, hl1, hin1⟩

theorem WF.after_modify {b b1 : Implementation} (h : WF b) {oid : Nat} {px : Price} {qty : Nat}
    {r : Bool} (hmod : modify_order b oid px qty = some (r, b1)) : WF b1 := by
  cases hr : map_find b.order_registry oid with
  | none =>
    rw [modify_order_miss px qty hr] at hmod
    cases hmod
    exact h
  | some a =>
    obtain ⟨o, lvl, hn, -, hf, hin⟩ := h.resting hr
    by_cases hp : o.price = px
    · subst hp
      rw [modify_order_qty_eq qty hr hn hf] at hmod
      cases hmod
      exact h.wf_requantified qty hr hn hf hin
    · have hrem := remove_order_eq hr hn hf hin
      rw [modify_order_px_eq qty hr hn hp hrem] at hmod
      cases hmod
      exact (h.wf_removed hr hn hf hin).after_insert _

theorem WF.at_new_book : WF new_book := by
  refine ⟨⟨?_, ?_⟩, ⟨?_, ?_⟩, ?_, ?_⟩ <;>
    simp [OrderBook.new_book, Implementation.empty, map_find]

theorem Reachable.wf_of_reachable {b : Implementation} (h : Reachable b) : WF b := by
  induction h with
  | init => exact WF.at_new_book
  | add b o _ ih => exact ih.after_insert o
  | cancel b b1 oid r _ hc ih => exact ih.after_remove hc
  | amend b b1 oid px qty r _ hc ih => exact ih.after_modify hc

theorem ReachableFresh.reachable {b : Implementation} (h : ReachableFresh b) : Reachable b := by
  induction h with
  | init => exact Reachable.init
  | add b o _ _ ih => exact Reachable.add b o ih
  | cancel b b1 oid r _ hc ih => exact Reachable.cancel b b1 oid r ih hc
  | amend b b1 oid px qty r _ hc ih => exact Reachable.amend b b1 oid px qty r ih hc

/-! ## Every queued node is indexed, when order ids are not reused while resting -/

theorem mem_insert_into_side {before : Price → Price → Bool} {node : Nat} {ord : Order}
    {side : List (Price × Level)} {p : Price × Level}
    (hp : p ∈ insert_into_side before node ord side) {a : Nat} (ha : a ∈ p.2.order_queue) :
    a = node ∨ ∃ q ∈ side, a ∈ q.2.order_queue := by
  cases hf : map_find side ord.price with
  | none =>
    rw [insert_into_side_new hf] at hp
    rcases mem_side_insert.1 hp with hp | hp
    · subst hp
      left
      simpa using ha
    · exact Or.inr ⟨p, hp, ha⟩
  | some lvl =>
    rw [insert_into_side_old hf] at hp
    rcases mem_map_update hp with ⟨hp, -⟩ | ⟨hp, -⟩
    · exact Or.inr ⟨p, hp, ha⟩
    · subst hp
      simp only [List.mem_append, List.mem_singleton] at ha
      rcases ha with ha | ha
      · exact Or.inr ⟨_, map_find_mem hf, ha⟩
      · exact Or.inl ha

theorem mem_removed_side {side : List (Price × Level)} {price : Price} {lvl : Level}
    {node : Nat} {qty : Nat} {p : Price × Level} (hf : map_find side price = some lvl)
    (hp : p ∈ (if lvl.order_queue.erase node = [] then map_erase side price
        else map_update side price
          ⟨lvl.price, wrap_sub lvl.aggregated_volume qty, lvl.order_queue.erase node⟩))
    {a : Nat} (ha : a ∈ p.2.order_queue) : ∃ q ∈ side, a ∈ q.2.order_queue := by
  split at hp
  · exact ⟨p, (mem_map_erase.1 hp).1, ha⟩
  · rcases mem_map_update hp with ⟨hp, -⟩ | ⟨hp, -⟩
    · exact ⟨p, hp, ha⟩
    · subst hp
      exact ⟨_, map_find_mem hf, List.mem_of_mem_erase ha⟩

theorem mem_requantified_side {side : List (Price × Level)} {price : Price} {lvl : Level}
    {agg : Nat} {p : Price × Level} (hf : map_find side price = some lvl)
    (hp : p ∈ map_update side price ⟨lvl.price, agg, lvl.order_queue⟩)
    {a : Nat} (ha : a ∈ p.2.order_queue) : ∃ q ∈ side, a ∈ q.2.order_queue := by
  rcases mem_map_update hp with ⟨hp, -⟩ | ⟨hp, -⟩
  · exact ⟨p, hp, ha⟩
  · subst hp
    exact ⟨_, map_find_mem hf, ha⟩

theorem Indexed.indexed_at_new_book : Indexed new_book := by
  intro s p a hp
  cases s <;> simp [OrderBook.new_book, Implementation.empty, side_of] at hp

theorem Indexed.indexed_after_insert {b : Implementation} (hi : Indexed b) (o : Order)
    (hfresh : map_find b.order_registry o.order_id = none) : Indexed (insert_order b o) := by
  rw [insert_order_eq]
  have hfr := map_find_fresh_node b.nodes
  have hold : ∀ t, ∀ q ∈ side_of b t, ∀ a ∈ q.2.order_queue,
      ∃ o1, map_find (map_assign b.nodes (fresh_node b.nodes) o) a = some o1 ∧
        map_find (map_assign b.order_registry o.order_id (fresh_node b.nodes)) o1.order_id =
          some a := by
    intro t q hq a ha
    obtain ⟨o1, h1, h2⟩ := hi t q a hq ha
    have hne : a ≠ fresh_node b.nodes := by
      intro e
      rw [e, hfr] at h1
      exact Option.noConfusion h1
    have hid : o1.order_id ≠ o.order_id := by
      intro e
      rw [e, hfresh] at h2
      exact Option.noConfusion h2
    exact ⟨o1, by simpa [map_find_assign, hne] using h1,
      by simpa [map_find_assign, hid] using h2⟩
  intro t p a hp ha
  rw [with_side_nodes, with_side_registry]
  by_cases ht : t = o.is_buy
  · subst ht
    rw [side_of_with_side_self] at hp
    rcases mem_insert_into_side hp ha with e | ⟨q, hq, hqa⟩
    · subst e
      exact ⟨o, by simp [map_find_assign], by simp [map_find_assign]⟩
    · exact hold _ q hq a hqa
  · rw [side_of_with_side_ne ht] at hp
    exact hold t p hp a ha

theorem Indexed.indexed_removed {b : Implementation} (h : WF b) (hi : Indexed b) {oid a : Nat}
    {o : Order} {lvl : Level}
    (hr : map_find b.order_registry oid = some a) (hn : map_find b.nodes a = some o)
    (hf : level_at b o.is_buy o.price = some lvl) (hin : a ∈ lvl.order_queue) :
    Indexed (with_side o.is_buy (map_erase b.nodes a) (map_erase b.order_registry oid)
        (if lvl.order_queue.erase a = [] then map_erase (side_of b o.is_buy) o.price
          else map_update (side_of b o.is_buy) o.price
            ⟨lvl.price, wrap_sub lvl.aggregated_volume o.quantity, lvl.order_queue.erase a⟩)
        b) := by
  have hwf := h.wf_removed hr hn hf hin
  intro t p c hp hc
  obtain ⟨o2, hlive, -⟩ := (hwf.side t).queued_live hp hc
  rw [with_side_nodes] at hlive ⊢
  rw [with_side_registry]
  have hne : c ≠ a := by
    intro e
    rw [e, map_find_erase, if_pos rfl] at hlive
    exact Option.noConfusion hlive
  have hold : ∃ q ∈ side_of b t, c ∈ q.2.order_queue := by
    by_cases ht : t = o.is_buy
    · subst ht
      rw [side_of_with_side_self] at hp
      exact mem_removed_side hf hp hc
    · rw [side_of_with_side_ne ht] at hp
      exact ⟨p, hp, hc⟩
  obtain ⟨q, hq, hqc⟩ := hold
  obtain ⟨o1, h1, h2⟩ := hi t q c hq hqc
  have hid : o1.order_id ≠ oid := by
    intro e
    rw [e, hr] at h2
    cases h2
    exact hne rfl
  exact ⟨o1, by simpa [map_find_erase, hne] using h1, by simpa [map_find_erase, hid] using h2⟩

theorem Indexed.indexed_requantified {b : Implementation} (hi : Indexed b) {a : Nat}
    {o : Order} {lvl : Level} (new_qty : Nat) (hn : map_find b.nodes a = some o)
    (hf : level_at b o.is_buy o.price = some lvl) :
    Indexed (with_side o.is_buy (map_update b.nodes a { o with quantity := new_qty })
        b.order_registry
        (map_update (side_of b o.is_buy) o.price
          ⟨lvl.price, wrap_add (wrap_sub lvl.aggregated_volume o.quantity) new_qty,
            lvl.order_queue⟩)
        b) := by
  intro t p c hp hc
  rw [with_side_nodes, with_side_registry]
  have hold : ∃ q ∈ side_of b t, c ∈ q.2.order_queue := by
    by_cases ht : t = o.is_buy
    · subst ht
      rw [side_of_with_side_self] at hp
      exact mem_requantified_side hf hp hc
    · rw [side_of_with_side_ne ht] at hp
      exact ⟨p, hp, hc⟩
  obtain ⟨q, hq, hqc⟩ := hold
  obtain ⟨o1, h1, h2⟩ := hi t q c hq hqc
  by_cases hne : c = a
  · subst hne
    rw [hn] at h1
    cases h1
    exact ⟨{ o with quantity := new_qty }, by simp [map_find_update, hn], h2⟩
  · exact ⟨o1, by simpa [map_find_update, hne] using h1, h2⟩

theorem Indexed.indexed_after_remove {b b1 : Implementation} (h : WF b) (hi : Indexed b) {oid : Nat}
    {r : Bool} (hrem : remove_order b oid = some (r, b1)) : Indexed b1 := by
  cases hr : map_find b.order_registry oid with
  | none =>
    rw [remove_order_miss hr] at hrem
    cases hrem
    exact hi
  | some a =>
    obtain ⟨o, lvl, hn, -, hf, hin⟩ := h.resting hr
    rw [remove_order_eq hr hn hf hin] at hrem
    cases hrem
    exact hi.indexed_removed h hr hn hf hin

theorem Indexed.indexed_after_modify {b b1 : Implementation} (h : WF b) (hi : Indexed b) {oid : Nat}
    {px : Price} {qty : Nat} {r : Bool} (hmod : modify_order b oid px qty = some (r, b1)) :
    Indexed b1 := by
  cases hr : map_find b.order_registry oid with
  | none =>
    rw [modify_order_miss px qty hr] at hmod
    cases hmod
    exact hi
  | some a =>
    obtain ⟨o, lvl, hn, hid, hf, hin⟩ := h.resting hr
    by_cases hp : o.price = px
    · subst hp
      rw [modify_order_qty_eq qty hr hn hf] at hmod
      cases hmod
      exact hi.indexed_requantified qty hn hf
    · have hrem := remove_order_eq hr hn hf hin
      rw [modify_order_px_eq qty hr hn hp hrem] at hmod
      cases hmod
      refine (hi.indexed_removed h hr hn hf hin).indexed_after_insert _ ?_
      simp [map_find_erase, hid]

theorem ReachableFresh.wf_of_fresh {b : Implementation} (h : ReachableFresh b) : WF b :=
  h.reachable.wf_of_reachable

theorem ReachableFresh.indexed {b : Implementation} (h : ReachableFresh b) : Indexed b := by
  induction h with
  | init => exact Indexed.indexed_at_new_book
  | add b o _ hf ih => exact ih.indexed_after_insert o hf
  | cancel b b1 oid r hb hc ih => exact ih.indexed_after_remove hb.wf_of_fresh hc
  | amend b b1 oid px qty r hb hc ih => exact ih.indexed_after_modify hb.wf_of_fresh hc

/-! ## Snapshots -/

theorem extract_loop_eq (depth : Nat) (side : List (Price × Level)) (count : Nat)
    (output : List PriceLevel) :
    extract_loop depth side count output =
      output ++ (side.take (depth - count)).map
        (fun p => (⟨p.2.price, p.2.aggregated_volume⟩ : PriceLevel)) := by
  induction side generalizing count output with
  | nil => simp [extract_loop]
  | cons p r ih =>
    obtain ⟨k, lvl⟩ := p
    by_cases h : count ≥ depth
    · have h0 : depth - count = 0 := by omega
      simp [extract_loop, h, h0]
    · have h1 : depth - count = (depth - (count + 1)) + 1 := by omega
      simp only [extract_loop, h, if_false, ih]
      rw [h1, List.take_succ_cons]
      simp

theorem vector_reserve_zero (max_size : Nat) (storage_ok : Bool) :
    vector_reserve max_size storage_ok 0 = none := by
  simp [vector_reserve]

theorem vector_reserve_ok {max_size depth : Nat} (h : depth ≤ max_size) :
    vector_reserve max_size true depth = none := by
  have h1 : ¬depth > max_size := by omega
  simp [vector_reserve, h1]

theorem extract_levels_eq (max_size : Nat) (storage_ok : Bool) (side : List (Price × Level))
    (depth : Nat) (output : List PriceLevel) :
    extract_levels max_size storage_ok side depth output =
      match vector_reserve max_size storage_ok depth with
      | some e => (some e, [])
      | none => (none, top_levels side depth) := by
  unfold extract_levels top_levels
  cases vector_reserve max_size storage_ok depth with
  | some e => rfl
  | none => simp [extract_loop_eq]

theorem extract_levels_thrown (max_size : Nat) (storage_ok : Bool)
    (side : List (Price × Level)) (depth : Nat) (output : List PriceLevel) :
    (extract_levels max_size storage_ok side depth output).1 =
      vector_reserve max_size storage_ok depth := by
  rw [extract_levels_eq]
  cases vector_reserve max_size storage_ok depth <;> rfl

theorem extract_levels_returns {max_size : Nat} {storage_ok : Bool}
    {side : List (Price × Level)} {depth : Nat} {output : List PriceLevel}
    (h : (extract_levels max_size storage_ok side depth output).1 = none) :
    (extract_levels max_size storage_ok side depth output).2 = top_levels side depth := by
  rw [extract_levels_eq] at h ⊢
  cases hr : vector_reserve max_size storage_ok depth with
  | some e => simp [hr] at h
  | none => rfl

theorem extract_levels_items (max_size : Nat) (storage_ok : Bool)
    (side : List (Price × Level)) (depth : Nat) (output : List PriceLevel) :
    (extract_levels max_size storage_ok side depth output).2 = top_levels side depth ∨
      (extract_levels max_size storage_ok side depth output).2 = [] := by
  rw [extract_levels_eq]
  cases vector_reserve max_size storage_ok depth with
  | some e => exact Or.inr rfl
  | none => exact Or.inl rfl

theorem get_snapshot_eq (max_size : Nat) (bids_ok asks_ok : Bool) (b : Implementation)
    (depth : Nat) (bids asks : List PriceLevel) :
    get_snapshot max_size bids_ok asks_ok b depth bids asks =
      match vector_reserve max_size bids_ok depth with
      | some e => (some e, [], asks)
      | none =>
        match vector_reserve max_size asks_ok depth with
        | some e => (some e, top_levels b.bid_levels depth, [])
        | none => (none, top_levels b.bid_levels depth, top_levels b.ask_levels depth) := by
  unfold get_snapshot
  rw [extract_levels_eq, extract_levels_eq]
  cases vector_reserve max_size bids_ok depth with
  | some e => rfl
  | none =>
    cases vector_reserve max_size asks_ok depth with
    | some e => rfl
    | none => rfl

theorem get_snapshot_returns {max_size : Nat} {bids_ok asks_ok : Bool} {b : Implementation}
    {depth : Nat} {bids asks : List PriceLevel}
    (h : (get_snapshot max_size bids_ok asks_ok b depth bids asks).1 = none) :
    get_snapshot max_size bids_ok asks_ok b depth bids asks =
      (none, top_levels b.bid_levels depth, top_levels b.ask_levels depth) := by
  rw [get_snapshot_eq] at h ⊢
  cases h1 : vector_reserve max_size bids_ok depth with
  | some e => simp [h1] at h
  | none =>
    cases h2 : vector_reserve max_size asks_ok depth with
    | some e => simp [h1, h2] at h
    | none => rfl

theorem get_snapshot_of_room {max_size depth : Nat} (h : depth ≤ max_size) (b : Implementation)
    (bids asks : List PriceLevel) :
    (get_snapshot max_size true true b depth bids asks).1 = none := by
  rw [get_snapshot_eq, vector_reserve_ok h]

theorem SideOK.snapshot_prices {s : Bool} {before : Price → Price → Bool}
    {heap : List (Nat × Order)} {side : List (Price × Level)} (h : SideOK s before heap side)
    (depth : Nat) :
    (top_levels side depth).map (fun e => e.price) = (side.map Prod.fst).take depth := by
  rw [top_levels, List.map_map, ← List.map_take]
  apply List.map_congr_left
  intro p hp
  exact (h.levels p (List.mem_of_mem_take hp)).price_eq

theorem scenario_A_reachable : ReachableFresh scenario_A :=
  ReachableFresh.add _ _ (ReachableFresh.add _ _ (ReachableFresh.add _ _ ReachableFresh.init
    (by decide)) (by decide)) (by decide)

theorem two_sided_book_reachable : ReachableFresh two_sided_book :=
  ReachableFresh.add _ _ (ReachableFresh.add _ _ (ReachableFresh.add _ _
    (ReachableFresh.add _ _ (ReachableFresh.add _ _ ReachableFresh.init
    (by decide)) (by decide)) (by decide)) (by decide)) (by decide)

/-! ## The shape of the results, in any state -/

theorem resting_order_eq_some {b : Implementation} {oid : Nat} {o : Order} :
    resting_order b oid = some o ↔
      ∃ a, map_find b.order_registry oid = some a ∧ map_find b.nodes a = some o := by
  unfold resting_order
  cases h : map_find b.order_registry oid with
  | none => simp
  | some a => simp

theorem remove_order_shape {b b1 : Implementation} {oid a : Nat} {o : Order} {r : Bool}
    (hr : map_find b.order_registry oid = some a) (hn : map_find b.nodes a = some o)
    (hrem : remove_order b oid = some (r, b1)) :
    ∃ side, remove_from_side a o (side_of b o.is_buy) o.price = some side ∧ r = true ∧
      b1 = with_side o.is_buy (map_erase b.nodes a) (map_erase b.order_registry oid) side b := by
  cases hs : o.is_buy
  · simp only [remove_order, hr, hn, hs, Bool.false_eq_true, if_false] at hrem
    cases hside : remove_from_side a o b.ask_levels o.price with
    | none => simp [hside] at hrem
    | some side =>
      simp only [hside, Option.some.injEq, Prod.mk.injEq] at hrem
      exact ⟨side, by simpa [side_of] using hside, hrem.1.symm, by simp [with_side, ← hrem.2]⟩
  · simp only [remove_order, hr, hn, hs, if_true] at hrem
    cases hside : remove_from_side a o b.bid_levels o.price with
    | none => simp [hside] at hrem
    | some side =>
      simp only [hside, Option.some.injEq, Prod.mk.injEq] at hrem
      exact ⟨side, by simpa [side_of] using hside, hrem.1.symm, by simp [with_side, ← hrem.2]⟩

theorem modify_order_qty_shape {b b1 : Implementation} {oid a : Nat} {o : Order} {r : Bool}
    {new_qty : Nat}
    (hr : map_find b.order_registry oid = some a) (hn : map_find b.nodes a = some o)
    (hmod : modify_order b oid o.price new_qty = some (r, b1)) :
    ∃ side, requantify_side (side_of b o.is_buy) o.price o.quantity new_qty = some side ∧
      r = true ∧
      b1 = with_side o.is_buy (map_update b.nodes a { o with quantity := new_qty })
        b.order_registry side b := by
  cases hs : o.is_buy
  · simp only [modify_order, hr, hn, hs, ne_eq, not_true_eq_false, Bool.false_eq_true,
      if_false] at hmod
    cases hside : requantify_side b.ask_levels o.price o.quantity new_qty with
    | none => simp [hside] at hmod
    | some side =>
      simp only [hside, Option.some.injEq, Prod.mk.injEq] at hmod
      exact ⟨side, by simpa [side_of] using hside, hmod.1.symm, by simp [with_side, ← hmod.2]⟩
  · simp only [modify_order, hr, hn, hs, ne_eq, not_true_eq_false, if_false, if_true] at hmod
    cases hside : requantify_side b.bid_levels o.price o.quantity new_qty with
    | none => simp [hside] at hmod
    | some side =>
      simp only [hside, Option.some.injEq, Prod.mk.injEq] at hmod
      exact ⟨side, by simpa [side_of] using hside, hmod.1.symm, by simp [with_side, ← hmod.2]⟩

theorem modify_order_px_shape {b b1 : Implementation} {oid a : Nat} {o : Order} {r : Bool}
    {new_px : Price} {new_qty : Nat}
    (hr : map_find b.order_registry oid = some a) (hn : map_find b.nodes a = some o)
    (hpx : o.price ≠ new_px) (hmod : modify_order b oid new_px new_qty = some (r, b1)) :
    ∃ r0 b0, remove_order b oid = some (r0, b0) ∧ r = true ∧
      b1 = insert_order b0 { o with price := new_px, quantity := new_qty } := by
  cases hrem : remove_order b oid with
  | none => simp [modify_order, hr, hn, hpx, hrem] at hmod
  | some x =>
    obtain ⟨r0, b0⟩ := x
    rw [modify_order_px_eq new_qty hr hn hpx hrem] at hmod
    simp only [Option.some.injEq, Prod.mk.injEq] at hmod
    exact ⟨r0, b0, rfl, hmod.1.symm, hmod.2.symm⟩

theorem insert_order_other_side (b : Implementation) (o : Order) {t : Bool}
    (ht : t ≠ o.is_buy) : side_of (insert_order b o) t = side_of b t := by
  rw [insert_order_eq, side_of_with_side_ne ht]

theorem insert_order_keeps_nodes (b : Implementation) (o : Order) {a : Nat} {o1 : Order}
    (h : map_find b.nodes a = some o1) : map_find (insert_order b o).nodes a = some o1 := by
  have hne : a ≠ fresh_node b.nodes := by
    intro e
    rw [e, map_find_fresh_node] at h
    exact Option.noConfusion h
  rw [insert_order_eq, with_side_nodes, map_find_assign, if_neg hne]
  exact h

theorem insert_order_resting (b : Implementation) (o : Order) :
    resting_order (insert_order b o) o.order_id = some o := by
  rw [resting_order_eq_some]
  refine ⟨fresh_node b.nodes, ?_, ?_⟩
  · rw [insert_order_eq, with_side_registry, map_find_assign, if_pos rfl]
  · rw [insert_order_eq, with_side_nodes, map_find_assign, if_pos rfl]

theorem insert_order_keeps_resting (b : Implementation) (o : Order) {oid : Nat} {o1 : Order}
    (hid : oid ≠ o.order_id) (h : resting_order b oid = some o1) :
    resting_order (insert_order b o) oid = some o1 := by
  rw [resting_order_eq_some] at h ⊢
  obtain ⟨a, h1, h2⟩ := h
  refine ⟨a, ?_, insert_order_keeps_nodes b o h2⟩
  rw [insert_order_eq, with_side_registry, map_find_assign, if_neg hid]
  exact h1

theorem wf_remove_returns {b : Implementation} (h : WF b) {oid : Nat} {o : Order}
    (hrest : resting_order b oid = some o) : ∃ b1, remove_order b oid = some (true, b1) := by
  obtain ⟨a, hr, -⟩ := resting_order_eq_some.1 hrest
  obtain ⟨o1, lvl, hn, -, hf, hin⟩ := h.resting hr
  exact ⟨_, remove_order_eq hr hn hf hin⟩

theorem wf_modify_returns {b : Implementation} (h : WF b) {oid : Nat} {o : Order}
    (hrest : resting_order b oid = some o) (px : Price) (qty : Nat) :
    ∃ b1, modify_order b oid px qty = some (true, b1) := by
  obtain ⟨a, hr, -⟩ := resting_order_eq_some.1 hrest
  obtain ⟨o1, lvl, hn, -, hf, hin⟩ := h.resting hr
  by_cases hp : o1.price = px
  · subst hp
    exact ⟨_, modify_order_qty_eq qty hr hn hf⟩
  · exact ⟨_, modify_order_px_eq qty hr hn hp (remove_order_eq hr hn hf hin)⟩

theorem remove_order_frame {b b1 : Implementation} {oid : Nat} {o : Order} {r : Bool}
    (hrest : resting_order b oid = some o) (hrem : remove_order b oid = some (r, b1)) :
    side_of b1 (!o.is_buy) = side_of b (!o.is_buy) ∧
      ∀ a1 o1, map_find b.nodes a1 = some o1 → o1.is_buy = !o.is_buy →
        map_find b1.nodes a1 = some o1 := by
  obtain ⟨a, hr, hn⟩ := resting_order_eq_some.1 hrest
  obtain ⟨side, -, -, hb1⟩ := remove_order_shape hr hn hrem
  subst hb1
  refine ⟨side_of_with_side_ne (by cases o.is_buy <;> simp) _ _ _ _, ?_⟩
  intro a1 o1 h1 hs
  have hne : a1 ≠ a := by
    intro e
    rw [e, hn] at h1
    cases h1
    cases h : o.is_buy <;> simp [h] at hs
  rw [with_side_nodes, map_find_erase, if_neg hne]
  exact h1

theorem modify_order_frame {b b1 : Implementation} {oid : Nat} {o : Order} {r : Bool}
    {px : Price} {qty : Nat}
    (hrest : resting_order b oid = some o) (hmod : modify_order b oid px qty = some (r, b1)) :
    side_of b1 (!o.is_buy) = side_of b (!o.is_buy) ∧
      ∀ a1 o1, map_find b.nodes a1 = some o1 → o1.is_buy = !o.is_buy →
        map_find b1.nodes a1 = some o1 := by
  obtain ⟨a, hr, hn⟩ := resting_order_eq_some.1 hrest
  have hflip : (!o.is_buy) ≠ o.is_buy := by cases o.is_buy <;> simp
  by_cases hp : o.price = px
  · subst hp
    obtain ⟨side, -, -, hb1⟩ := modify_order_qty_shape hr hn hmod
    subst hb1
    refine ⟨side_of_with_side_ne hflip _ _ _ _, ?_⟩
    intro a1 o1 h1 hs
    have hne : a1 ≠ a := by
      intro e
      rw [e, hn] at h1
      cases h1
      cases h : o.is_buy <;> simp [h] at hs
    rw [with_side_nodes, map_find_update, if_neg hne]
    exact h1
  · obtain ⟨r0, b0, hrem, -, hb1⟩ := modify_order_px_shape hr hn hp hmod
    subst hb1
    obtain ⟨h1, h2⟩ := remove_order_frame hrest hrem
    refine ⟨?_, ?_⟩
    · rw [← h1]
      exact insert_order_other_side b0
        { o with price := px, quantity := qty } (t := !o.is_buy) hflip
    · intro a1 o1 hn1 hs
      exact insert_order_keeps_nodes _ _ (h2 a1 o1 hn1 hs)

theorem level_at_insert_order (b : Implementation) (o : Order) (p : Price) :
    level_at (insert_order b o) o.is_buy p =
      if p = o.price then
        some (pushed_level (level_at b o.is_buy o.price) (fresh_node b.nodes) o)
      else level_at b o.is_buy p := by
  unfold level_at
  rw [insert_order_eq, side_of_with_side_self, find_insert_into_side]

theorem level_at_insert_order_self (b : Implementation) (o : Order) :
    level_at (insert_order b o) o.is_buy o.price =
      some (pushed_level (level_at b o.is_buy o.price) (fresh_node b.nodes) o) := by
  rw [level_at_insert_order, if_pos rfl]

theorem level_at_insert_order_other (b : Implementation) (o : Order) {t : Bool}
    (ht : t ≠ o.is_buy) (p : Price) : level_at (insert_order b o) t p = level_at b t p := by
  unfold level_at
  rw [insert_order_other_side b o ht]

theorem pushed_level_queue (l : Option Level) (node : Nat) (o : Order) :
    (pushed_level l node o).order_queue =
      (match l with
        | none => []
        | some lvl => lvl.order_queue) ++ [node] := by
  cases l <;> rfl

theorem insert_order_registry (b : Implementation) (o : Order) (oid : Nat) :
    map_find (insert_order b o).order_registry oid =
      if oid = o.order_id then some (fresh_node b.nodes) else map_find b.order_registry oid := by
  rw [insert_order_eq, with_side_registry, map_find_assign]

theorem insert_order_new_node (b : Implementation) (o : Order) :
    map_find (insert_order b o).nodes (fresh_node b.nodes) = some o := by
  rw [insert_order_eq, with_side_nodes, map_find_assign, if_pos rfl]

theorem insert_order_keeps_queues (b : Implementation) (o : Order) {s : Bool} {p : Price}
    {lvl : Level} (h : level_at b s p = some lvl) :
    ∃ lvl1, level_at (insert_order b o) s p = some lvl1 ∧
      lvl.order_queue <+: lvl1.order_queue := by
  by_cases hs : s = o.is_buy
  · subst hs
    rw [level_at_insert_order]
    by_cases hp : p = o.price
    · subst hp
      rw [if_pos rfl, h]
      exact ⟨_, rfl, List.prefix_append _ _⟩
    · rw [if_neg hp]
      exact ⟨lvl, h, List.prefix_refl _⟩
  · rw [level_at_insert_order_other b o hs]
    exact ⟨lvl, h, List.prefix_refl _⟩

theorem side_insert_length (before : Price → Price → Bool) (m : List (Price × Level))
    (x : Price) (v : Level) : (side_insert before m x v).length = m.length + 1 := by
  induction m with
  | nil => simp [side_insert]
  | cons q r ih =>
    obtain ⟨k, w⟩ := q
    by_cases h : before x k = true
    · simp [side_insert, h]
    · simp [side_insert, h, ih]

theorem wf_fresh_not_queued {b : Implementation} (h : WF b) {s : Bool} {p : Price}
    {lvl : Level} (hf : level_at b s p = some lvl) : fresh_node b.nodes ∉ lvl.order_queue := by
  intro hin
  obtain ⟨o, ho, -⟩ := (h.side s).queued_live (map_find_mem hf) hin
  rw [map_find_fresh_node] at ho
  exact Option.noConfusion ho

theorem full_level_book_reachable : ReachableFresh full_level_book :=
  ReachableFresh.add _ _ ReachableFresh.init (by decide)

theorem wrap_sub_add_int (agg old_qty new_qty : Nat) :
    ((wrap_add (wrap_sub agg old_qty) new_qty : Nat) : Int) =
      ((agg : Int) - old_qty + new_qty) % (2 ^ 64 : Int) := by
  unfold wrap_add wrap_sub U64
  omega

theorem wrap_sub_int (agg qty : Nat) :
    ((wrap_sub agg qty : Nat) : Int) = ((agg : Int) - qty) % (2 ^ 64 : Int) := by
  unfold wrap_sub U64
  omega

theorem two_fives_book_reachable : ReachableFresh two_fives_book :=
  ReachableFresh.add _ _ (ReachableFresh.add _ _ ReachableFresh.init (by decide)) (by decide)

theorem mem_top_levels_of_mem_extract {max_size : Nat} {storage_ok : Bool}
    {side : List (Price × Level)} {depth : Nat} {output : List PriceLevel} {e : PriceLevel}
    (he : e ∈ (extract_levels max_size storage_ok side depth output).2) :
    e ∈ top_levels side depth := by
  rcases extract_levels_items max_size storage_ok side depth output with h | h
  · rw [h] at he
    exact he
  · rw [h] at he
    simp at he

theorem wf_snapshot_prices_are_keys {b : Implementation} (h : WF b) (s : Bool) (depth : Nat)
    {e : PriceLevel} (he : e ∈ top_levels (side_of b s) depth) :
    level_at b s e.price ≠ none := by
  have hk : e.price ∈ (top_levels (side_of b s) depth).map (fun e => e.price) :=
    List.mem_map_of_mem _ he
  rw [(h.side s).snapshot_prices] at hk
  unfold level_at
  rw [Ne, map_find_eq_none]
  exact fun hn => hn (List.mem_of_mem_take hk)

theorem scenario_B_reachable : ReachableFresh scenario_B :=
  ReachableFresh.add _ _ (ReachableFresh.add _ _ ReachableFresh.init (by decide)) (by decide)

/-! ## The snapshot against the resting orders -/

theorem wf_mem_resting_orders {b : Implementation} (hw : WF b) {o : Order} :
    o ∈ resting_orders b ↔
      ∃ a, map_find b.order_registry o.order_id = some a ∧ map_find b.nodes a = some o := by
  unfold resting_orders
  rw [List.mem_filterMap]
  constructor
  · rintro ⟨⟨oid, a⟩, he, hn⟩
    have hf := map_find_of_mem hw.reg_keys he
    obtain ⟨o1, h1, h2, -⟩ := hw.registry oid a hf
    simp only at hn
    rw [hn] at h1
    cases h1
    exact ⟨a, by rw [h2]; exact hf, hn⟩
  · rintro ⟨a, h1, h2⟩
    exact ⟨(o.order_id, a), map_find_mem h1, h2⟩

theorem wf_key_iff_resting {b : Implementation} (hw : WF b) (hi : Indexed b) (s : Bool)
    (p : Price) :
    p ∈ (side_of b s).map Prod.fst ↔
      p ∈ ((resting_orders b).filter (fun o => decide (o.is_buy = s))).map
        (fun o => o.price) := by
  simp only [List.mem_map, List.mem_filter, decide_eq_true_eq]
  constructor
  · rintro ⟨⟨k, lvl⟩, he, rfl⟩
    have hl := (hw.side s).levels _ he
    obtain ⟨a, ha⟩ := List.exists_mem_of_ne_nil _ hl.nonempty
    obtain ⟨o, h1, h2⟩ := hi s _ a he ha
    obtain ⟨o1, h3, h4, h5⟩ := hl.nodes a ha
    rw [h1] at h3
    cases h3
    exact ⟨o, ⟨(wf_mem_resting_orders hw).2 ⟨a, h2, h1⟩, h5⟩, h4⟩
  · rintro ⟨o, ⟨ho, hs⟩, rfl⟩
    obtain ⟨a, h1, h2⟩ := (wf_mem_resting_orders hw).1 ho
    obtain ⟨o1, lvl, h3, -, h4, -⟩ := hw.resting h1
    rw [h2] at h3
    cases h3
    rw [hs] at h4
    exact ⟨(o.price, lvl), map_find_mem h4, rfl⟩

theorem sorted_prices_eq (r : Price → Price → Prop) [DecidableRel r] [IsTotal Price r]
    [IsTrans Price r] [IsAntisymm Price r] {keys l : List Price} (hk : keys.Pairwise r)
    (hnd : keys.Nodup) (hl : l.Nodup) (hmem : ∀ p, p ∈ l ↔ p ∈ keys) :
    l.insertionSort r = keys :=
  List.eq_of_perm_of_sorted
    ((List.perm_insertionSort r l).trans ((List.perm_ext_iff_of_nodup hl hnd).2 hmem))
    (List.sorted_insertionSort r l) hk

theorem wf_spec_prices {b : Implementation} (hw : WF b) (hi : Indexed b) (s : Bool) :
    spec_prices s (resting_orders b) = (side_of b s).map Prod.fst := by
  have hsorted := (hw.side s).sorted
  have hnd := sorted_keys_nodup (before_of_cmp s) hsorted
  have hmem := fun p => (wf_key_iff_resting hw hi s p).symm
  cases s
  · simp only [spec_prices, Bool.false_eq_true, if_false]
    refine sorted_prices_eq _ ?_ hnd (List.nodup_dedup _) ?_
    · refine hsorted.imp ?_
      intro x y hxy
      have : x < y := by simpa [before_of, ask_before] using hxy
      exact le_of_lt this
    · intro p
      rw [List.mem_dedup]
      exact hmem p
  · simp only [spec_prices, if_true]
    refine sorted_prices_eq _ ?_ hnd (List.nodup_dedup _) ?_
    · refine hsorted.imp ?_
      intro x y hxy
      have : x > y := by simpa [before_of, bid_before] using hxy
      exact le_of_lt this
    · intro p
      rw [List.mem_dedup]
      exact hmem p

theorem spec_quantity_registry (heap : List (Nat × Order)) (reg : List (Nat × Nat))
    (s : Bool) (p : Price) :
    spec_quantity s (reg.filterMap (fun e => map_find heap e.2)) p =
      (((reg.map Prod.snd).filter (node_at_level heap s p)).map (node_qty heap)).sum := by
  unfold spec_quantity
  induction reg with
  | nil => simp
  | cons e r ih =>
    cases hn : map_find heap e.2 with
    | none =>
      have h1 : node_at_level heap s p e.2 = false := by simp [node_at_level, hn]
      simp only [List.filterMap_cons, hn, List.map_cons, List.filter_cons, h1,
        Bool.false_eq_true, if_false]
      exact ih
    | some o =>
      by_cases hc : o.is_buy = s ∧ o.price = p
      · have h1 : node_at_level heap s p e.2 = true := by simp [node_at_level, hn, hc]
        have h2 : node_qty heap e.2 = o.quantity := by simp [node_qty, hn]
        simp only [List.filterMap_cons, hn, List.map_cons, List.filter_cons, h1, if_true,
          hc, and_self, decide_True, List.sum_cons, h2]
        rw [ih]
      · have h1 : node_at_level heap s p e.2 = false := by simp [node_at_level, hn, hc]
        simp only [List.filterMap_cons, hn, List.map_cons, List.filter_cons, h1,
          Bool.false_eq_true, if_false, hc, decide_False]
        exact ih

theorem wf_registry_nodes_nodup {b : Implementation} (hw : WF b) :
    (b.order_registry.map Prod.snd).Nodup := by
  refine List.Nodup.map_on ?_ (List.Nodup.of_map _ hw.reg_keys)
  rintro ⟨k1, a1⟩ h1 ⟨k2, a2⟩ h2 e
  simp only at e
  subst e
  obtain ⟨o1, hn1, hid1, -⟩ := hw.registry k1 a1 (map_find_of_mem hw.reg_keys h1)
  obtain ⟨o2, hn2, hid2, -⟩ := hw.registry k2 a1 (map_find_of_mem hw.reg_keys h2)
  rw [hn1] at hn2
  cases hn2
  rw [← hid1, ← hid2]

theorem wf_level_nodes_perm {b : Implementation} (hw : WF b) (hi : Indexed b) {s : Bool}
    {e : Price × Level} (he : e ∈ side_of b s) :
    ((b.order_registry.map Prod.snd).filter (node_at_level b.nodes s e.1)).Perm
      e.2.order_queue := by
  have hl := (hw.side s).levels _ he
  have hkeys := sorted_keys_nodup (before_of_cmp s) (hw.side s).sorted
  refine (List.perm_ext_iff_of_nodup ((wf_registry_nodes_nodup hw).filter _) hl.nodup).2 ?_
  intro a
  rw [List.mem_filter]
  constructor
  · rintro ⟨hmem, hsel⟩
    obtain ⟨⟨k, a1⟩, hk, rfl⟩ := List.mem_map.1 hmem
    obtain ⟨o, lvl, hn, -, hf, hin⟩ := hw.resting (map_find_of_mem hw.reg_keys hk)
    simp only at hn hin hsel
    simp only [node_at_level, hn, decide_eq_true_eq] at hsel
    rw [hsel.1, hsel.2] at hf
    have hf2 : map_find (side_of b s) e.1 = some e.2 := map_find_of_mem hkeys he
    unfold level_at at hf
    rw [hf2] at hf
    cases hf
    exact hin
  · intro ha
    obtain ⟨o, h1, h2⟩ := hi s e a he ha
    obtain ⟨o1, h3, h4, h5⟩ := hl.nodes a ha
    rw [h1] at h3
    cases h3
    refine ⟨List.mem_map.2 ⟨(o.order_id, a), map_find_mem h2, rfl⟩, ?_⟩
    simp [node_at_level, h1, h4, h5]

theorem wf_level_aggregate {b : Implementation} (hw : WF b) (hi : Indexed b) {s : Bool}
    {e : Price × Level} (he : e ∈ side_of b s) :
    e.2.aggregated_volume = spec_quantity s (resting_orders b) e.1 % U64 := by
  have hl := (hw.side s).levels _ he
  rw [hl.agg, resting_orders, spec_quantity_registry, queue_sum]
  rw [((wf_level_nodes_perm hw hi he).map (node_qty b.nodes)).sum_eq]

theorem wf_side_levels {b : Implementation} (hw : WF b) (hi : Indexed b) (s : Bool)
    (depth : Nat) :
    top_levels (side_of b s) depth =
      wrap_levels ((spec_levels s (resting_orders b)).take depth) := by
  rw [top_levels, wrap_levels, spec_levels, wf_spec_prices hw hi s, ← List.map_take,
    ← List.map_take, List.map_map, List.map_map]
  apply List.map_congr_left
  intro e he
  have hmem := List.mem_of_mem_take he
  have hl := (hw.side s).levels _ hmem
  simp only [Function.comp, hl.price_eq, wf_level_aggregate hw hi hmem]

theorem filterMap_ids {reg : List (Nat × Nat)} {f : Nat × Nat → Option Order}
    (h : ∀ e ∈ reg, ∃ o, f e = some o ∧ o.order_id = e.1) :
    (reg.filterMap f).map (fun o => o.order_id) = reg.map Prod.fst := by
  induction reg with
  | nil => simp
  | cons e r ih =>
    obtain ⟨o, h1, h2⟩ := h e (List.mem_cons_self _ _)
    have ih1 := ih (fun e1 he1 => h e1 (List.mem_cons_of_mem _ he1))
    simp [List.filterMap_cons, h1, h2, ih1]

theorem wf_resting_orders_ids {b : Implementation} (hw : WF b) :
    (resting_orders b).map (fun o => o.order_id) = b.order_registry.map Prod.fst := by
  apply filterMap_ids
  rintro ⟨k, a⟩ he
  obtain ⟨o, h1, h2, -⟩ := hw.registry k a (map_find_of_mem hw.reg_keys he)
  exact ⟨o, h1, h2⟩

/-! ## The claims -/

/-- C3: for every book state and every order id that is not in the order index,
`cancel_order` returns false and `amend_order` returns false for every new
price and quantity, and both leave the whole state as it was. -/
theorem missing_id_fails_and_keeps_state (b : Implementation) (oid : Nat) (new_px : Price)
    (new_qty : Nat) (h : map_find b.order_registry oid = none) :
    cancel_order b oid = some (false, b) ∧
      amend_order b oid new_px new_qty = some (false, b) :=
  ⟨remove_order_miss h, modify_order_miss new_px new_qty h⟩

/-- Scenario E: `cancel(999)` and an amend of 999 on the empty book fail and
leave it empty. -/
theorem missing_id_fails_and_keeps_state_witness :
    cancel_order new_book 999 = some (false, new_book) ∧
      amend_order new_book 999 100 5 = some (false, new_book) :=
  missing_id_fails_and_keeps_state new_book 999 100 5 (by decide)

/-- C7, as stated, fails: on the reachable book of `test_cancel_operations`,
`get_snapshot` at depth `2^64 - 1` (above `max_size()`) throws
`std::length_error` and returns no vectors; `bids` is left empty and `asks`
keeps the contents that the caller passed, here with prices 5, 3, which do not
increase. -/
theorem snapshot_at_huge_depth_returns_no_vectors :
    Reachable two_sided_book ∧
      get_snapshot max_size_lp64 true true two_sided_book (2 ^ 64 - 1) [] [⟨5, 1⟩, ⟨3, 1⟩] =
        (some Thrown.length_error, [], [⟨5, 1⟩, ⟨3, 1⟩]) ∧
      ¬(([⟨5, 1⟩, ⟨3, 1⟩] : List PriceLevel).map (fun e => e.price)).Pairwise
        (fun x y => x < y) :=
  ⟨two_sided_book_reachable.reachable, by decide, by decide⟩

/-- C7, amended: in every state reachable from the empty book by `add_order`,
`cancel_order` and `amend_order` (with any arguments) and for every depth at which
`get_snapshot` returns, the bid vector has strictly decreasing prices and the
ask vector strictly increasing prices.  The call returns whenever the depth is
at most `max_size()` and the storage is to be had.  When a `reserve` throws,
`bids` is still strictly decreasing, and `asks` is strictly increasing unless
the extraction of the bids threw, in which case `asks` is as the caller passed
it. -/
theorem snapshot_prices_strictly_ordered (b : Implementation) (hb : Reachable b)
    (max_size : Nat) (bids_ok asks_ok : Bool) (depth : Nat) (bids asks : List PriceLevel) :
    ((get_snapshot max_size bids_ok asks_ok b depth bids asks).1 = none →
      ((get_snapshot max_size bids_ok asks_ok b depth bids asks).2.1.map
          (fun e => e.price)).Pairwise (fun x y => x > y) ∧
        ((get_snapshot max_size bids_ok asks_ok b depth bids asks).2.2.map
          (fun e => e.price)).Pairwise (fun x y => x < y)) ∧
      (depth ≤ max_size → (get_snapshot max_size true true b depth bids asks).1 = none) ∧
      ((get_snapshot max_size bids_ok asks_ok b depth bids asks).2.1.map
        (fun e => e.price)).Pairwise (fun x y => x > y) ∧
      (vector_reserve max_size bids_ok depth = none →
        ((get_snapshot max_size bids_ok asks_ok b depth bids asks).2.2.map
          (fun e => e.price)).Pairwise (fun x y => x < y)) ∧
      (vector_reserve max_size bids_ok depth ≠ none →
        (get_snapshot max_size bids_ok asks_ok b depth bids asks).2.2 = asks) := by
  have hw := hb.wf_of_reachable
  have hbid : ((top_levels b.bid_levels depth).map (fun e => e.price)).Pairwise
      (fun x y => x > y) := by
    rw [hw.bids.snapshot_prices]
    refine (hw.bids.sorted.sublist (List.take_sublist _ _)).imp ?_
    intro x y hxy
    simpa [bid_before] using hxy
  have hask : ((top_levels b.ask_levels depth).map (fun e => e.price)).Pairwise
      (fun x y => x < y) := by
    rw [hw.asks.snapshot_prices]
    refine (hw.asks.sorted.sublist (List.take_sublist _ _)).imp ?_
    intro x y hxy
    simpa [ask_before] using hxy
  refine ⟨?_, fun h => get_snapshot_of_room h b bids asks, ?_, ?_, ?_⟩
  · intro h
    rw [get_snapshot_returns h]
    exact ⟨hbid, hask⟩
  · rw [get_snapshot_eq]
    cases vector_reserve max_size bids_ok depth with
    | some e => simp
    | none =>
      cases vector_reserve max_size asks_ok depth with
      | some e => exact hbid
      | none => exact hbid
  · intro h
    rw [get_snapshot_eq, h]
    cases vector_reserve max_size asks_ok depth with
    | some e => simp
    | none => exact hask
  · intro h
    rw [get_snapshot_eq]
    cases h1 : vector_reserve max_size bids_ok depth with
    | some e => rfl
    | none => exact absurd h1 h

/-- The snapshot at depth 5 of a book with two levels per side returns and is
strictly ordered on both sides. -/
theorem snapshot_prices_strictly_ordered_witness :
    (get_snapshot max_size_lp64 true true two_sided_book 5 [] []).1 = none ∧
      ((get_snapshot max_size_lp64 true true two_sided_book 5 [] []).2.1.map
        (fun e => e.price)).Pairwise (fun x y => x > y) ∧
      ((get_snapshot max_size_lp64 true true two_sided_book 5 [] []).2.2.map
        (fun e => e.price)).Pairwise (fun x y => x < y) :=
  ⟨(snapshot_prices_strictly_ordered two_sided_book two_sided_book_reachable.reachable
      max_size_lp64 true true 5 [] []).2.1 (by decide),
    (snapshot_prices_strictly_ordered two_sided_book two_sided_book_reachable.reachable
      max_size_lp64 true true 5 [] []).1 (by decide)⟩

/-- C8, as stated, fails: on the book of `test_cancel_operations`, which has two
bid levels, `get_snapshot` at depth `2^64 - 1` (above `max_size()`) throws
`std::length_error`; `bids` is left with length 0, not `min (2^64 - 1) 2`, and
the previous contents of `asks` are not discarded. -/
theorem snapshot_at_huge_depth_has_no_levels :
    get_snapshot max_size_lp64 true true two_sided_book (2 ^ 64 - 1) [] [⟨5, 1⟩] =
        (some Thrown.length_error, [], [⟨5, 1⟩]) ∧
      two_sided_book.bid_levels.length = 2 ∧
      ([] : List PriceLevel).length ≠ min (2 ^ 64 - 1) 2 ∧
      (get_snapshot max_size_lp64 true true two_sided_book (2 ^ 64 - 1) [] [⟨5, 1⟩]).2.2 ≠
        (get_snapshot max_size_lp64 true true two_sided_book (2 ^ 64 - 1) [] []).2.2 := by
  decide

/-- C8, amended: for every book state and every depth `N` at which
`get_snapshot(N)` returns, each vector has length `min N (number of levels of
the side)` and the previous contents of the output vectors do not matter; an
empty side gives an empty vector; `N = 0` always returns two empty vectors; the
call returns whenever `N` is at most `max_size()` and the storage is to be had.
When the `reserve` of the bids throws, `bids` is left empty and `asks` as the
caller passed it; when the `reserve` of the asks throws, `bids` is filled and
`asks` is left empty. -/
theorem snapshot_length (b : Implementation) (max_size : Nat) (bids_ok asks_ok : Bool)
    (depth : Nat) (bids asks : List PriceLevel) :
    ((get_snapshot max_size bids_ok asks_ok b depth bids asks).1 = none →
      (get_snapshot max_size bids_ok asks_ok b depth bids asks).2.1.length =
          min depth b.bid_levels.length ∧
        (get_snapshot max_size bids_ok asks_ok b depth bids asks).2.2.length =
          min depth b.ask_levels.length ∧
        get_snapshot max_size bids_ok asks_ok b depth bids asks =
          get_snapshot max_size bids_ok asks_ok b depth [] []) ∧
      get_snapshot max_size bids_ok asks_ok b 0 bids asks = (none, [], []) ∧
      extract_levels max_size bids_ok [] depth bids =
        (vector_reserve max_size bids_ok depth, []) ∧
      (depth ≤ max_size → (get_snapshot max_size true true b depth bids asks).1 = none) ∧
      (∀ e, vector_reserve max_size bids_ok depth = some e →
        get_snapshot max_size bids_ok asks_ok b depth bids asks = (some e, [], asks)) ∧
      (∀ e, vector_reserve max_size bids_ok depth = none →
        vector_reserve max_size asks_ok depth = some e →
        (get_snapshot max_size bids_ok asks_ok b depth bids asks).1 = some e ∧
          (get_snapshot max_size bids_ok asks_ok b depth bids asks).2.1.length =
            min depth b.bid_levels.length ∧
          (get_snapshot max_size bids_ok asks_ok b depth bids asks).2.2 = []) := by
  refine ⟨?_, ?_, ?_, fun h => get_snapshot_of_room h b bids asks, ?_, ?_⟩
  · intro h
    have h0 : (get_snapshot max_size bids_ok asks_ok b depth [] []).1 = none := by
      rw [get_snapshot_eq] at h ⊢
      cases h1 : vector_reserve max_size bids_ok depth with
      | some e => simp [h1] at h
      | none =>
        cases h2 : vector_reserve max_size asks_ok depth with
        | some e => simp [h1, h2] at h
        | none => rfl
    rw [get_snapshot_returns h, get_snapshot_returns h0]
    simp [top_levels]
  · rw [get_snapshot_eq, vector_reserve_zero, vector_reserve_zero]
    simp [top_levels]
  · rw [extract_levels_eq]
    cases vector_reserve max_size bids_ok depth <;> simp [top_levels]
  · intro e h
    rw [get_snapshot_eq, h]
  · intro e h1 h2
    rw [get_snapshot_eq, h1, h2]
    simp [top_levels]

/-- On the book of `test_cancel_operations`, which has two levels per side: the
snapshot at depth 1 returns one level per side, whatever the vectors held. -/
theorem snapshot_length_witness :
    (get_snapshot max_size_lp64 true true two_sided_book 1 [⟨9, 9⟩] [⟨8, 8⟩]).2.1.length =
        min 1 two_sided_book.bid_levels.length ∧
      (get_snapshot max_size_lp64 true true two_sided_book 1 [⟨9, 9⟩] [⟨8, 8⟩]).2.2.length =
        min 1 two_sided_book.ask_levels.length ∧
      get_snapshot max_size_lp64 true true two_sided_book 1 [⟨9, 9⟩] [⟨8, 8⟩] =
        get_snapshot max_size_lp64 true true two_sided_book 1 [] [] :=
  (snapshot_length two_sided_book max_size_lp64 true true 1 [⟨9, 9⟩] [⟨8, 8⟩]).1 (by decide)

/-- C10: the book never matches orders and its two sides are independent.  In
every state, `add_order` leaves the side opposite to the order, every live node
and every other index entry as they were (so a buy order priced at or above the
best ask rests in full next to the untouched asks), and `cancel_order` and
`amend_order` of a resting order leave the opposite side and the nodes of its
orders as they were; in every reachable state these calls do return. -/
theorem sides_are_independent (b : Implementation) :
    (∀ o : Order,
      side_of (add_order b o) (!o.is_buy) = side_of b (!o.is_buy) ∧
      (∀ a o1, map_find b.nodes a = some o1 → map_find (add_order b o).nodes a = some o1) ∧
      resting_order (add_order b o) o.order_id = some o ∧
      (∀ oid1 o1, oid1 ≠ o.order_id → resting_order b oid1 = some o1 →
        resting_order (add_order b o) oid1 = some o1)) ∧
    (∀ oid o r b1, resting_order b oid = some o → cancel_order b oid = some (r, b1) →
      side_of b1 (!o.is_buy) = side_of b (!o.is_buy) ∧
      ∀ a1 o1, map_find b.nodes a1 = some o1 → o1.is_buy = !o.is_buy →
        map_find b1.nodes a1 = some o1) ∧
    (∀ oid o px qty r b1, resting_order b oid = some o →
      amend_order b oid px qty = some (r, b1) →
      side_of b1 (!o.is_buy) = side_of b (!o.is_buy) ∧
      ∀ a1 o1, map_find b.nodes a1 = some o1 → o1.is_buy = !o.is_buy →
        map_find b1.nodes a1 = some o1) ∧
    (Reachable b → ∀ oid o, resting_order b oid = some o →
      (∃ b1, cancel_order b oid = some (true, b1)) ∧
      ∀ px qty, ∃ b1, amend_order b oid px qty = some (true, b1)) := by
  refine ⟨?_, ?_, ?_, ?_⟩
  · intro o
    exact ⟨insert_order_other_side b o (by cases o.is_buy <;> simp),
      fun a o1 h => insert_order_keeps_nodes b o h, insert_order_resting b o,
      fun oid1 o1 hid h => insert_order_keeps_resting b o hid h⟩
  · intro oid o r b1 hrest hrem
    exact remove_order_frame hrest hrem
  · intro oid o px qty r b1 hrest hmod
    exact modify_order_frame hrest hmod
  · intro hb oid o hrest
    exact ⟨wf_remove_returns hb.wf_of_reachable hrest,
      fun px qty => wf_modify_returns hb.wf_of_reachable hrest px qty⟩

/-- On the book of `test_cancel_operations`: a buy at 52 (above the best ask 51)
leaves the asks untouched and rests in full; cancelling buy 1001 and moving buy
1002 to 49.50 succeed and leave the asks untouched. -/
theorem sides_are_independent_witness :
    (side_of (add_order two_sided_book ⟨3000, true, 52, 10, 0⟩) false =
        side_of two_sided_book false ∧
      resting_order (add_order two_sided_book ⟨3000, true, 52, 10, 0⟩) 3000 =
        some ⟨3000, true, 52, 10, 0⟩ ∧
      resting_order (add_order two_sided_book ⟨3000, true, 52, 10, 0⟩) 2001 =
        some ⟨2001, false, 51, 120, 0⟩) ∧
    side_of two_sided_after_cancel false = side_of two_sided_book false ∧
    side_of two_sided_after_amend false = side_of two_sided_book false ∧
    (∃ b1, cancel_order two_sided_book 1001 = some (true, b1)) :=
  ⟨⟨((sides_are_independent two_sided_book).1 ⟨3000, true, 52, 10, 0⟩).1,
      ((sides_are_independent two_sided_book).1 ⟨3000, true, 52, 10, 0⟩).2.2.1,
      ((sides_are_independent two_sided_book).1 ⟨3000, true, 52, 10, 0⟩).2.2.2 2001
        ⟨2001, false, 51, 120, 0⟩ (by decide) (by decide)⟩,
    ((sides_are_independent two_sided_book).2.1 1001 ⟨1001, true, 50, 100, 0⟩ true
      two_sided_after_cancel (by decide) (by decide)).1,
    ((sides_are_independent two_sided_book).2.2.1 1002 ⟨1002, true, 50, 200, 0⟩ (mkRat 99 2) 70
      true two_sided_after_amend (by decide) (by decide)).1,
    ((sides_are_independent two_sided_book).2.2.2 two_sided_book_reachable.reachable 1001
      ⟨1001, true, 50, 100, 0⟩ (by decide)).1⟩

/-- C9, as stated, fails: the book that holds buy order 1 (100.00, 500) is
changed by `add_order` of an order with the same id; the two orders are merged
into one level of aggregate 1000. -/
theorem readd_is_not_rejected :
    resting_order one_buy_book 1 = some ⟨1, true, 100, 500, 0⟩ ∧
      add_order one_buy_book ⟨1, true, 100, 500, 0⟩ ≠ one_buy_book ∧
      (get_snapshot max_size_lp64 true true (add_order one_buy_book ⟨1, true, 100, 500, 0⟩)
          1 [] []).2.1 =
        [⟨100, 1000⟩] := by
  decide

/-- C9, amended: re-adding an order id that is in the order index is not
rejected.  `add_order(o)` changes the state: a node that was not live holds `o`
and is appended to the queue of the level at `o.price` on the side of `o`
(a level that is created if there was none), its quantity is added to the
aggregate of that level modulo `2^64`, the index entry of the id is overwritten
in place and points to the new node, and the node that the index held before
stays live and every queue keeps its nodes. -/
theorem readd_appends_and_repoints (b : Implementation) (o : Order) (a0 : Nat)
    (hk : map_find b.order_registry o.order_id = some a0) :
    add_order b o ≠ b ∧
      map_find b.nodes (fresh_node b.nodes) = none ∧
      map_find (add_order b o).nodes (fresh_node b.nodes) = some o ∧
      map_find (add_order b o).order_registry o.order_id = some (fresh_node b.nodes) ∧
      (add_order b o).order_registry =
        map_update b.order_registry o.order_id (fresh_node b.nodes) ∧
      level_at (add_order b o) o.is_buy o.price =
        some (pushed_level (level_at b o.is_buy o.price) (fresh_node b.nodes) o) ∧
      (∀ o0, map_find b.nodes a0 = some o0 →
        a0 ≠ fresh_node b.nodes ∧ map_find (add_order b o).nodes a0 = some o0) ∧
      (∀ s p lvl, level_at b s p = some lvl →
        ∃ lvl1, level_at (add_order b o) s p = some lvl1 ∧
          lvl.order_queue <+: lvl1.order_queue) := by
  have hfr := map_find_fresh_node b.nodes
  have hnew := insert_order_new_node b o
  refine ⟨?_, hfr, hnew, ?_, ?_, ?_, ?_, ?_⟩
  · intro e
    rw [add_order] at e
    rw [e, hfr] at hnew
    exact Option.noConfusion hnew
  · rw [add_order, insert_order_registry, if_pos rfl]
  · rw [add_order, insert_order_eq, with_side_registry]
    simp [map_assign, hk]
  · rw [add_order, level_at_insert_order, if_pos rfl]
  · intro o0 h0
    refine ⟨?_, insert_order_keeps_nodes b o h0⟩
    intro e
    rw [e, hfr] at h0
    exact Option.noConfusion h0
  · intro s p lvl h
    exact insert_order_keeps_queues b o h

/-- Re-adding buy order 1 to the book that holds it. -/
theorem readd_appends_and_repoints_witness :
    add_order one_buy_book ⟨1, true, 100, 500, 0⟩ ≠ one_buy_book ∧
      map_find (add_order one_buy_book ⟨1, true, 100, 500, 0⟩).order_registry 1 = some 2 ∧
      level_at (add_order one_buy_book ⟨1, true, 100, 500, 0⟩) true 100 =
        some ⟨100, 1000, [1, 2]⟩ :=
  ⟨(readd_appends_and_repoints one_buy_book ⟨1, true, 100, 500, 0⟩ 1 (by decide)).1,
    (readd_appends_and_repoints one_buy_book ⟨1, true, 100, 500, 0⟩ 1 (by decide)).2.2.2.1,
    (readd_appends_and_repoints one_buy_book ⟨1, true, 100, 500, 0⟩ 1
      (by decide)).2.2.2.2.2.1⟩

/-- C4: in every reachable state (adds with ids that are not resting), for a
resting order `o` with id `k` and a new price different from the price of `o`,
`amend_order` returns true and produces exactly the state of `cancel_order(k)`
followed by `add_order` of the order with the id, side and timestamp of `o`, the
new price and the new quantity; the order is then the last element of the queue
of the level at the new price, and if it was alone at its old price the old
level is gone. -/
theorem amend_price_is_cancel_then_add (b : Implementation) (hb : ReachableFresh b)
    (k : Nat) (o : Order) (new_px : Price) (new_qty : Nat)
    (hrest : resting_order b k = some o) (hpx : new_px ≠ o.price) :
    ∃ b1, cancel_order b k = some (true, b1) ∧
      amend_order b k new_px new_qty =
        some (true, add_order b1 { o with price := new_px, quantity := new_qty }) ∧
      (∃ lvl a,
        level_at (add_order b1 { o with price := new_px, quantity := new_qty })
          o.is_buy new_px = some lvl ∧
        lvl.order_queue.getLast? = some a ∧
        map_find (add_order b1 { o with price := new_px, quantity := new_qty }).order_registry
          k = some a ∧
        map_find (add_order b1 { o with price := new_px, quantity := new_qty }).nodes a =
          some { o with price := new_px, quantity := new_qty }) ∧
      (∀ a lvl, map_find b.order_registry k = some a →
        level_at b o.is_buy o.price = some lvl → lvl.order_queue = [a] →
        level_at (add_order b1 { o with price := new_px, quantity := new_qty })
          o.is_buy o.price = none) := by
  have hw := hb.wf_of_fresh
  obtain ⟨a, hr, hn0⟩ := resting_order_eq_some.1 hrest
  obtain ⟨o1, lvl, hn, hid, hf, hin⟩ := hw.resting hr
  rw [hn0] at hn
  cases hn
  have hrem := remove_order_eq hr hn0 hf hin
  refine ⟨_, hrem, modify_order_px_eq new_qty hr hn0 (fun e => hpx e.symm) hrem, ?_, ?_⟩
  · refine ⟨_, fresh_node (map_erase b.nodes a),
      level_at_insert_order_self _ { o with price := new_px, quantity := new_qty }, ?_, ?_, ?_⟩
    · rw [pushed_level_queue]
      simp
    · rw [add_order, insert_order_registry, with_side_nodes, if_pos hid.symm]
    · rw [add_order, insert_order_eq, with_side_nodes, with_side_nodes, map_find_assign,
        if_pos rfl]
  · intro a1 lvl1 hr1 hf1 hq
    rw [hr] at hr1
    cases hr1
    rw [hf] at hf1
    cases hf1
    have he : lvl.order_queue.erase a = [] := by simp [hq]
    rw [add_order]
    have := level_at_insert_order
      (with_side o.is_buy (map_erase b.nodes a) (map_erase b.order_registry k)
        (if lvl.order_queue.erase a = [] then map_erase (side_of b o.is_buy) o.price
          else map_update (side_of b o.is_buy) o.price
            ⟨lvl.price, wrap_sub lvl.aggregated_volume o.quantity, lvl.order_queue.erase a⟩)
        b) { o with price := new_px, quantity := new_qty } o.price
    simp only at this
    rw [this, if_neg (fun e => hpx e.symm)]
    unfold level_at
    rw [side_of_with_side_self, if_pos he, map_find_erase, if_pos rfl]

/-- Scenario D: the single sell order (1, 101.00, 400) is amended to 100.75; the
amend is the cancel followed by the add, and afterwards the asks show 100.75
with 400 and no level at 101.00. -/
theorem amend_price_is_cancel_then_add_witness :
    (∃ b1, cancel_order scenario_D 1 = some (true, b1) ∧
      amend_order scenario_D 1 (mkRat 403 4) 400 =
        some (true, add_order b1 ⟨1, false, mkRat 403 4, 400, 0⟩)) ∧
    (amend_order scenario_D 1 (mkRat 403 4) 400).map
        (fun x => (get_snapshot max_size_lp64 true true x.2 5 [] []).2.2) =
          some [⟨mkRat 403 4, 400⟩] := by
  obtain ⟨b1, h1, h2, -⟩ := amend_price_is_cancel_then_add scenario_D
    (ReachableFresh.add _ _ ReachableFresh.init (by decide)) 1 ⟨1, false, 101, 400, 0⟩
    (mkRat 403 4) 400 (by decide) (by decide)
  exact ⟨⟨b1, h1, h2⟩, by decide⟩

/-- C6, as stated, fails in part (iii): the bid level at 100.00 holds one order
of quantity `2^64 - 1`; adding the fresh order `(2, 100.00, 1)` takes the
aggregate of the level from `2^64 - 1` to `0`, not to `2^64`. -/
theorem add_does_not_increase_aggregate_exactly :
    map_find full_level_book.order_registry 2 = none ∧
      (level_at full_level_book true 100).map (fun l => l.aggregated_volume) =
        some (2 ^ 64 - 1) ∧
      (level_at (add_order full_level_book ⟨2, true, 100, 1, 0⟩) true 100).map
        (fun l => l.aggregated_volume) = some 0 ∧
      (0 : Nat) ≠ (2 ^ 64 - 1) + 1 := by
  decide

/-- C6, amended: in every reachable state (adds with ids that are not resting)
and for every order `o` whose id is not in the order index, `add_order(o)`
(i) creates a level at `o.price` on the side of `o` if and only if none existed
there and leaves every other level of both sides as it was, (ii) makes the new
node of `o` the last element of the queue of that level, after the nodes queued
before in their order, (iii) makes the aggregate of the level
`(A + o.quantity) mod 2^64`, where `A` is the aggregate before (0 for a new
level), and (iv) adds the id to the order index, pointing at `o`. -/
theorem add_fresh_order (b : Implementation) (hb : ReachableFresh b) (o : Order)
    (hfresh : map_find b.order_registry o.order_id = none) :
    map_find b.nodes (fresh_node b.nodes) = none ∧
      map_find (add_order b o).nodes (fresh_node b.nodes) = some o ∧
      (∀ a o1, map_find b.nodes a = some o1 → map_find (add_order b o).nodes a = some o1) ∧
      (add_order b o).order_registry = b.order_registry ++ [(o.order_id, fresh_node b.nodes)] ∧
      resting_order (add_order b o) o.order_id = some o ∧
      side_of (add_order b o) (!o.is_buy) = side_of b (!o.is_buy) ∧
      (∀ p, p ≠ o.price → level_at (add_order b o) o.is_buy p = level_at b o.is_buy p) ∧
      (level_at b o.is_buy o.price = none →
        level_at (add_order b o) o.is_buy o.price =
          some ⟨o.price, o.quantity % U64, [fresh_node b.nodes]⟩ ∧
        (side_of (add_order b o) o.is_buy).length = (side_of b o.is_buy).length + 1) ∧
      (∀ lvl, level_at b o.is_buy o.price = some lvl →
        fresh_node b.nodes ∉ lvl.order_queue ∧
        level_at (add_order b o) o.is_buy o.price =
          some ⟨lvl.price, (lvl.aggregated_volume + o.quantity) % U64,
            lvl.order_queue ++ [fresh_node b.nodes]⟩ ∧
        (side_of (add_order b o) o.is_buy).map Prod.fst =
          (side_of b o.is_buy).map Prod.fst) := by
  have hw := hb.wf_of_fresh
  refine ⟨map_find_fresh_node _, insert_order_new_node b o,
    fun a o1 h => insert_order_keeps_nodes b o h, ?_, insert_order_resting b o,
    insert_order_other_side b o (by cases o.is_buy <;> simp), ?_, ?_, ?_⟩
  · rw [add_order, insert_order_eq, with_side_registry]
    simp [map_assign, hfresh]
  · intro p hp
    rw [add_order, level_at_insert_order, if_neg hp]
  · intro hnone
    constructor
    · rw [add_order, level_at_insert_order_self, hnone]
      simp [pushed_level, wrap_add]
    · rw [add_order, insert_order_eq, side_of_with_side_self, insert_into_side_new hnone,
        side_insert_length]
  · intro lvl hl
    refine ⟨wf_fresh_not_queued hw hl, ?_, ?_⟩
    · rw [add_order, level_at_insert_order_self, hl]
      rfl
    · rw [add_order, insert_order_eq, side_of_with_side_self, insert_into_side_old hl,
        map_update_keys]

/-- Adding the fresh buy order `(3, 100.50, 200)` to the book that holds
`(1, 100.50, 500)` and `(2, 100.25, 300)`: the level at 100.50 becomes
`700` with queue `[1, 3]`; adding `(4, 99.00, 10)` creates a third level. -/
theorem add_fresh_order_witness :
    level_at scenario_A true (mkRat 201 2) = some ⟨mkRat 201 2, 700, [1, 3]⟩ ∧
      resting_order scenario_A 3 = some ⟨3, true, mkRat 201 2, 200, 0⟩ ∧
      level_at (add_order scenario_A ⟨4, true, 99, 10, 0⟩) true 99 = some ⟨99, 10, [4]⟩ ∧
      (side_of (add_order scenario_A ⟨4, true, 99, 10, 0⟩) true).length = 3 :=
  ⟨((add_fresh_order
      (add_order (add_order new_book ⟨1, true, mkRat 201 2, 500, 0⟩)
        ⟨2, true, mkRat 401 4, 300, 0⟩)
      (ReachableFresh.add _ _ (ReachableFresh.add _ _ ReachableFresh.init (by decide))
        (by decide))
      ⟨3, true, mkRat 201 2, 200, 0⟩ (by decide)).2.2.2.2.2.2.2.2
        ⟨mkRat 201 2, 500, [1]⟩ (by decide)).2.1,
    (add_fresh_order
      (add_order (add_order new_book ⟨1, true, mkRat 201 2, 500, 0⟩)
        ⟨2, true, mkRat 401 4, 300, 0⟩)
      (ReachableFresh.add _ _ (ReachableFresh.add _ _ ReachableFresh.init (by decide))
        (by decide))
      ⟨3, true, mkRat 201 2, 200, 0⟩ (by decide)).2.2.2.2.1,
    ((add_fresh_order scenario_A scenario_A_reachable ⟨4, true, 99, 10, 0⟩
      (by decide)).2.2.2.2.2.2.2.1 (by decide)).1,
    ((add_fresh_order scenario_A scenario_A_reachable ⟨4, true, 99, 10, 0⟩
      (by decide)).2.2.2.2.2.2.2.1 (by decide)).2⟩

/-- C5, as stated, fails for the aggregate: the level at 100.00 holds the buy
orders 1 and 2 of quantity 5 each, aggregate `A = 10`; `amend_order(1, 100.00,
2^64 - 1)` returns true and leaves the aggregate `4`, which is not
`A - 5 + (2^64 - 1)`. -/
theorem amend_quantity_aggregate_wraps :
    level_at two_fives_book true 100 = some ⟨100, 10, [1, 2]⟩ ∧
      (amend_order two_fives_book 1 100 (2 ^ 64 - 1)).map
        (fun x => (x.1, level_at x.2 true 100)) = some (true, some ⟨100, 4, [1, 2]⟩) ∧
      (4 : Int) ≠ 10 - 5 + (2 ^ 64 - 1) := by
  decide

/-- C5, amended: in every reachable state (adds with ids that are not resting),
for a resting order with id `k`, price `p` and quantity `q_old`,
`amend_order(k, p, q_new)` returns true, leaves the queue of the level at `p`
as it was (the node keeps its place), sets only the quantity of that order to
`q_new`, changes the aggregate of the level from `A` to
`(A - q_old + q_new) mod 2^64`, and changes nothing else: the other levels of
the side, the keys of the side, the other side, the order index and all other
nodes are as before. -/
theorem amend_quantity_in_place (b : Implementation) (hb : ReachableFresh b) (k : Nat)
    (o : Order) (new_qty : Nat) (hrest : resting_order b k = some o) :
    ∃ a lvl b1, map_find b.order_registry k = some a ∧
      level_at b o.is_buy o.price = some lvl ∧ a ∈ lvl.order_queue ∧
      amend_order b k o.price new_qty = some (true, b1) ∧
      level_at b1 o.is_buy o.price =
        some ⟨lvl.price, wrap_add (wrap_sub lvl.aggregated_volume o.quantity) new_qty,
          lvl.order_queue⟩ ∧
      ((wrap_add (wrap_sub lvl.aggregated_volume o.quantity) new_qty : Nat) : Int) =
        ((lvl.aggregated_volume : Int) - o.quantity + new_qty) % (2 ^ 64 : Int) ∧
      (∀ p, p ≠ o.price → level_at b1 o.is_buy p = level_at b o.is_buy p) ∧
      (side_of b1 o.is_buy).map Prod.fst = (side_of b o.is_buy).map Prod.fst ∧
      side_of b1 (!o.is_buy) = side_of b (!o.is_buy) ∧
      b1.order_registry = b.order_registry ∧
      map_find b1.nodes a = some { o with quantity := new_qty } ∧
      (∀ c, c ≠ a → map_find b1.nodes c = map_find b.nodes c) := by
  have hw := hb.wf_of_fresh
  obtain ⟨a, hr, hn0⟩ := resting_order_eq_some.1 hrest
  obtain ⟨o1, lvl, hn, -, hf, hin⟩ := hw.resting hr
  rw [hn0] at hn
  cases hn
  refine ⟨a, lvl, _, hr, hf, hin, modify_order_qty_eq new_qty hr hn0 hf, ?_,
    wrap_sub_add_int _ _ _, ?_, ?_, ?_, ?_, ?_, ?_⟩
  · unfold level_at at hf ⊢
    rw [side_of_with_side_self, map_find_update, if_pos rfl, hf]
    rfl
  · intro p hp
    unfold level_at
    rw [side_of_with_side_self, map_find_update, if_neg hp]
  · rw [side_of_with_side_self, map_update_keys]
  · exact side_of_with_side_ne (by cases o.is_buy <;> simp) _ _ _ _
  · rw [with_side_registry]
  · rw [with_side_nodes, map_find_update, if_pos rfl, hn0]
    rfl
  · intro c hc
    rw [with_side_nodes, map_find_update, if_neg hc]

/-- Scenario C: the buy order (1, 100.00, 500) is amended to quantity 800; the
call returns true, the bids are `[(100.00, 800)]` and node 1 is still the first
of the queue. -/
theorem amend_quantity_in_place_witness :
    (∃ a lvl b1, map_find one_buy_book.order_registry 1 = some a ∧
      level_at one_buy_book true 100 = some lvl ∧ a ∈ lvl.order_queue ∧
      amend_order one_buy_book 1 100 800 = some (true, b1) ∧
      level_at b1 true 100 =
        some ⟨lvl.price, wrap_add (wrap_sub lvl.aggregated_volume 500) 800,
          lvl.order_queue⟩) ∧
    (amend_order one_buy_book 1 100 800).map
      (fun x => ((get_snapshot max_size_lp64 true true x.2 5 [] []).2.1,
        level_at x.2 true 100)) =
        some ([⟨100, 800⟩], some ⟨100, 800, [1]⟩) := by
  obtain ⟨a, lvl, b1, h1, h2, h3, h4, h5, -⟩ := amend_quantity_in_place one_buy_book
    (ReachableFresh.add _ _ ReachableFresh.init (by decide)) 1 ⟨1, true, 100, 500, 0⟩ 800
    (by decide)
  exact ⟨⟨a, lvl, b1, h1, h2, h3, h4, h5⟩, by decide⟩

/-- C2, as stated, fails for the aggregate: the level at 100.00 holds the buy
orders 1 and 2 of quantity `2^63` each, so its aggregate is `A = 0`;
`cancel_order(1)` returns true and leaves the aggregate `2^63`, which is not
`A - 2^63`. -/
theorem cancel_aggregate_wraps :
    resting_order wrapped_book 1 = some ⟨1, true, 100, 2 ^ 63, 0⟩ ∧
      level_at wrapped_book true 100 = some ⟨100, 0, [1, 2]⟩ ∧
      (cancel_order wrapped_book 1).map (fun x => (x.1, level_at x.2 true 100)) =
        some (true, some ⟨100, 2 ^ 63, [2]⟩) ∧
      ((2 ^ 63 : Nat) : Int) ≠ 0 - 2 ^ 63 := by
  decide

/-- C2, amended: in every reachable state (adds with ids that are not resting),
for a resting order with id `k`, price `p`, quantity `q` and side `s`,
`cancel_order(k)` returns true; afterwards `k` is not in the order index and a
second `cancel_order(k)` returns false; the node of the order is freed and gone
from the queue of the level at `p` on side `s`, whose other nodes keep their
order; the aggregate of that level becomes `(A - q) mod 2^64`; if the order was
the only one of the level, the level is gone and `p` is in no snapshot of side
`s`; everything else is as before. -/
theorem cancel_resting_order (b : Implementation) (hb : ReachableFresh b) (k : Nat)
    (o : Order) (hrest : resting_order b k = some o) :
    ∃ a lvl b1, map_find b.order_registry k = some a ∧
      level_at b o.is_buy o.price = some lvl ∧ a ∈ lvl.order_queue ∧
      cancel_order b k = some (true, b1) ∧
      map_find b1.order_registry k = none ∧
      cancel_order b1 k = some (false, b1) ∧
      (∀ oid, oid ≠ k → map_find b1.order_registry oid = map_find b.order_registry oid) ∧
      map_find b1.nodes a = none ∧
      (∀ c, c ≠ a → map_find b1.nodes c = map_find b.nodes c) ∧
      (lvl.order_queue.filter (fun c => decide (c ≠ a)) ≠ [] →
        level_at b1 o.is_buy o.price =
          some ⟨lvl.price, wrap_sub lvl.aggregated_volume o.quantity,
            lvl.order_queue.filter (fun c => decide (c ≠ a))⟩) ∧
      ((wrap_sub lvl.aggregated_volume o.quantity : Nat) : Int) =
        ((lvl.aggregated_volume : Int) - o.quantity) % (2 ^ 64 : Int) ∧
      (lvl.order_queue = [a] →
        level_at b1 o.is_buy o.price = none ∧
        ∀ max_size storage_ok depth output,
          ∀ e ∈ (extract_levels max_size storage_ok (side_of b1 o.is_buy) depth output).2,
            e.price ≠ o.price) ∧
      (∀ p, p ≠ o.price → level_at b1 o.is_buy p = level_at b o.is_buy p) ∧
      side_of b1 (!o.is_buy) = side_of b (!o.is_buy) := by
  have hw := hb.wf_of_fresh
  obtain ⟨a, hr, hn0⟩ := resting_order_eq_some.1 hrest
  obtain ⟨o1, lvl, hn, -, hf, hin⟩ := hw.resting hr
  rw [hn0] at hn
  cases hn
  have hnd : lvl.order_queue.Nodup := ((hw.side o.is_buy).levels _ (map_find_mem hf)).nodup
  have hfilter : lvl.order_queue.erase a = lvl.order_queue.filter (fun c => decide (c ≠ a)) := by
    rw [hnd.erase_eq_filter]
    apply List.filter_congr
    intro x _
    by_cases hx : x = a <;> simp [hx]
  have hw1 := hw.wf_removed hr hn0 hf hin
  have hlev : ∀ p, level_at (with_side o.is_buy (map_erase b.nodes a)
        (map_erase b.order_registry k)
        (if lvl.order_queue.erase a = [] then map_erase (side_of b o.is_buy) o.price
          else map_update (side_of b o.is_buy) o.price
            ⟨lvl.price, wrap_sub lvl.aggregated_volume o.quantity, lvl.order_queue.erase a⟩)
        b) o.is_buy p =
      if p = o.price then
        (if lvl.order_queue.erase a = [] then none else some (popped_level lvl a o))
      else level_at b o.is_buy p := by
    intro p
    unfold level_at at hf ⊢
    rw [side_of_with_side_self, find_removed_side a o p hf]
  have hreg1 : map_find (map_erase b.order_registry k) k = none := by
    rw [map_find_erase, if_pos rfl]
  refine ⟨a, lvl, _, hr, hf, hin, remove_order_eq hr hn0 hf hin, ?_, ?_, ?_, ?_, ?_, ?_,
    wrap_sub_int _ _, ?_, ?_, ?_⟩
  · rw [with_side_registry]
    exact hreg1
  · apply remove_order_miss
    rw [with_side_registry]
    exact hreg1
  · intro oid hoid
    rw [with_side_registry, map_find_erase, if_neg hoid]
  · rw [with_side_nodes, map_find_erase, if_pos rfl]
  · intro c hc
    rw [with_side_nodes, map_find_erase, if_neg hc]
  · intro hne
    rw [← hfilter] at hne ⊢
    rw [hlev, if_pos rfl, if_neg hne]
    rfl
  · intro hq
    have he : lvl.order_queue.erase a = [] := by simp [hq]
    have hnone := (hlev o.price).trans (by rw [if_pos rfl, if_pos he])
    refine ⟨hnone, ?_⟩
    intro max_size storage_ok depth output e hmem hp
    have := wf_snapshot_prices_are_keys hw1 o.is_buy depth
      (mem_top_levels_of_mem_extract hmem)
    rw [hp] at this
    exact this hnone
  · intro p hp
    rw [hlev, if_neg hp]
  · exact side_of_with_side_ne (by cases o.is_buy <;> simp) _ _ _ _

/-- Scenario B: after the buy orders (1, 100.00, 100) and (2, 100.00, 200),
`cancel_order(1)` returns true, a second cancel returns false, and the bids at
depth 1 are `[(100.00, 200)]`. -/
theorem cancel_resting_order_witness :
    (∃ b1, cancel_order scenario_B 1 = some (true, b1) ∧
      map_find b1.order_registry 1 = none ∧ cancel_order b1 1 = some (false, b1)) ∧
    (cancel_order scenario_B 1).map
      (fun x => ((get_snapshot max_size_lp64 true true x.2 1 [] []).2.1,
        level_at x.2 true 100)) =
        some ([⟨100, 200⟩], some ⟨100, 200, [2]⟩) := by
  obtain ⟨a, lvl, b1, -, -, -, h4, h5, h6, -⟩ := cancel_resting_order scenario_B
    scenario_B_reachable 1 ⟨1, true, 100, 100, 0⟩ (by decide)
  exact ⟨⟨b1, h4, h5, h6⟩, by decide⟩

/-- C1, as stated, fails for the quantities: the buy orders 1 and 2 of quantity
`2^63` each rest at 100.00, the sum of their quantities is `2^64`, and the bid
vector of `get_snapshot(1)` is `[(100.00, 0)]`.  It also fails at a depth above
`max_size()`: `get_snapshot(2^64 - 1)` throws `std::length_error` and leaves the
bid vector empty although a buy order rests. -/
theorem snapshot_quantity_wraps :
    resting_orders wrapped_book = [⟨1, true, 100, 2 ^ 63, 0⟩, ⟨2, true, 100, 2 ^ 63, 0⟩] ∧
      get_snapshot max_size_lp64 true true wrapped_book 1 [] [] = (none, [⟨100, 0⟩], []) ∧
      spec_snapshot (resting_orders wrapped_book) 1 = ([⟨100, 2 ^ 64⟩], []) ∧
      (get_snapshot max_size_lp64 true true wrapped_book 1 [] []).2 ≠
        spec_snapshot (resting_orders wrapped_book) 1 ∧
      get_snapshot max_size_lp64 true true one_buy_book (2 ^ 64 - 1) [] [] =
        (some Thrown.length_error, [], []) ∧
      resting_orders one_buy_book = [⟨1, true, 100, 500, 0⟩] := by
  decide

/-- C1, amended: in every state reachable from the empty book by `add_order`
(with an order id that is not resting), `cancel_order` and `amend_order`, and
for every depth `N` at which `get_snapshot(N)` returns, the i-th entry of the
bid vector is `(p_i, q_i mod 2^64)`, where `p_i` is the i-th highest distinct
price among the resting buy orders and `q_i` the sum of the quantities of the
resting buy orders at `p_i`; symmetrically for the ask vector with the i-th
lowest price.  The call returns whenever `N` is at most `max_size()` and the
storage is to be had; when only the `reserve` of the asks throws, the bid vector
is still as described.  The resting orders are the orders behind the index
entries, one per entry. -/
theorem snapshot_is_aggregated_book (b : Implementation) (hb : ReachableFresh b)
    (max_size : Nat) (bids_ok asks_ok : Bool) (depth : Nat) (bids asks : List PriceLevel) :
    ((get_snapshot max_size bids_ok asks_ok b depth bids asks).1 = none →
      get_snapshot max_size bids_ok asks_ok b depth bids asks =
        (none, wrap_levels (spec_snapshot (resting_orders b) depth).1,
          wrap_levels (spec_snapshot (resting_orders b) depth).2)) ∧
      (depth ≤ max_size → (get_snapshot max_size true true b depth bids asks).1 = none) ∧
      (vector_reserve max_size bids_ok depth = none →
        (get_snapshot max_size bids_ok asks_ok b depth bids asks).2.1 =
          wrap_levels (spec_snapshot (resting_orders b) depth).1) ∧
      (resting_orders b).map (fun o => o.order_id) = b.order_registry.map Prod.fst ∧
      (∀ o, o ∈ resting_orders b ↔ resting_order b o.order_id = some o) := by
  have hw := hb.wf_of_fresh
  have hi := hb.indexed
  have h1 := wf_side_levels hw hi true depth
  have h2 := wf_side_levels hw hi false depth
  simp only [side_of, if_true, Bool.false_eq_true, if_false] at h1 h2
  refine ⟨?_, fun h => get_snapshot_of_room h b bids asks, ?_, wf_resting_orders_ids hw, ?_⟩
  · intro h
    rw [get_snapshot_returns h, h1, h2]
    rfl
  · intro h
    rw [get_snapshot_eq, h]
    cases vector_reserve max_size asks_ok depth with
    | some e => exact h1
    | none => exact h1
  · intro o
    rw [wf_mem_resting_orders hw, resting_order_eq_some]

/-- Scenario A: after the buys (1, 100.50, 500), (2, 100.25, 300) and
(3, 100.50, 200) the snapshot at depth 2 returns and the bids are
`[(100.50, 700), (100.25, 300)]`. -/
theorem snapshot_is_aggregated_book_witness :
    get_snapshot max_size_lp64 true true scenario_A 2 [] [] =
        (none, wrap_levels (spec_snapshot (resting_orders scenario_A) 2).1,
          wrap_levels (spec_snapshot (resting_orders scenario_A) 2).2) ∧
      get_snapshot max_size_lp64 true true scenario_A 2 [] [] =
        (none, [⟨mkRat 201 2, 700⟩, ⟨mkRat 401 4, 300⟩], []) ∧
      spec_snapshot (resting_orders scenario_A) 2 =
        ([⟨mkRat 201 2, 700⟩, ⟨mkRat 401 4, 300⟩], []) :=
  ⟨(snapshot_is_aggregated_book scenario_A scenario_A_reachable max_size_lp64 true true
      2 [] []).1 (by decide), by decide, by decide⟩

/-- C11, as stated, fails: the buy orders 1 and 2 of quantity `2^63` each are
queued at 100.00; the sum of the quantities in the queue is `2^64` and the
aggregate of the level is `0`. -/
theorem aggregate_is_not_true_sum :
    level_at wrapped_book true 100 = some ⟨100, 0, [1, 2]⟩ ∧
      map_find wrapped_book.nodes 1 = some ⟨1, true, 100, 2 ^ 63, 0⟩ ∧
      map_find wrapped_book.nodes 2 = some ⟨2, true, 100, 2 ^ 63, 0⟩ ∧
      queue_sum wrapped_book.nodes [1, 2] = 2 ^ 64 ∧
      (0 : Nat) ≠ 2 ^ 64 := by
  decide

/-- C11, amended: in every state reachable from the empty book by any sequence
of `add_order`, `cancel_order` and `amend_order` calls, for every level of either
side the aggregate equals the sum of the quantities of the orders in the queue
of the level modulo `2^64` (every queued node is live, so every queued order
is counted); it is the true sum whenever that sum is below `2^64`. -/
theorem aggregate_is_queue_sum_mod (b : Implementation) (hb : Reachable b) (s : Bool)
    (e : Price × Level) (he : e ∈ side_of b s) :
    e.2.aggregated_volume = queue_sum b.nodes e.2.order_queue % U64 ∧
      (∀ a ∈ e.2.order_queue, ∃ o, map_find b.nodes a = some o ∧
        node_qty b.nodes a = o.quantity) ∧
      (queue_sum b.nodes e.2.order_queue < U64 →
        e.2.aggregated_volume = queue_sum b.nodes e.2.order_queue) := by
  have hl := (hb.wf_of_reachable.side s).levels e he
  refine ⟨hl.agg, ?_, ?_⟩
  · intro a ha
    obtain ⟨o, ho, -⟩ := hl.nodes a ha
    exact ⟨o, ho, by simp [node_qty, ho]⟩
  · intro hlt
    rw [hl.agg, Nat.mod_eq_of_lt hlt]

/-- The bid level at 50.00 of the book of `test_cancel_operations` holds the
orders of quantity 100 and 200 and has aggregate 300. -/
theorem aggregate_is_queue_sum_mod_witness :
    (300 : Nat) = queue_sum two_sided_book.nodes [1, 2] % U64 ∧
      queue_sum two_sided_book.nodes [1, 2] = 300 :=
  ⟨(aggregate_is_queue_sum_mod two_sided_book two_sided_book_reachable.reachable true
      (50, ⟨50, 300, [1, 2]⟩) (by decide)).1, by decide⟩

/-- C14: in every state reachable from the empty book by any sequence of
`add_order`, `cancel_order` and `amend_order` calls, every price key of a side map
has a level with a queue that is not empty, and the level of every resting
order exists; a quantity-only `amend_order` finds the level of the order under
its key (so `operator[]` inserts nothing), returns true and leaves the keys of
both side maps as they were. -/
theorem no_empty_level (b : Implementation) (hb : Reachable b) :
    (∀ s e, e ∈ side_of b s → e.2.order_queue ≠ []) ∧
      (∀ oid o, resting_order b oid = some o → level_at b o.is_buy o.price ≠ none) ∧
      (∀ oid o qty, resting_order b oid = some o →
        ∃ lvl b1, map_find (side_of b o.is_buy) o.price = some lvl ∧
          requantify_side (side_of b o.is_buy) o.price o.quantity qty ≠ none ∧
          amend_order b oid o.price qty = some (true, b1) ∧
          b1.bid_levels.map Prod.fst = b.bid_levels.map Prod.fst ∧
          b1.ask_levels.map Prod.fst = b.ask_levels.map Prod.fst ∧
          ∀ s e, e ∈ side_of b1 s → e.2.order_queue ≠ []) := by
  have hw := hb.wf_of_reachable
  refine ⟨fun s e he => ((hw.side s).levels e he).nonempty, ?_, ?_⟩
  · intro oid o hrest
    obtain ⟨a, hr, hn0⟩ := resting_order_eq_some.1 hrest
    obtain ⟨o1, lvl, hn, -, hf, -⟩ := hw.resting hr
    rw [hn0] at hn
    cases hn
    rw [hf]
    exact Option.some_ne_none _
  · intro oid o qty hrest
    obtain ⟨a, hr, hn0⟩ := resting_order_eq_some.1 hrest
    obtain ⟨o1, lvl, hn, -, hf, hin⟩ := hw.resting hr
    rw [hn0] at hn
    cases hn
    have hmod := modify_order_qty_eq qty hr hn0 hf
    have hw1 := hw.after_modify hmod
    have hkeys : ∀ t, (side_of (with_side o.is_buy
          (map_update b.nodes a { o with quantity := qty }) b.order_registry
          (map_update (side_of b o.is_buy) o.price
            ⟨lvl.price, wrap_add (wrap_sub lvl.aggregated_volume o.quantity) qty,
              lvl.order_queue⟩) b) t).map Prod.fst = (side_of b t).map Prod.fst := by
      intro t
      by_cases ht : t = o.is_buy
      · subst ht
        rw [side_of_with_side_self, map_update_keys]
      · rw [side_of_with_side_ne ht]
    refine ⟨lvl, _, hf, ?_, hmod, hkeys true, hkeys false,
      fun s e he => ((hw1.side s).levels e he).nonempty⟩
    rw [requantify_side_eq _ _ hf]
    exact Option.some_ne_none _

/-- On the book of `test_cancel_operations`: the bid level at 49.50 has a queue
that is not empty, and the quantity-only amend of order 1003 returns true. -/
theorem no_empty_level_witness :
    ([3] : List Nat) ≠ [] ∧
      ∃ lvl b1, map_find (side_of two_sided_book true) (mkRat 99 2) = some lvl ∧
        requantify_side (side_of two_sided_book true) (mkRat 99 2) 150 7 ≠ none ∧
        amend_order two_sided_book 1003 (mkRat 99 2) 7 = some (true, b1) ∧
        b1.bid_levels.map Prod.fst = two_sided_book.bid_levels.map Prod.fst ∧
        b1.ask_levels.map Prod.fst = two_sided_book.ask_levels.map Prod.fst ∧
        ∀ s e, e ∈ side_of b1 s → e.2.order_queue ≠ [] :=
  ⟨(no_empty_level two_sided_book two_sided_book_reachable.reachable).1 true
      (mkRat 99 2, ⟨mkRat 99 2, 150, [3]⟩) (by decide),
    (no_empty_level two_sided_book two_sided_book_reachable.reachable).2.2 1003
      ⟨1003, true, mkRat 99 2, 150, 0⟩ 7 (by decide)⟩

/-- C15: in every state reachable from the empty book by any sequence of
`add_order`, `cancel_order` and `amend_order` calls, every key `k` of the bid (ask)
side map has a level whose price field is `k`, every order queued in that level
has price `k`, every order queued on the bid side has `is_buy = true` and every
order queued on the ask side has `is_buy = false`. -/
theorem levels_match_their_keys (b : Implementation) (hb : Reachable b) :
    (∀ e ∈ b.bid_levels, e.2.price = e.1 ∧
      ∀ a ∈ e.2.order_queue, ∃ o, map_find b.nodes a = some o ∧ o.price = e.1 ∧
        o.is_buy = true) ∧
    (∀ e ∈ b.ask_levels, e.2.price = e.1 ∧
      ∀ a ∈ e.2.order_queue, ∃ o, map_find b.nodes a = some o ∧ o.price = e.1 ∧
        o.is_buy = false) := by
  have hw := hb.wf_of_reachable
  exact ⟨fun e he => ⟨(hw.bids.levels e he).price_eq, (hw.bids.levels e he).nodes⟩,
    fun e he => ⟨(hw.asks.levels e he).price_eq, (hw.asks.levels e he).nodes⟩⟩

/-- On the book of `test_cancel_operations`: the ask level under key 51.00 has
price 51.00 and its queued order is a sell order at 51.00. -/
theorem levels_match_their_keys_witness :
    (51 : Price) = 51 ∧
      ∀ a ∈ [4], ∃ o, map_find two_sided_book.nodes a = some o ∧ o.price = 51 ∧
        o.is_buy = false :=
  (levels_match_their_keys two_sided_book two_sided_book_reachable.reachable).2
    (51, ⟨51, 120, [4]⟩) (by decide)

/-- C12: in every state reachable from the empty book by `add_order` (with an
order id that is not resting), `cancel_order` and `amend_order`: an order id is a
key of the order index if and only if an order with that id is in the queue of
some level; every queue holds a node at most once and two queued orders with
the same id are the same node of the same level, so each id occurs in exactly
one queue exactly once; and the index entry of an id is the node of that very
order, queued in the level at its price on its side. -/
theorem index_matches_queues (b : Implementation) (hb : ReachableFresh b) :
    (∀ k, map_find b.order_registry k ≠ none ↔
      ∃ s e a o, e ∈ side_of b s ∧ a ∈ e.2.order_queue ∧ map_find b.nodes a = some o ∧
        o.order_id = k) ∧
    (∀ s e, e ∈ side_of b s → e.2.order_queue.Nodup) ∧
    (∀ s1 e1 a1 o1 s2 e2 a2 o2, e1 ∈ side_of b s1 → a1 ∈ e1.2.order_queue →
      map_find b.nodes a1 = some o1 → e2 ∈ side_of b s2 → a2 ∈ e2.2.order_queue →
      map_find b.nodes a2 = some o2 → o1.order_id = o2.order_id →
      s1 = s2 ∧ e1 = e2 ∧ a1 = a2) ∧
    (∀ k a, map_find b.order_registry k = some a →
      ∃ o lvl, map_find b.nodes a = some o ∧ o.order_id = k ∧
        map_find (side_of b o.is_buy) o.price = some lvl ∧ a ∈ lvl.order_queue) := by
  have hw := hb.wf_of_fresh
  have hi := hb.indexed
  refine ⟨?_, fun s e he => ((hw.side s).levels e he).nodup, ?_, ?_⟩
  · intro k
    constructor
    · intro hk
      cases hr : map_find b.order_registry k with
      | none => exact absurd hr hk
      | some a =>
        obtain ⟨o, lvl, hn, hid, hf, hin⟩ := hw.resting hr
        exact ⟨o.is_buy, (o.price, lvl), a, o, map_find_mem hf, hin, hn, hid⟩
    · rintro ⟨s, e, a, o, he, ha, hn, hid⟩
      obtain ⟨o1, h1, h2⟩ := hi s e a he ha
      rw [hn] at h1
      cases h1
      rw [← hid, h2]
      exact Option.some_ne_none _
  · intro s1 e1 a1 o1 s2 e2 a2 o2 he1 ha1 hn1 he2 ha2 hn2 hid
    obtain ⟨p1, h1, h2⟩ := hi s1 e1 a1 he1 ha1
    rw [hn1] at h1
    cases h1
    obtain ⟨p2, h3, h4⟩ := hi s2 e2 a2 he2 ha2
    rw [hn2] at h3
    cases h3
    rw [hid, h4] at h2
    cases h2
    rw [hn1] at hn2
    cases hn2
    obtain ⟨q1, h5, h6, h7⟩ := (hw.side s1).queued_live he1 ha1
    rw [hn1] at h5
    cases h5
    obtain ⟨q2, h8, h9, h10⟩ := (hw.side s2).queued_live he2 ha2
    rw [hn1] at h8
    cases h8
    have hs : s1 = s2 := h7.symm.trans h10
    subst hs
    refine ⟨rfl, ?_, rfl⟩
    have hkeys := sorted_keys_nodup (before_of_cmp s1) (hw.side s1).sorted
    have hf1 : map_find (side_of b s1) e1.1 = some e1.2 := map_find_of_mem hkeys he1
    have hf2 : map_find (side_of b s1) e2.1 = some e2.2 := map_find_of_mem hkeys he2
    have hk : e1.1 = e2.1 := h6.symm.trans h9
    rw [hk, hf2] at hf1
    exact Prod.ext hk (Option.some.inj hf1).symm
  · intro k a hr
    obtain ⟨o, lvl, hn, hid, hf, hin⟩ := hw.resting hr
    exact ⟨o, lvl, hn, hid, hf, hin⟩

/-- On the book of `test_cancel_operations`: id 1002 is a key of the index and
its entry is the second node of the bid level at 50.00, which holds the order
`(1002, 50.00, 200)`. -/
theorem index_matches_queues_witness :
    (∃ s e a o, e ∈ side_of two_sided_book s ∧ a ∈ e.2.order_queue ∧
      map_find two_sided_book.nodes a = some o ∧ o.order_id = 1002) ∧
    ∃ o lvl, map_find two_sided_book.nodes 2 = some o ∧ o.order_id = 1002 ∧
      map_find (side_of two_sided_book o.is_buy) o.price = some lvl ∧
      2 ∈ lvl.order_queue :=
  ⟨((index_matches_queues two_sided_book two_sided_book_reachable).1 1002).1 (by decide),
    (index_matches_queues two_sided_book two_sided_book_reachable).2.2.2 1002 2
      (by decide)⟩

/-! ## Adding and then cancelling -/

theorem map_erase_of_not_key {κ β : Type} [DecidableEq κ] {m : List (κ × β)} {k : κ}
    (h : map_find m k = none) : map_erase m k = m := by
  unfold map_erase
  rw [List.filter_eq_self]
  intro e he
  rw [map_find_eq_none] at h
  have : e.1 ≠ k := fun e1 => h (e1 ▸ List.mem_map_of_mem Prod.fst he)
  simpa using this

theorem map_erase_assign_fresh {κ β : Type} [DecidableEq κ] {m : List (κ × β)} {k : κ} (v : β)
    (h : map_find m k = none) : map_erase (map_assign m k v) k = m := by
  have h1 : map_assign m k v = m ++ [(k, v)] := by simp [map_assign, h]
  rw [h1]
  have h2 := map_erase_of_not_key h
  unfold map_erase at h2 ⊢
  rw [List.filter_append, h2]
  simp

theorem map_erase_cons_ne {κ β : Type} [DecidableEq κ] {e : κ × β} (r : List (κ × β)) {x : κ}
    (h : e.1 ≠ x) : map_erase (e :: r) x = e :: map_erase r x := by
  unfold map_erase
  rw [List.filter_cons_of_pos]
  simpa using h

theorem map_erase_cons_eq {κ β : Type} [DecidableEq κ] {e : κ × β} (r : List (κ × β)) {x : κ}
    (h : e.1 = x) : map_erase (e :: r) x = map_erase r x := by
  unfold map_erase
  rw [List.filter_cons_of_neg]
  simpa using h

theorem map_erase_side_insert {before : Price → Price → Bool} {m : List (Price × Level)}
    {x : Price} (v : Level) (h : map_find m x = none) :
    map_erase (side_insert before m x v) x = m := by
  induction m with
  | nil =>
    simp only [side_insert]
    rw [map_erase_cons_eq _ rfl]
    rfl
  | cons q r ih =>
    obtain ⟨k, w⟩ := q
    have hkx : k ≠ x := by
      intro e
      simp [map_find, e] at h
    have hx1 : map_find r x = none := by
      simpa [map_find, hkx] using h
    by_cases hb : before x k = true
    · simp only [side_insert, hb, if_true]
      rw [map_erase_cons_eq _ rfl, map_erase_of_not_key h]
    · simp only [side_insert, hb, Bool.false_eq_true, if_false]
      rw [map_erase_cons_ne _ hkx, ih hx1]

theorem map_update_update {κ β : Type} [DecidableEq κ] (m : List (κ × β)) (k : κ) (w v : β) :
    map_update (map_update m k w) k v = map_update m k v := by
  induction m with
  | nil => simp [map_update]
  | cons e r ih =>
    obtain ⟨k1, v1⟩ := e
    by_cases h : k1 = k <;> simp [map_update, h, ih]

theorem map_update_same {κ β : Type} [DecidableEq κ] {m : List (κ × β)} {k : κ} {v : β}
    (hk : (m.map Prod.fst).Nodup) (h : map_find m k = some v) : map_update m k v = m := by
  induction m with
  | nil => simp [map_update]
  | cons e r ih =>
    obtain ⟨k1, v1⟩ := e
    simp only [List.map_cons, List.nodup_cons] at hk
    by_cases h1 : k1 = k
    · subst h1
      simp only [map_find, if_true, Option.some.injEq] at h
      subst h
      have hnone : map_find r k1 = none := map_find_eq_none.2 hk.1
      have hr : map_update r k1 v1 = r := by
        clear ih
        induction r with
        | nil => simp [map_update]
        | cons e2 r2 ih2 =>
          obtain ⟨k2, v2⟩ := e2
          have hk2 : k2 ≠ k1 := by
            intro e
            simp [map_find, e] at hnone
          have hn2 : map_find r2 k1 = none := by simpa [map_find, hk2] using hnone
          have hk' : k1 ∉ r2.map Prod.fst ∧ (r2.map Prod.fst).Nodup := by
            refine ⟨map_find_eq_none.1 hn2, ?_⟩
            have := hk.2
            simp only [List.map_cons, List.nodup_cons] at this
            exact this.2
          simp [map_update, hk2, ih2 hk' hn2]
      simp [map_update, hr]
    · simp only [map_find, h1, if_false] at h
      simp [map_update, h1, ih hk.2 h]

theorem wrap_sub_wrap_add {agg : Nat} (qty : Nat) (h : agg < U64) :
    wrap_sub (wrap_add agg qty) qty = agg := by
  unfold wrap_sub wrap_add U64 at *
  omega

theorem with_side_eq_self {s : Bool} {heap : List (Nat × Order)} {reg : List (Nat × Nat)}
    {side : List (Price × Level)} {b0 b : Implementation} (h1 : heap = b.nodes)
    (h2 : reg = b.order_registry) (h3 : side = side_of b s)
    (h4 : side_of b0 (!s) = side_of b (!s)) : with_side s heap reg side b0 = b := by
  subst h1 h2 h3
  cases s
  · simp only [side_of, Bool.not_false, if_true] at h4
    simp [with_side, side_of, h4]
  · simp only [side_of, Bool.not_true, Bool.false_eq_true, if_false] at h4
    simp [with_side, side_of, h4]

theorem insert_then_remove_side {b : Implementation} (hw : WF b) (o : Order) :
    (if (pushed_level (level_at b o.is_buy o.price) (fresh_node b.nodes) o).order_queue.erase
          (fresh_node b.nodes) = [] then
        map_erase (side_of (insert_order b o) o.is_buy) o.price
      else
        map_update (side_of (insert_order b o) o.is_buy) o.price
          ⟨(pushed_level (level_at b o.is_buy o.price) (fresh_node b.nodes) o).price,
            wrap_sub
              (pushed_level (level_at b o.is_buy o.price) (fresh_node b.nodes)
                o).aggregated_volume o.quantity,
            (pushed_level (level_at b o.is_buy o.price) (fresh_node b.nodes)
              o).order_queue.erase (fresh_node b.nodes)⟩) = side_of b o.is_buy := by
  have hside : side_of (insert_order b o) o.is_buy =
      insert_into_side (before_of o.is_buy) (fresh_node b.nodes) o (side_of b o.is_buy) := by
    rw [insert_order_eq, side_of_with_side_self]
  rw [hside]
  cases hl : level_at b o.is_buy o.price with
  | none =>
    unfold level_at at hl
    rw [insert_into_side_new hl]
    simp only [pushed_level, List.erase_cons_head, if_true]
    exact map_erase_side_insert _ hl
  | some lvl =>
    have hnot := wf_fresh_not_queued hw hl
    unfold level_at at hl
    have hlev := (hw.side o.is_buy).levels _ (map_find_mem hl)
    have hq : (lvl.order_queue ++ [fresh_node b.nodes]).erase (fresh_node b.nodes) =
        lvl.order_queue := by
      rw [List.erase_append_right _ hnot]
      simp
    have hagg : lvl.aggregated_volume < U64 := by
      rw [hlev.agg]
      exact Nat.mod_lt _ (by unfold U64; omega)
    rw [insert_into_side_old hl]
    simp only [pushed_level, hq, if_neg hlev.nonempty, map_update_update,
      wrap_sub_wrap_add _ hagg]
    exact map_update_same (sorted_keys_nodup (before_of_cmp _) (hw.side o.is_buy).sorted) hl

/-- C18: in every reachable state `B` (adds with ids that are not resting) and
for every order `o` whose id is not in the order index of `B`, `add_order(o)`
followed by `cancel_order(o.order_id)` returns true and yields exactly the state
`B`: the same levels in the same order with the same queues and aggregates,
the same order index and the same live nodes, also when the price of `o` had
no level in `B`. -/
theorem add_then_cancel_restores (b : Implementation) (hb : ReachableFresh b) (o : Order)
    (hfresh : map_find b.order_registry o.order_id = none) :
    cancel_order (add_order b o) o.order_id = some (true, b) := by
  have hw := hb.wf_of_fresh
  have hr2 : map_find (insert_order b o).order_registry o.order_id =
      some (fresh_node b.nodes) := by
    rw [insert_order_registry, if_pos rfl]
  have hn2 := insert_order_new_node b o
  have hf2 := level_at_insert_order_self b o
  have hin2 : fresh_node b.nodes ∈
      (pushed_level (level_at b o.is_buy o.price) (fresh_node b.nodes) o).order_queue := by
    rw [pushed_level_queue]
    simp
  rw [cancel_order, add_order, remove_order_eq hr2 hn2 hf2 hin2]
  congr 2
  apply with_side_eq_self
  · rw [insert_order_eq, with_side_nodes]
    exact map_erase_assign_fresh _ (map_find_fresh_node _)
  · rw [insert_order_eq, with_side_registry]
    exact map_erase_assign_fresh _ hfresh
  · exact insert_then_remove_side hw o
  · exact insert_order_other_side b o (by cases o.is_buy <;> simp)

/-- On the book of `test_cancel_operations`: adding the sell order
`(7, 60.00, 5)` at a price without a level, or the buy order `(8, 50.00, 5)` at
a price with a level, and then cancelling it gives the book back. -/
theorem add_then_cancel_restores_witness :
    cancel_order (add_order two_sided_book ⟨7, false, 60, 5, 0⟩) 7 =
        some (true, two_sided_book) ∧
      cancel_order (add_order two_sided_book ⟨8, true, 50, 5, 0⟩) 8 =
        some (true, two_sided_book) :=
  ⟨add_then_cancel_restores two_sided_book two_sided_book_reachable ⟨7, false, 60, 5, 0⟩
      (by decide),
    add_then_cancel_restores two_sided_book two_sided_book_reachable ⟨8, true, 50, 5, 0⟩
      (by decide)⟩

/-! ## The levels after each operation -/

theorem level_at_insert_order_any (b : Implementation) (o : Order) (s : Bool) (p : Price) :
    level_at (insert_order b o) s p =
      if s = o.is_buy ∧ p = o.price then
        some (pushed_level (level_at b o.is_buy o.price) (fresh_node b.nodes) o)
      else level_at b s p := by
  by_cases hs : s = o.is_buy
  · subst hs
    rw [level_at_insert_order]
    by_cases hp : p = o.price <;> simp [hp]
  · rw [level_at_insert_order_other b o hs, if_neg (fun h => hs h.1)]

theorem wf_remove_levels {b : Implementation} (hw : WF b) {oid a : Nat} {o : Order}
    {lvl : Level} (hr : map_find b.order_registry oid = some a)
    (hn : map_find b.nodes a = some o) (hf : level_at b o.is_buy o.price = some lvl)
    (hin : a ∈ lvl.order_queue) :
    ∃ b1, remove_order b oid = some (true, b1) ∧ WF b1 ∧
      (∀ s p, level_at b1 s p =
        if s = o.is_buy ∧ p = o.price then
          (if lvl.order_queue.erase a = [] then none else some (popped_level lvl a o))
        else level_at b s p) ∧
      b1.nodes = map_erase b.nodes a ∧
      b1.order_registry = map_erase b.order_registry oid := by
  refine ⟨_, remove_order_eq hr hn hf hin, hw.wf_removed hr hn hf hin, ?_,
    with_side_nodes _ _ _ _ _, with_side_registry _ _ _ _ _⟩
  intro s p
  unfold level_at at hf ⊢
  by_cases hs : s = o.is_buy
  · subst hs
    rw [side_of_with_side_self, find_removed_side a o p hf]
    by_cases hp : p = o.price <;> simp [hp]
  · rw [side_of_with_side_ne hs, if_neg (fun h => hs h.1)]

theorem wf_requantify_levels {b : Implementation} (hw : WF b) {oid a : Nat} {o : Order}
    {lvl : Level} (new_qty : Nat) (hr : map_find b.order_registry oid = some a)
    (hn : map_find b.nodes a = some o) (hf : level_at b o.is_buy o.price = some lvl)
    (hin : a ∈ lvl.order_queue) :
    ∃ b1, modify_order b oid o.price new_qty = some (true, b1) ∧ WF b1 ∧
      (∀ s p, level_at b1 s p =
        if s = o.is_buy ∧ p = o.price then
          some ⟨lvl.price, wrap_add (wrap_sub lvl.aggregated_volume o.quantity) new_qty,
            lvl.order_queue⟩
        else level_at b s p) ∧
      b1.nodes = map_update b.nodes a { o with quantity := new_qty } ∧
      b1.order_registry = b.order_registry := by
  refine ⟨_, modify_order_qty_eq new_qty hr hn hf, hw.wf_requantified new_qty hr hn hf hin, ?_,
    with_side_nodes _ _ _ _ _, with_side_registry _ _ _ _ _⟩
  intro s p
  unfold level_at at hf ⊢
  by_cases hs : s = o.is_buy
  · subst hs
    rw [side_of_with_side_self, map_find_update]
    by_cases hp : p = o.price
    · subst hp
      simp [hf]
    · simp [hp]
  · rw [side_of_with_side_ne hs, if_neg (fun h => hs h.1)]

theorem popped_level_ne {lvl : Level} {a : Nat} (o : Order) (hin : a ∈ lvl.order_queue) :
    (if lvl.order_queue.erase a = [] then none else some (popped_level lvl a o)) ≠
      some lvl := by
  split
  · exact fun h => Option.noConfusion h
  · intro h
    have h1 := congrArg (fun l => l.order_queue.length) (Option.some.inj h)
    simp only [popped_level, List.length_erase_of_mem hin] at h1
    have := List.length_pos_of_mem hin
    omega

theorem pushed_level_ne (l : Option Level) (node : Nat) (o : Order) :
    some (pushed_level l node o) ≠ l := by
  cases l with
  | none => exact fun h => Option.noConfusion h
  | some lvl =>
    intro h
    have h1 := congrArg (fun x => x.order_queue.length) (Option.some.inj h)
    simp [pushed_level] at h1

theorem requantified_eq_iff {agg : Nat} (old_qty new_qty : Nat) (h : agg < U64) :
    wrap_add (wrap_sub agg old_qty) new_qty = agg ↔ new_qty % U64 = old_qty % U64 := by
  unfold wrap_sub wrap_add U64 at *
  omega

/-- C16, as stated, fails: in scenario D the amend of the sell order 1 from
101.00 to 100.75 returns true and two levels differ from before the call (the
level at 101.00 is gone and a level at 100.75 is there); and the amend of buy
order 1 of `one_buy_book` to its own price and quantity returns true and no
level differs. -/
theorem amend_does_not_mutate_one_level :
    level_at scenario_D false 101 = some ⟨101, 400, [1]⟩ ∧
      level_at scenario_D false (mkRat 403 4) = none ∧
      (amend_order scenario_D 1 (mkRat 403 4) 400).map
          (fun x => (x.1, level_at x.2 false 101, level_at x.2 false (mkRat 403 4))) =
        some (true, none, some ⟨mkRat 403 4, 400, [1]⟩) ∧
      amend_order one_buy_book 1 100 500 = some (true, one_buy_book) := by
  decide

/-- C16, amended: in every reachable state, `add_order` and a `cancel_order` that
returns true change exactly one level (the one at the price of the order on its
side); an `amend_order` that returns true and keeps the price changes no other
level, and changes that level exactly when the new quantity differs from the
old one modulo `2^64`, and then only its aggregate (the level keeps its price
and its queue); an `amend_order` that returns true and changes the price
changes exactly two levels, the one at the old price and the one at the new
price on the side of the order; every other level of both sides is as before.
A call on a resting id does return true. -/
theorem mutated_levels (b : Implementation) (hb : Reachable b) :
    (∀ o, level_at (add_order b o) o.is_buy o.price ≠ level_at b o.is_buy o.price ∧
      ∀ s p, ¬(s = o.is_buy ∧ p = o.price) → level_at (add_order b o) s p = level_at b s p) ∧
    (∀ oid b1, cancel_order b oid = some (true, b1) →
      ∃ o, resting_order b oid = some o ∧
        level_at b1 o.is_buy o.price ≠ level_at b o.is_buy o.price ∧
        ∀ s p, ¬(s = o.is_buy ∧ p = o.price) → level_at b1 s p = level_at b s p) ∧
    (∀ oid px qty b1, amend_order b oid px qty = some (true, b1) →
      ∃ o, resting_order b oid = some o ∧
        (px = o.price →
          (∀ s p, ¬(s = o.is_buy ∧ p = o.price) → level_at b1 s p = level_at b s p) ∧
          (level_at b1 o.is_buy o.price ≠ level_at b o.is_buy o.price ↔
            qty % U64 ≠ o.quantity % U64) ∧
          ∃ lvl lvl1, level_at b o.is_buy o.price = some lvl ∧
            level_at b1 o.is_buy o.price = some lvl1 ∧
            lvl1.price = lvl.price ∧ lvl1.order_queue = lvl.order_queue) ∧
        (px ≠ o.price →
          level_at b1 o.is_buy o.price ≠ level_at b o.is_buy o.price ∧
          level_at b1 o.is_buy px ≠ level_at b o.is_buy px ∧
          ∀ s p, ¬(s = o.is_buy ∧ (p = o.price ∨ p = px)) →
            level_at b1 s p = level_at b s p)) ∧
    (∀ oid o, resting_order b oid = some o →
      (∃ b1, cancel_order b oid = some (true, b1)) ∧
      ∀ px qty, ∃ b1, amend_order b oid px qty = some (true, b1)) := by
  have hw := hb.wf_of_reachable
  refine ⟨?_, ?_, ?_, ?_⟩
  · intro o
    refine ⟨?_, ?_⟩
    · rw [add_order, level_at_insert_order_self]
      exact pushed_level_ne _ _ _
    · intro s p hsp
      rw [add_order, level_at_insert_order_any, if_neg hsp]
  · intro oid b1 hc
    cases hr : map_find b.order_registry oid with
    | none =>
      rw [cancel_order, remove_order_miss hr] at hc
      simp at hc
    | some a =>
      obtain ⟨o, lvl, hn, -, hf, hin⟩ := hw.resting hr
      obtain ⟨b0, h0, -, hlev, -⟩ := wf_remove_levels hw hr hn hf hin
      rw [cancel_order, h0] at hc
      cases hc
      refine ⟨o, resting_order_eq_some.2 ⟨a, hr, hn⟩, ?_, ?_⟩
      · rw [hlev, if_pos ⟨rfl, rfl⟩, hf]
        exact popped_level_ne o hin
      · intro s p hsp
        rw [hlev, if_neg hsp]
  · intro oid px qty b1 hc
    cases hr : map_find b.order_registry oid with
    | none =>
      rw [amend_order, modify_order_miss px qty hr] at hc
      simp at hc
    | some a =>
      obtain ⟨o, lvl, hn, -, hf, hin⟩ := hw.resting hr
      refine ⟨o, resting_order_eq_some.2 ⟨a, hr, hn⟩, ?_, ?_⟩
      · intro hpx
        subst hpx
        obtain ⟨b0, h0, -, hlev, -⟩ := wf_requantify_levels hw qty hr hn hf hin
        rw [amend_order, h0] at hc
        cases hc
        have hagg : lvl.aggregated_volume < U64 := by
          rw [((hw.side o.is_buy).levels _ (map_find_mem hf)).agg]
          exact Nat.mod_lt _ (by unfold U64; omega)
        refine ⟨fun s p hsp => by rw [hlev, if_neg hsp], ?_,
          ⟨lvl, _, hf, (hlev o.is_buy o.price).trans (if_pos ⟨rfl, rfl⟩), rfl, rfl⟩⟩
        rw [hlev, if_pos ⟨rfl, rfl⟩, hf, ← not_iff_not, not_not, not_not,
          ← requantified_eq_iff o.quantity qty hagg]
        constructor
        · intro h
          exact congrArg (fun l => l.aggregated_volume) (Option.some.inj h)
        · intro h
          rw [h]
      · intro hpx
        obtain ⟨b0, h0, -, hlev, -⟩ := wf_remove_levels hw hr hn hf hin
        rw [amend_order, modify_order_px_eq qty hr hn (fun e => hpx e.symm) h0] at hc
        cases hc
        have hins := level_at_insert_order_any b0 { o with price := px, quantity := qty }
        simp only at hins
        refine ⟨?_, ?_, ?_⟩
        · rw [hins, if_neg (fun h => hpx h.2.symm), hlev, if_pos ⟨rfl, rfl⟩, hf]
          exact popped_level_ne o hin
        · rw [hins, if_pos ⟨rfl, rfl⟩, hlev o.is_buy px, if_neg (fun h => hpx h.2)]
          exact pushed_level_ne _ _ _
        · intro s p hsp
          rw [hins, if_neg (fun h => hsp ⟨h.1, Or.inr h.2⟩), hlev,
            if_neg (fun h => hsp ⟨h.1, Or.inl h.2⟩)]
  · intro oid o hrest
    exact ⟨wf_remove_returns hw hrest, fun px qty => wf_modify_returns hw hrest px qty⟩

/-- On the book of `test_cancel_operations`: adding a buy at 50.00 changes the
bid level at 50.00 and leaves the bid level at 49.50 as it was; cancelling
order 1001 changes one level; moving order 1002 to 49.50 changes two. -/
theorem mutated_levels_witness :
    (level_at (add_order two_sided_book ⟨9, true, 50, 1, 0⟩) true 50 ≠
        level_at two_sided_book true 50 ∧
      level_at (add_order two_sided_book ⟨9, true, 50, 1, 0⟩) true (mkRat 99 2) =
        level_at two_sided_book true (mkRat 99 2)) ∧
    (∃ o, resting_order two_sided_book 1001 = some o ∧
      level_at two_sided_after_cancel o.is_buy o.price ≠
        level_at two_sided_book o.is_buy o.price ∧
      ∀ s p, ¬(s = o.is_buy ∧ p = o.price) →
        level_at two_sided_after_cancel s p = level_at two_sided_book s p) ∧
    (∃ b1, amend_order two_sided_book 1002 (mkRat 99 2) 70 = some (true, b1)) :=
  ⟨⟨((mutated_levels two_sided_book two_sided_book_reachable.reachable).1
        ⟨9, true, 50, 1, 0⟩).1,
      ((mutated_levels two_sided_book two_sided_book_reachable.reachable).1
        ⟨9, true, 50, 1, 0⟩).2 true (mkRat 99 2) (by decide)⟩,
    (mutated_levels two_sided_book two_sided_book_reachable.reachable).2.1 1001
      two_sided_after_cancel (by decide),
    ((mutated_levels two_sided_book two_sided_book_reachable.reachable).2.2.2 1002
      ⟨1002, true, 50, 200, 0⟩ (by decide)).2 (mkRat 99 2) 70⟩

/-! ## Timestamps -/

theorem map_find_map_values {κ β γ : Type} [DecidableEq κ] (g : β → γ) (m : List (κ × β))
    (k : κ) : map_find (map_values g m) k = (map_find m k).map g := by
  induction m with
  | nil => simp [map_values, map_find]
  | cons e r ih =>
    obtain ⟨k1, v1⟩ := e
    unfold map_values at ih ⊢
    by_cases h : k1 = k <;> simp [map_find, h, ih]

theorem map_erase_map_values {κ β γ : Type} [DecidableEq κ] (g : β → γ) (m : List (κ × β))
    (k : κ) : map_erase (map_values g m) k = map_values g (map_erase m k) := by
  induction m with
  | nil => simp [map_values, map_erase]
  | cons e r ih =>
    obtain ⟨k1, v1⟩ := e
    by_cases h : k1 = k
    · have h1 : map_values g ((k1, v1) :: r) = (k1, g v1) :: map_values g r := rfl
      rw [h1, map_erase_cons_eq _ h, map_erase_cons_eq _ h, ih]
    · have h1 : map_values g ((k1, v1) :: r) = (k1, g v1) :: map_values g r := rfl
      rw [h1, map_erase_cons_ne _ h, map_erase_cons_ne _ h, ih]
      rfl

theorem map_update_map_values {κ β γ : Type} [DecidableEq κ] (g : β → γ) (m : List (κ × β))
    (k : κ) (v : β) : map_update (map_values g m) k (g v) = map_values g (map_update m k v) := by
  induction m with
  | nil => simp [map_values, map_update]
  | cons e r ih =>
    obtain ⟨k1, v1⟩ := e
    unfold map_values at ih ⊢
    by_cases h : k1 = k <;> simp [map_update, h, ih]

theorem map_assign_map_values {κ β γ : Type} [DecidableEq κ] (g : β → γ) (m : List (κ × β))
    (k : κ) (v : β) : map_assign (map_values g m) k (g v) = map_values g (map_assign m k v) := by
  unfold map_assign
  rw [map_find_map_values]
  cases h : map_find m k with
  | none => simp [map_values]
  | some w => simp [map_update_map_values]

theorem fresh_node_map_values (g : Order → Order) (heap : List (Nat × Order)) :
    fresh_node (map_values g heap) = fresh_node heap := by
  unfold fresh_node map_values
  rw [List.map_map]
  rfl

theorem remove_order_unfold (b : Implementation) (oid : Nat) :
    remove_order b oid =
      match map_find b.order_registry oid with
      | none => some (false, b)
      | some a =>
        match map_find b.nodes a with
        | none => none
        | some o =>
          (remove_from_side a o (side_of b o.is_buy) o.price).map
            (fun side => (true, with_side o.is_buy (map_erase b.nodes a)
              (map_erase b.order_registry oid) side b)) := by
  unfold remove_order
  cases map_find b.order_registry oid with
  | none => rfl
  | some a =>
    dsimp only
    cases hn : map_find b.nodes a with
    | none => rfl
    | some o =>
      dsimp only
      cases hs : o.is_buy
      · simp only [Bool.false_eq_true, if_false, side_of, with_side]
        cases remove_from_side a o b.ask_levels o.price <;> rfl
      · simp only [if_true, side_of, with_side]
        cases remove_from_side a o b.bid_levels o.price <;> rfl

theorem modify_order_unfold (b : Implementation) (oid : Nat) (px : Price) (qty : Nat) :
    modify_order b oid px qty =
      match map_find b.order_registry oid with
      | none => some (false, b)
      | some a =>
        match map_find b.nodes a with
        | none => none
        | some o =>
          if o.price ≠ px then
            (remove_order b oid).map
              (fun x => (true, insert_order x.2 { o with price := px, quantity := qty }))
          else
            (requantify_side (side_of b o.is_buy) o.price o.quantity qty).map
              (fun side => (true, with_side o.is_buy
                (map_update b.nodes a { o with quantity := qty }) b.order_registry side b)) := by
  unfold modify_order
  cases map_find b.order_registry oid with
  | none => rfl
  | some a =>
    dsimp only
    cases hn : map_find b.nodes a with
    | none => rfl
    | some o =>
      dsimp only
      by_cases hp : o.price = px
      · simp only [hp, ne_eq, not_true_eq_false, if_false]
        cases hs : o.is_buy
        · simp only [Bool.false_eq_true, if_false, side_of, with_side]
          cases requantify_side b.ask_levels px o.quantity qty <;> rfl
        · simp only [if_true, side_of, with_side]
          cases requantify_side b.bid_levels px o.quantity qty <;> rfl
      · simp only [hp, ne_eq, not_false_eq_true, if_true]
        cases remove_order b oid with
        | none => rfl
        | some x => rfl

theorem strip_times_with_side (s : Bool) (heap : List (Nat × Order)) (reg : List (Nat × Nat))
    (side : List (Price × Level)) (b : Implementation) :
    strip_times (with_side s heap reg side b) =
      with_side s (map_values strip_time heap) reg side (strip_times b) := by
  cases s <;> rfl

theorem side_of_strip_times (b : Implementation) (s : Bool) :
    side_of (strip_times b) s = side_of b s := by
  cases s <;> rfl

theorem insert_order_strip (b : Implementation) (o : Order) :
    insert_order (strip_times b) (strip_time o) = strip_times (insert_order b o) := by
  rw [insert_order_eq, insert_order_eq, strip_times_with_side, ← map_assign_map_values]
  have h1 : (strip_times b).nodes = map_values strip_time b.nodes := rfl
  rw [h1, fresh_node_map_values, side_of_strip_times]
  rfl

theorem remove_order_strip (b : Implementation) (oid : Nat) :
    remove_order (strip_times b) oid =
      (remove_order b oid).map (fun x => (x.1, strip_times x.2)) := by
  rw [remove_order_unfold, remove_order_unfold]
  have h1 : (strip_times b).nodes = map_values strip_time b.nodes := rfl
  have h2 : (strip_times b).order_registry = b.order_registry := rfl
  rw [h1, h2]
  cases map_find b.order_registry oid with
  | none => rfl
  | some a =>
    simp only [map_find_map_values]
    cases map_find b.nodes a with
    | none => rfl
    | some o =>
      simp only [Option.map_some', Option.map_map, side_of_strip_times]
      have h3 : remove_from_side a (strip_time o) (side_of b (strip_time o).is_buy)
          (strip_time o).price = remove_from_side a o (side_of b o.is_buy) o.price := rfl
      rw [h3]
      congr 1
      funext side
      simp only [Function.comp, strip_times_with_side, map_erase_map_values]
      rfl

theorem modify_order_strip (b : Implementation) (oid : Nat) (px : Price) (qty : Nat) :
    modify_order (strip_times b) oid px qty =
      (modify_order b oid px qty).map (fun x => (x.1, strip_times x.2)) := by
  rw [modify_order_unfold, modify_order_unfold, remove_order_strip]
  have h1 : (strip_times b).nodes = map_values strip_time b.nodes := rfl
  have h2 : (strip_times b).order_registry = b.order_registry := rfl
  rw [h1, h2]
  cases map_find b.order_registry oid with
  | none => rfl
  | some a =>
    simp only [map_find_map_values]
    cases map_find b.nodes a with
    | none => rfl
    | some o =>
      simp only [Option.map_some', side_of_strip_times]
      have hp : (strip_time o).price = o.price := rfl
      rw [hp]
      by_cases hpx : o.price = px
      · simp only [hpx, ne_eq, not_true_eq_false, if_false, Option.map_map]
        have h3 : requantify_side (side_of b (strip_time o).is_buy) px (strip_time o).quantity
            qty = requantify_side (side_of b o.is_buy) px o.quantity qty := rfl
        rw [h3]
        congr 1
        funext side
        simp only [Function.comp, strip_times_with_side, ← map_update_map_values]
        rfl
      · simp only [hpx, ne_eq, not_false_eq_true, if_true, Option.map_map]
        congr 1
        funext x
        simp only [Function.comp, ← insert_order_strip]
        rfl

theorem apply_op_strip (b : Implementation) (op : Op) :
    apply_op (strip_times b) (strip_op op) =
      (apply_op b op).map (fun x => (x.1, strip_times x.2)) := by
  cases op with
  | add o => simp [apply_op, strip_op, add_order, insert_order_strip]
  | cancel oid => exact remove_order_strip b oid
  | amend oid px qty => exact modify_order_strip b oid px qty

theorem run_ops_strip (b : Implementation) (ops : List Op) :
    run_ops (strip_times b) (ops.map strip_op) =
      (run_ops b ops).map (fun x => (x.1, strip_times x.2)) := by
  induction ops generalizing b with
  | nil => rfl
  | cons op rest ih =>
    simp only [List.map_cons, run_ops, apply_op_strip]
    cases apply_op b op with
    | none => rfl
    | some x =>
      obtain ⟨r, b1⟩ := x
      simp only [Option.map_some', ih]
      cases run_ops b1 rest with
      | none => rfl
      | some y => rfl

theorem wf_apply_op_returns {b : Implementation} (hw : WF b) (op : Op) :
    ∃ r b1, apply_op b op = some (r, b1) ∧ WF b1 := by
  cases op with
  | add o => exact ⟨true, _, rfl, hw.after_insert o⟩
  | cancel oid =>
    cases hr : map_find b.order_registry oid with
    | none => exact ⟨false, b, remove_order_miss hr, hw⟩
    | some a =>
      obtain ⟨o, lvl, hn, -, hf, hin⟩ := hw.resting hr
      exact ⟨true, _, remove_order_eq hr hn hf hin, hw.wf_removed hr hn hf hin⟩
  | amend oid px qty =>
    cases hr : map_find b.order_registry oid with
    | none => exact ⟨false, b, modify_order_miss px qty hr, hw⟩
    | some a =>
      obtain ⟨o, -, hn, -, -, -⟩ := hw.resting hr
      obtain ⟨b1, h1⟩ := wf_modify_returns hw (resting_order_eq_some.2 ⟨a, hr, hn⟩) px qty
      exact ⟨true, b1, h1, hw.after_modify h1⟩

theorem wf_run_ops_returns {b : Implementation} (hw : WF b) (ops : List Op) :
    ∃ rs b1, run_ops b ops = some (rs, b1) ∧ WF b1 := by
  induction ops generalizing b with
  | nil => exact ⟨[], b, rfl, hw⟩
  | cons op rest ih =>
    obtain ⟨r, b1, h1, hw1⟩ := wf_apply_op_returns hw op
    obtain ⟨rs, b2, h2, hw2⟩ := ih hw1
    exact ⟨r :: rs, b2, by simp [run_ops, h1, h2], hw2⟩

theorem queue_ids_strip (b : Implementation) (q : List Nat) :
    queue_ids (strip_times b) q = queue_ids b q := by
  unfold queue_ids
  apply List.map_congr_left
  intro a _
  have h1 : (strip_times b).nodes = map_values strip_time b.nodes := rfl
  rw [h1, map_find_map_values]
  cases map_find b.nodes a <;> rfl

theorem two_adds_queue_in_call_order (b : Implementation) (o1 o2 : Order)
    (hs : o1.is_buy = o2.is_buy) (hp : o1.price = o2.price) :
    ∃ lvl front, level_at (add_order (add_order b o1) o2) o1.is_buy o1.price = some lvl ∧
      lvl.order_queue = front ++ [fresh_node b.nodes, fresh_node (add_order b o1).nodes] ∧
      map_find (add_order (add_order b o1) o2).nodes (fresh_node b.nodes) = some o1 ∧
      map_find (add_order (add_order b o1) o2).nodes (fresh_node (add_order b o1).nodes) =
        some o2 := by
  have h1 := level_at_insert_order_self b o1
  have h2 := level_at_insert_order_self (insert_order b o1) o2
  rw [← hs, ← hp, h1] at h2
  refine ⟨_,
    (match level_at b o1.is_buy o1.price with
      | none => []
      | some l => l.order_queue),
    h2, ?_, insert_order_keeps_nodes _ o2 (insert_order_new_node b o1),
    insert_order_new_node _ o2⟩
  cases level_at b o1.is_buy o1.price <;> simp [pushed_level, add_order]

/-- C19: two sequences of `add_order`, `cancel_order` and `amend_order` calls that
are identical except for the timestamps of the added orders give, after every
number `n` of calls, the same boolean results, the same side maps (so the same
levels, aggregates and queues of nodes), the same order index, the same
`get_snapshot` outcome at every depth (the same vectors, or the same exception
thrown by `reserve`) and the same order ids in every queue; and
two orders added one after the other at one price of one side queue in call
order, whatever their timestamps. -/
theorem timestamps_do_not_interfere (ops1 ops2 : List Op)
    (h : ops1.map strip_op = ops2.map strip_op) (n : Nat) :
    (∃ rs b1 b2, run_ops new_book (ops1.take n) = some (rs, b1) ∧
      run_ops new_book (ops2.take n) = some (rs, b2) ∧
      strip_times b1 = strip_times b2 ∧
      b1.bid_levels = b2.bid_levels ∧ b1.ask_levels = b2.ask_levels ∧
      b1.order_registry = b2.order_registry ∧
      (∀ max_size bids_ok asks_ok depth bids asks,
        get_snapshot max_size bids_ok asks_ok b1 depth bids asks =
          get_snapshot max_size bids_ok asks_ok b2 depth bids asks) ∧
      (∀ q, queue_ids b1 q = queue_ids b2 q)) ∧
    (∀ b o1 o2, o1.is_buy = o2.is_buy → o1.price = o2.price →
      ∃ lvl front, level_at (add_order (add_order b o1) o2) o1.is_buy o1.price = some lvl ∧
        lvl.order_queue = front ++ [fresh_node b.nodes, fresh_node (add_order b o1).nodes] ∧
        map_find (add_order (add_order b o1) o2).nodes (fresh_node b.nodes) = some o1 ∧
        map_find (add_order (add_order b o1) o2).nodes (fresh_node (add_order b o1).nodes) =
          some o2) := by
  refine ⟨?_, two_adds_queue_in_call_order⟩
  obtain ⟨rs1, b1, h1, -⟩ := wf_run_ops_returns WF.at_new_book (ops1.take n)
  obtain ⟨rs2, b2, h2, -⟩ := wf_run_ops_returns WF.at_new_book (ops2.take n)
  have e1 := run_ops_strip new_book (ops1.take n)
  have e2 := run_ops_strip new_book (ops2.take n)
  rw [List.map_take, h, ← List.map_take, e2, h1, h2] at e1
  simp only [Option.map_some', Option.some.injEq, Prod.mk.injEq] at e1
  obtain ⟨hrs, hb⟩ := e1
  subst hrs
  have hbid : b1.bid_levels = b2.bid_levels := congrArg (fun x => x.bid_levels) hb.symm
  have hask : b1.ask_levels = b2.ask_levels := congrArg (fun x => x.ask_levels) hb.symm
  refine ⟨rs2, b1, b2, h1, h2, hb.symm, hbid, hask,
    congrArg (fun x => x.order_registry) hb.symm, ?_, ?_⟩
  · intro max_size bids_ok asks_ok depth bids asks
    rw [get_snapshot_eq, get_snapshot_eq, hbid, hask]
  · intro q
    rw [← queue_ids_strip b1, ← queue_ids_strip b2, hb]

/-- Two runs of the same four calls with different timestamps, the second added
order carrying the smaller timestamp in one run and the larger in the other:
same results and same book, with order 1 queued before order 2. -/
theorem timestamps_do_not_interfere_witness :
    (∃ rs b1 b2, run_ops new_book (late_first_calls.take 4) = some (rs, b1) ∧
      run_ops new_book (early_first_calls.take 4) = some (rs, b2) ∧
      strip_times b1 = strip_times b2 ∧
      b1.bid_levels = b2.bid_levels ∧ b1.ask_levels = b2.ask_levels ∧
      b1.order_registry = b2.order_registry ∧
      (∀ max_size bids_ok asks_ok depth bids asks,
        get_snapshot max_size bids_ok asks_ok b1 depth bids asks =
          get_snapshot max_size bids_ok asks_ok b2 depth bids asks) ∧
      (∀ q, queue_ids b1 q = queue_ids b2 q)) ∧
    (run_ops new_book late_first_calls).map
        (fun x => (x.1, level_at x.2 true 100, queue_ids x.2 [1, 2])) =
      some ([true, true, false, true], some ⟨100, 35, [1, 2]⟩, [some 1, some 2]) :=
  ⟨(timestamps_do_not_interfere late_first_calls early_first_calls (by decide) 4).1,
    by decide⟩

/-! ## A node that the index has lost -/

theorem orphan_after_insert {a : Nat} {o : Order} {b : Implementation} (h : Orphan a o b)
    (o2 : Order) : Orphan a o (insert_order b o2) where
  live := insert_order_keeps_nodes b o2 h.live
  queued := by
    obtain ⟨lvl, h1, h2⟩ := h.queued
    obtain ⟨lvl1, h3, h4⟩ := insert_order_keeps_queues b o2 h1
    exact ⟨lvl1, h3, h4.subset h2⟩
  unindexed := by
    intro k a1 hk
    rw [insert_order_registry] at hk
    by_cases hid : k = o2.order_id
    · rw [if_pos hid] at hk
      cases hk
      intro e
      have := h.live
      rw [← e, map_find_fresh_node] at this
      exact Option.noConfusion this
    · rw [if_neg hid] at hk
      exact h.unindexed k a1 hk

theorem orphan_after_remove {a : Nat} {o : Order} {b b1 : Implementation} (hw : WF b)
    (h : Orphan a o b) {oid : Nat} {r : Bool} (hrem : remove_order b oid = some (r, b1)) :
    Orphan a o b1 := by
  cases hr : map_find b.order_registry oid with
  | none =>
    rw [remove_order_miss hr] at hrem
    cases hrem
    exact h
  | some a1 =>
    obtain ⟨o1, lvl1, hn, -, hf, hin⟩ := hw.resting hr
    obtain ⟨b0, h0, -, hlev, hnodes, hreg⟩ := wf_remove_levels hw hr hn hf hin
    rw [h0] at hrem
    cases hrem
    have hne : a ≠ a1 := fun e => h.unindexed oid a1 hr e.symm
    refine ⟨?_, ?_, ?_⟩
    · rw [hnodes, map_find_erase, if_neg hne]
      exact h.live
    · obtain ⟨lvl, h1, h2⟩ := h.queued
      rw [hlev]
      by_cases hsp : o.is_buy = o1.is_buy ∧ o.price = o1.price
      · rw [if_pos hsp]
        rw [hsp.1, hsp.2, hf] at h1
        cases h1
        have hmem : a ∈ lvl1.order_queue.erase a1 := (List.mem_erase_of_ne hne).2 h2
        rw [if_neg (List.ne_nil_of_mem hmem)]
        exact ⟨_, rfl, hmem⟩
      · rw [if_neg hsp]
        exact ⟨lvl, h1, h2⟩
    · intro k a2 hk
      rw [hreg, map_find_erase] at hk
      by_cases hid : k = oid
      · rw [if_pos hid] at hk
        exact Option.noConfusion hk
      · rw [if_neg hid] at hk
        exact h.unindexed k a2 hk

theorem orphan_after_modify {a : Nat} {o : Order} {b b1 : Implementation} (hw : WF b)
    (h : Orphan a o b) {oid : Nat} {px : Price} {qty : Nat} {r : Bool}
    (hmod : modify_order b oid px qty = some (r, b1)) : Orphan a o b1 := by
  cases hr : map_find b.order_registry oid with
  | none =>
    rw [modify_order_miss px qty hr] at hmod
    cases hmod
    exact h
  | some a1 =>
    obtain ⟨o1, lvl1, hn, -, hf, hin⟩ := hw.resting hr
    have hne : a ≠ a1 := fun e => h.unindexed oid a1 hr e.symm
    by_cases hp : o1.price = px
    · subst hp
      obtain ⟨b0, h0, -, hlev, hnodes, hreg⟩ := wf_requantify_levels hw qty hr hn hf hin
      rw [h0] at hmod
      cases hmod
      refine ⟨?_, ?_, ?_⟩
      · rw [hnodes, map_find_update, if_neg hne]
        exact h.live
      · obtain ⟨lvl, h1, h2⟩ := h.queued
        rw [hlev]
        by_cases hsp : o.is_buy = o1.is_buy ∧ o.price = o1.price
        · rw [if_pos hsp]
          rw [hsp.1, hsp.2, hf] at h1
          cases h1
          exact ⟨_, rfl, h2⟩
        · rw [if_neg hsp]
          exact ⟨lvl, h1, h2⟩
      · intro k a2 hk
        rw [hreg] at hk
        exact h.unindexed k a2 hk
    · have hrem := remove_order_eq hr hn hf hin
      rw [modify_order_px_eq qty hr hn hp hrem] at hmod
      cases hmod
      exact orphan_after_insert (orphan_after_remove hw h hrem) _

theorem orphan_after_op {a : Nat} {o : Order} {b b1 : Implementation} (hw : WF b)
    (h : Orphan a o b) {op : Op} {r : Bool} (hop : apply_op b op = some (r, b1)) :
    Orphan a o b1 ∧ WF b1 := by
  cases op with
  | add o2 =>
    simp only [apply_op, Option.some.injEq, Prod.mk.injEq] at hop
    rw [← hop.2]
    exact ⟨orphan_after_insert h o2, hw.after_insert o2⟩
  | cancel oid => exact ⟨orphan_after_remove hw h hop, hw.after_remove hop⟩
  | amend oid px qty => exact ⟨orphan_after_modify hw h hop, hw.after_modify hop⟩

theorem orphan_forever {a : Nat} {o : Order} {b b1 : Implementation} (hw : WF b)
    (h : Orphan a o b) (hs : Steps b b1) : Orphan a o b1 ∧ WF b1 := by
  induction hs with
  | refl => exact ⟨h, hw⟩
  | step b2 b3 op r _ hop ih => exact orphan_after_op ih.2 ih.1 hop

theorem wf_level_in_snapshot {b : Implementation} (hw : WF b) {s : Bool} {p : Price}
    {lvl : Level} (hf : level_at b s p = some lvl) (depth : Nat)
    (hd : (side_of b s).length ≤ depth) :
    (⟨p, lvl.aggregated_volume⟩ : PriceLevel) ∈ top_levels (side_of b s) depth := by
  rw [top_levels, List.take_of_length_le hd, List.mem_map]
  have hmem := map_find_mem hf
  refine ⟨(p, lvl), hmem, ?_⟩
  have := ((hw.side s).levels _ hmem).price_eq
  simp only at this ⊢
  rw [this]

theorem wf_orphan_counted {a : Nat} {o : Order} {b : Implementation} (hw : WF b)
    (h : Orphan a o b) :
    ∃ lvl, level_at b o.is_buy o.price = some lvl ∧ a ∈ lvl.order_queue ∧
      lvl.aggregated_volume =
        (o.quantity + queue_sum b.nodes (lvl.order_queue.erase a)) % U64 ∧
      (∀ max_size storage_ok depth output, (side_of b o.is_buy).length ≤ depth →
        (extract_levels max_size storage_ok (side_of b o.is_buy) depth output).1 = none →
        (⟨o.price, lvl.aggregated_volume⟩ : PriceLevel) ∈
          (extract_levels max_size storage_ok (side_of b o.is_buy) depth output).2) ∧
      (∀ max_size depth output, (side_of b o.is_buy).length ≤ depth → depth ≤ max_size →
        (extract_levels max_size true (side_of b o.is_buy) depth output).1 = none ∧
        (⟨o.price, lvl.aggregated_volume⟩ : PriceLevel) ∈
          (extract_levels max_size true (side_of b o.is_buy) depth output).2) := by
  obtain ⟨lvl, h1, h2⟩ := h.queued
  have hret : ∀ max_size storage_ok depth output, (side_of b o.is_buy).length ≤ depth →
      (extract_levels max_size storage_ok (side_of b o.is_buy) depth output).1 = none →
      (⟨o.price, lvl.aggregated_volume⟩ : PriceLevel) ∈
        (extract_levels max_size storage_ok (side_of b o.is_buy) depth output).2 := by
    intro max_size storage_ok depth output hd hr
    rw [extract_levels_returns hr]
    exact wf_level_in_snapshot hw h1 depth hd
  have hroom : ∀ max_size depth output, depth ≤ max_size →
      (extract_levels max_size true (side_of b o.is_buy) depth output).1 = none := by
    intro max_size depth output hd
    rw [extract_levels_thrown, vector_reserve_ok hd]
  refine ⟨lvl, h1, h2, ?_, hret, fun max_size depth output hd hm =>
    ⟨hroom max_size depth output hm, hret max_size true depth output hd
      (hroom max_size depth output hm)⟩⟩
  have hl := (hw.side o.is_buy).levels _ (map_find_mem h1)
  have hq : node_qty b.nodes a = o.quantity := by simp [node_qty, h.live]
  rw [hl.agg, queue_sum_erase b.nodes h2, hq]

/-- C17: in every reachable state in which the index entry of id `k` is the
node `a1` of the order `o1`, `add_order` of a second order `o2` with id `k`
appends a new node for `o2` to its level and repoints the index entry of `k`
to it; then `cancel_order(k)` returns true and frees only the node of `o2`,
a further `cancel_order(k)` and every `amend_order(k, ..)` return false; and in
every state that any sequence of public calls reaches after the second add,
no index entry points to `a1`, `a1` still holds `o1` and is still queued in the
level at the price of `o1`, the quantity of `o1` is still a summand of the
aggregate of that level, and `get_snapshot` still reports that level: every
extraction of that side that returns, at a depth of at least the number of its
levels, has the level in its output, and the extraction returns whenever the
depth is at most `max_size()` and the storage is to be had. -/
theorem duplicate_id_orphans_first_order (b : Implementation) (hb : Reachable b)
    (k a1 : Nat) (o1 o2 : Order) (hr : map_find b.order_registry k = some a1)
    (hn : map_find b.nodes a1 = some o1) (hid : o2.order_id = k) :
    (map_find (add_order b o2).order_registry k = some (fresh_node b.nodes) ∧
      fresh_node b.nodes ≠ a1 ∧
      map_find (add_order b o2).nodes (fresh_node b.nodes) = some o2 ∧
      level_at (add_order b o2) o2.is_buy o2.price =
        some (pushed_level (level_at b o2.is_buy o2.price) (fresh_node b.nodes) o2)) ∧
    (∃ b3, cancel_order (add_order b o2) k = some (true, b3) ∧
      b3.nodes = map_erase (add_order b o2).nodes (fresh_node b.nodes) ∧
      map_find b3.order_registry k = none ∧
      cancel_order b3 k = some (false, b3) ∧
      (∀ px qty, amend_order b3 k px qty = some (false, b3)) ∧
      Steps (add_order b o2) b3) ∧
    (∀ b4, Steps (add_order b o2) b4 →
      (∀ k1 a, map_find b4.order_registry k1 = some a → a ≠ a1) ∧
      map_find b4.nodes a1 = some o1 ∧
      ∃ lvl, level_at b4 o1.is_buy o1.price = some lvl ∧ a1 ∈ lvl.order_queue ∧
        lvl.aggregated_volume =
          (o1.quantity + queue_sum b4.nodes (lvl.order_queue.erase a1)) % U64 ∧
        (∀ max_size storage_ok depth output, (side_of b4 o1.is_buy).length ≤ depth →
          (extract_levels max_size storage_ok (side_of b4 o1.is_buy) depth output).1 = none →
          (⟨o1.price, lvl.aggregated_volume⟩ : PriceLevel) ∈
            (extract_levels max_size storage_ok (side_of b4 o1.is_buy) depth output).2) ∧
        (∀ max_size depth output, (side_of b4 o1.is_buy).length ≤ depth → depth ≤ max_size →
          (extract_levels max_size true (side_of b4 o1.is_buy) depth output).1 = none ∧
          (⟨o1.price, lvl.aggregated_volume⟩ : PriceLevel) ∈
            (extract_levels max_size true (side_of b4 o1.is_buy) depth output).2)) := by
  have hw := hb.wf_of_reachable
  have hw2 : WF (add_order b o2) := hw.after_insert o2
  have hreg2 : map_find (add_order b o2).order_registry k = some (fresh_node b.nodes) := by
    rw [add_order, insert_order_registry, if_pos hid.symm]
  have hne : fresh_node b.nodes ≠ a1 := by
    intro e
    rw [← e, map_find_fresh_node] at hn
    exact Option.noConfusion hn
  have hnew : map_find (add_order b o2).nodes (fresh_node b.nodes) = some o2 :=
    insert_order_new_node b o2
  obtain ⟨p1, lvl, hn1, hid1, hf, hin⟩ := hw.resting hr
  rw [hn] at hn1
  cases hn1
  have horph : Orphan a1 o1 (add_order b o2) := by
    refine ⟨insert_order_keeps_nodes b o2 hn, ?_, ?_⟩
    · obtain ⟨lvl1, h3, h4⟩ := insert_order_keeps_queues b o2 hf
      exact ⟨lvl1, h3, h4.subset hin⟩
    · intro k1 a hk1
      rw [add_order, insert_order_registry] at hk1
      by_cases hk : k1 = o2.order_id
      · rw [if_pos hk] at hk1
        cases hk1
        exact hne
      · rw [if_neg hk] at hk1
        intro e
        subst e
        obtain ⟨p2, -, hn2, hid2, -, -⟩ := hw.resting hk1
        rw [hn] at hn2
        cases hn2
        exact hk (hid2.symm.trans (hid1.trans hid.symm))
  refine ⟨⟨hreg2, hne, hnew, level_at_insert_order_self b o2⟩, ?_, ?_⟩
  · obtain ⟨p3, lvl3, hn3, -, hf3, hin3⟩ := hw2.resting hreg2
    rw [hnew] at hn3
    cases hn3
    obtain ⟨b3, h3, -, -, hnodes, hreg⟩ := wf_remove_levels hw2 hreg2 hnew hf3 hin3
    have hmiss : map_find b3.order_registry k = none := by
      rw [hreg, map_find_erase, if_pos rfl]
    exact ⟨b3, h3, hnodes, hmiss, remove_order_miss hmiss,
      fun px qty => modify_order_miss px qty hmiss,
      Steps.step _ _ (Op.cancel k) true Steps.refl h3⟩
  · intro b4 hs
    obtain ⟨ho4, hw4⟩ := orphan_forever hw2 horph hs
    exact ⟨ho4.unindexed, ho4.live, wf_orphan_counted hw4 ho4⟩

/-- Buy order 1 (100.00, 500) is added, then a second order with id 1
(100.00, 300): the index points to node 2, `cancel_order(1)` frees node 2 only,
and after a further add and a failed cancel node 1 is still queued, its 500
are still in the aggregate and in the snapshot. -/
theorem duplicate_id_orphans_first_order_witness :
    (map_find twice_added_book.order_registry 1 = some 2 ∧
      ∃ b3, cancel_order twice_added_book 1 = some (true, b3) ∧
        map_find b3.order_registry 1 = none ∧ cancel_order b3 1 = some (false, b3)) ∧
    (run_ops twice_added_book [Op.cancel 1, Op.add ⟨5, true, 100, 7, 0⟩, Op.cancel 1]).map
        (fun x => (x.1, level_at x.2 true 100,
          (get_snapshot max_size_lp64 true true x.2 1 [] []).2.1)) =
      some ([true, true, false], some ⟨100, 507, [1, 2]⟩, [⟨100, 507⟩]) := by
  obtain ⟨h1, ⟨b3, h2, -, h3, h4, -⟩, -⟩ := duplicate_id_orphans_first_order one_buy_book
    (Reachable.add _ _ Reachable.init) 1 1 ⟨1, true, 100, 500, 0⟩ ⟨1, true, 100, 300, 0⟩
    (by decide) (by decide) rfl
  exact ⟨⟨h1.1, b3, h2, h3, h4⟩, by decide⟩

/-! ## Queues are in the order of placement -/

theorem removed_side_sublist {side : List (Price × Level)} {price : Price} {lvl : Level}
    {node : Nat} {qty : Nat} {p : Price × Level} (hf : map_find side price = some lvl)
    (hp : p ∈ (if lvl.order_queue.erase node = [] then map_erase side price
        else map_update side price
          ⟨lvl.price, wrap_sub lvl.aggregated_volume qty, lvl.order_queue.erase node⟩)) :
    ∃ q ∈ side, p.2.order_queue.Sublist q.2.order_queue := by
  split at hp
  · exact ⟨p, (mem_map_erase.1 hp).1, List.Sublist.refl _⟩
  · rcases mem_map_update hp with ⟨hp, -⟩ | ⟨hp, -⟩
    · exact ⟨p, hp, List.Sublist.refl _⟩
    · subst hp
      exact ⟨_, map_find_mem hf, List.erase_sublist _ _⟩

theorem requantified_side_sublist {side : List (Price × Level)} {price : Price} {lvl : Level}
    {agg : Nat} {p : Price × Level} (hf : map_find side price = some lvl)
    (hp : p ∈ map_update side price ⟨lvl.price, agg, lvl.order_queue⟩) :
    ∃ q ∈ side, p.2.order_queue.Sublist q.2.order_queue := by
  rcases mem_map_update hp with ⟨hp, -⟩ | ⟨hp, -⟩
  · exact ⟨p, hp, List.Sublist.refl _⟩
  · subst hp
    exact ⟨_, map_find_mem hf, List.Sublist.refl _⟩

theorem mem_insert_into_side_cases {before : Price → Price → Bool} {node : Nat} {ord : Order}
    {side : List (Price × Level)} {p : Price × Level}
    (hp : p ∈ insert_into_side before node ord side) :
    p ∈ side ∨ ∃ front, p.2.order_queue = front ++ [node] ∧
      (front = [] ∨ ∃ q ∈ side, q.2.order_queue = front) := by
  cases hf : map_find side ord.price with
  | none =>
    rw [insert_into_side_new hf] at hp
    rcases mem_side_insert.1 hp with hp | hp
    · subst hp
      exact Or.inr ⟨[], rfl, Or.inl rfl⟩
    · exact Or.inl hp
  | some lvl =>
    rw [insert_into_side_old hf] at hp
    rcases mem_map_update hp with ⟨hp, -⟩ | ⟨hp, -⟩
    · exact Or.inl hp
    · subst hp
      exact Or.inr ⟨lvl.order_queue, rfl, Or.inr ⟨_, map_find_mem hf, rfl⟩⟩

theorem placedOK_of_sublists {b b1 : Implementation} {placed : List (Nat × Nat)} {n m : Nat}
    (h : PlacedOK b placed n) (hnm : n ≤ m)
    (hsub : ∀ s e, e ∈ side_of b1 s →
      ∃ q ∈ side_of b s, e.2.order_queue.Sublist q.2.order_queue) :
    PlacedOK b1 placed m where
  bound s e he a ha := by
    obtain ⟨q, hq, hs⟩ := hsub s e he
    obtain ⟨t, h1, h2⟩ := h.bound s q hq a (hs.subset ha)
    exact ⟨t, h1, by omega⟩
  ordered s e he := by
    obtain ⟨q, hq, hs⟩ := hsub s e he
    exact (h.ordered s q hq).sublist hs

theorem placedOK_after_insert {b : Implementation} {placed : List (Nat × Nat)} {n : Nat}
    (hw : WF b) (h : PlacedOK b placed n) (o : Order) :
    PlacedOK (insert_order b o) (map_assign placed (fresh_node b.nodes) n) (n + 1) := by
  have hlive : ∀ s e, e ∈ side_of b s → ∀ a ∈ e.2.order_queue, a ≠ fresh_node b.nodes := by
    intro s e he a ha e1
    obtain ⟨p, hp, -⟩ := (hw.side s).queued_live he ha
    rw [e1, map_find_fresh_node] at hp
    exact Option.noConfusion hp
  have hold : ∀ s e, e ∈ side_of b s → ∀ a ∈ e.2.order_queue,
      map_find (map_assign placed (fresh_node b.nodes) n) a = map_find placed a := by
    intro s e he a ha
    rw [map_find_assign, if_neg (hlive s e he a ha)]
  have hpair : ∀ s e, e ∈ side_of b s →
      e.2.order_queue.Pairwise (placed_before (map_assign placed (fresh_node b.nodes) n)) := by
    intro s e he
    refine (h.ordered s e he).imp_of_mem ?_
    rintro a1 a2 h1 h2 ⟨t1, t2, h3, h4, h5⟩
    exact ⟨t1, t2, by rw [hold s e he a1 h1]; exact h3, by rw [hold s e he a2 h2]; exact h4,
      h5⟩
  have hcases : ∀ s e, e ∈ side_of (insert_order b o) s →
      e ∈ side_of b s ∨ ∃ front, e.2.order_queue = front ++ [fresh_node b.nodes] ∧
        (front = [] ∨ ∃ q ∈ side_of b s, q.2.order_queue = front) := by
    intro s e he
    by_cases hs : s = o.is_buy
    · subst hs
      rw [insert_order_eq, side_of_with_side_self] at he
      exact mem_insert_into_side_cases he
    · rw [insert_order_other_side b o hs] at he
      exact Or.inl he
  have hnew : map_find (map_assign placed (fresh_node b.nodes) n) (fresh_node b.nodes) =
      some n := by
    rw [map_find_assign, if_pos rfl]
  refine ⟨?_, ?_⟩
  · intro s e he a ha
    rcases hcases s e he with h1 | ⟨front, h1, h2⟩
    · obtain ⟨t, h3, h4⟩ := h.bound s e h1 a ha
      exact ⟨t, by rw [hold s e h1 a ha]; exact h3, by omega⟩
    · rw [h1, List.mem_append, List.mem_singleton] at ha
      rcases ha with ha | ha
      · rcases h2 with h2 | ⟨q, hq, h2⟩
        · rw [h2] at ha
          simp at ha
        · rw [← h2] at ha
          obtain ⟨t, h3, h4⟩ := h.bound s q hq a ha
          exact ⟨t, by rw [hold s q hq a ha]; exact h3, by omega⟩
      · rw [ha]
        exact ⟨n, hnew, by omega⟩
  · intro s e he
    rcases hcases s e he with h1 | ⟨front, h1, h2⟩
    · exact hpair s e h1
    · rw [h1, List.pairwise_append]
      rcases h2 with h2 | ⟨q, hq, h2⟩
      · subst h2
        simp
      · subst h2
        refine ⟨hpair s q hq, by simp, ?_⟩
        intro a1 ha1 a2 ha2
        rw [List.mem_singleton] at ha2
        subst ha2
        obtain ⟨t, h3, h4⟩ := h.bound s q hq a1 ha1
        exact ⟨t, n, by rw [hold s q hq a1 ha1]; exact h3, hnew, h4⟩

theorem placedOK_after_remove {b b1 : Implementation} {placed : List (Nat × Nat)} {n m : Nat}
    (hw : WF b) (h : PlacedOK b placed n) (hnm : n ≤ m) {oid : Nat} {r : Bool}
    (hrem : remove_order b oid = some (r, b1)) : PlacedOK b1 placed m := by
  cases hr : map_find b.order_registry oid with
  | none =>
    rw [remove_order_miss hr] at hrem
    cases hrem
    exact placedOK_of_sublists h hnm (fun s e he => ⟨e, he, List.Sublist.refl _⟩)
  | some a =>
    obtain ⟨o, lvl, hn, -, hf, hin⟩ := hw.resting hr
    rw [remove_order_eq hr hn hf hin] at hrem
    cases hrem
    refine placedOK_of_sublists h hnm ?_
    intro s e he
    by_cases hs : s = o.is_buy
    · subst hs
      rw [side_of_with_side_self] at he
      exact removed_side_sublist hf he
    · rw [side_of_with_side_ne hs] at he
      exact ⟨e, he, List.Sublist.refl _⟩

theorem placedOK_after_requantify {b b1 : Implementation} {placed : List (Nat × Nat)}
    {n m : Nat} (hw : WF b) (h : PlacedOK b placed n) (hnm : n ≤ m) {oid : Nat} {px : Price}
    {qty : Nat} {r : Bool} (hmod : modify_order b oid px qty = some (r, b1))
    (hkeep : ∀ o, resting_order b oid = some o → o.price = px) : PlacedOK b1 placed m := by
  cases hr : map_find b.order_registry oid with
  | none =>
    rw [modify_order_miss px qty hr] at hmod
    cases hmod
    exact placedOK_of_sublists h hnm (fun s e he => ⟨e, he, List.Sublist.refl _⟩)
  | some a =>
    obtain ⟨o, lvl, hn, -, hf, hin⟩ := hw.resting hr
    have hp := hkeep o (resting_order_eq_some.2 ⟨a, hr, hn⟩)
    subst hp
    rw [modify_order_qty_eq qty hr hn hf] at hmod
    cases hmod
    refine placedOK_of_sublists h hnm ?_
    intro s e he
    by_cases hs : s = o.is_buy
    · subst hs
      rw [side_of_with_side_self] at he
      exact requantified_side_sublist hf he
    · rw [side_of_with_side_ne hs] at he
      exact ⟨e, he, List.Sublist.refl _⟩

theorem history_invariant {b : Implementation} {placed : List (Nat × Nat)} {n : Nat}
    (h : History b placed n) : ReachableFresh b ∧ PlacedOK b placed n := by
  induction h with
  | init =>
    refine ⟨ReachableFresh.init, ⟨?_, ?_⟩⟩ <;>
    · intro s e he
      cases s <;> simp [OrderBook.new_book, Implementation.empty, side_of] at he
  | add b placed n o a _ hfresh ha ih =>
    rw [add_order, insert_order_registry, if_pos rfl] at ha
    cases ha
    exact ⟨ReachableFresh.add b o ih.1 hfresh, placedOK_after_insert ih.1.wf_of_fresh ih.2 o⟩
  | cancel b b1 placed n oid r _ hc ih =>
    exact ⟨ReachableFresh.cancel b b1 oid r ih.1 hc,
      placedOK_after_remove ih.1.wf_of_fresh ih.2 (Nat.le_succ n) hc⟩
  | amend_in_place b b1 placed n oid px qty r _ hc hkeep ih =>
    exact ⟨ReachableFresh.amend b b1 oid px qty r ih.1 hc,
      placedOK_after_requantify ih.1.wf_of_fresh ih.2 (Nat.le_succ n) hc hkeep⟩
  | amend_price b b1 placed n oid px qty r o a _ hc hrest hpx ha ih =>
    refine ⟨ReachableFresh.amend b b1 oid px qty r ih.1 hc, ?_⟩
    have hw := ih.1.wf_of_fresh
    obtain ⟨a0, hr, hn⟩ := resting_order_eq_some.1 hrest
    obtain ⟨o1, lvl, hn1, hid, hf, hin⟩ := hw.resting hr
    rw [hn] at hn1
    cases hn1
    have hrem := remove_order_eq hr hn hf hin
    rw [amend_order, modify_order_px_eq qty hr hn hpx hrem] at hc
    cases hc
    rw [insert_order_registry, if_pos hid.symm] at ha
    cases ha
    exact placedOK_after_insert (hw.wf_removed hr hn hf hin)
      (placedOK_after_remove hw ih.2 (Nat.le_refl n) hrem) _

theorem reachable_fresh_has_history {b : Implementation} (h : ReachableFresh b) :
    ∃ placed n, History b placed n := by
  induction h with
  | init => exact ⟨[], 0, History.init⟩
  | add b o _ hf ih =>
    obtain ⟨placed, n, hh⟩ := ih
    exact ⟨_, _, History.add b placed n o (fresh_node b.nodes) hh hf
      (by rw [add_order, insert_order_registry, if_pos rfl])⟩
  | cancel b b1 oid r _ hc ih =>
    obtain ⟨placed, n, hh⟩ := ih
    exact ⟨_, _, History.cancel b b1 placed n oid r hh hc⟩
  | amend b b1 oid px qty r hb hc ih =>
    obtain ⟨placed, n, hh⟩ := ih
    by_cases hkeep : ∀ o, resting_order b oid = some o → o.price = px
    · exact ⟨_, _, History.amend_in_place b b1 placed n oid px qty r hh hc hkeep⟩
    · simp only [not_forall] at hkeep
      obtain ⟨o, hrest, hpx⟩ := hkeep
      have hw := hb.wf_of_fresh
      obtain ⟨a0, hr, hn⟩ := resting_order_eq_some.1 hrest
      obtain ⟨o1, lvl, hn1, hid, hf, hin⟩ := hw.resting hr
      rw [hn] at hn1
      cases hn1
      have hrem := remove_order_eq hr hn hf hin
      have hc1 := hc
      rw [amend_order, modify_order_px_eq qty hr hn hpx hrem] at hc1
      cases hc1
      exact ⟨_, _, History.amend_price b _ placed n oid px qty true o _ hh hc hrest hpx
        (by rw [insert_order_registry, if_pos hid.symm])⟩

theorem pairwise_sublist_pair {R : Nat → Nat → Prop} {l : List Nat} (h : l.Pairwise R)
    {a c : Nat} (ha : a ∈ l) (hc : c ∈ l) (hne : a ≠ c) (hnot : ¬R c a) :
    [a, c].Sublist l := by
  induction l with
  | nil => simp at ha
  | cons x r ih =>
    rw [List.pairwise_cons] at h
    by_cases hax : a = x
    · subst hax
      have hcr : c ∈ r := by
        rcases List.mem_cons.1 hc with e | e
        · exact absurd e.symm hne
        · exact e
      exact List.Sublist.cons₂ _ (List.singleton_sublist.2 hcr)
    · have har : a ∈ r := by
        rcases List.mem_cons.1 ha with e | e
        · exact absurd e hax
        · exact e
      by_cases hcx : c = x
      · subst hcx
        exact absurd (h.1 a har) hnot
      · have hcr : c ∈ r := by
          rcases List.mem_cons.1 hc with e | e
          · exact absurd e hcx
          · exact e
        exact List.Sublist.cons _ (ih h.2 har hcr)

theorem fifo_book_4_history : History fifo_book_4 [(1, 0), (2, 1), (3, 3)] 4 :=
  History.amend_price fifo_book_3 fifo_book_4 _ 3 1 100 10 true ⟨1, true, 101, 10, 0⟩ 3
    (History.amend_price fifo_book_2 fifo_book_3 _ 2 1 101 10 true ⟨1, true, 100, 10, 0⟩ 3
      (History.add _ _ 1 ⟨2, true, 100, 20, 0⟩ 2
        (History.add new_book [] 0 ⟨1, true, 100, 10, 0⟩ 1 History.init (by decide)
          (by decide))
        (by decide) (by decide))
      (by decide) (by decide) (by decide) (by decide))
    (by decide) (by decide) (by decide) (by decide)

/-- C13: every state reachable from the empty book by `add_order` (with ids that
are not resting), `cancel_order` and `amend_order` has a history, and for every
history of it every queue is ordered by the call that last placed each order
(its `add_order`, or its last `amend_order` that changed the price; cancels and
quantity-only amends place nothing): the placement numbers increase strictly
along the queue, and of two orders of one queue the one placed strictly earlier
comes first. -/
theorem queues_in_placement_order (b : Implementation) (hb : ReachableFresh b) :
    (∃ placed n, History b placed n) ∧
    ∀ placed n, History b placed n →
      (∀ s e, e ∈ side_of b s → e.2.order_queue.Pairwise (placed_before placed)) ∧
      (∀ s e, e ∈ side_of b s → ∀ a ∈ e.2.order_queue,
        ∃ t, map_find placed a = some t ∧ t < n) ∧
      (∀ s e a1 a2 t1 t2, e ∈ side_of b s → a1 ∈ e.2.order_queue → a2 ∈ e.2.order_queue →
        map_find placed a1 = some t1 → map_find placed a2 = some t2 → t1 < t2 →
        [a1, a2].Sublist e.2.order_queue) := by
  refine ⟨reachable_fresh_has_history hb, ?_⟩
  intro placed n hh
  have hp := (history_invariant hh).2
  refine ⟨hp.ordered, hp.bound, ?_⟩
  intro s e a1 a2 t1 t2 he h1 h2 h3 h4 hlt
  refine pairwise_sublist_pair (hp.ordered s e he) h1 h2 ?_ ?_
  · intro e1
    subst e1
    rw [h3] at h4
    cases h4
    exact lt_irrefl _ hlt
  · rintro ⟨u2, u1, h5, h6, h7⟩
    rw [h4] at h5
    rw [h3] at h6
    cases h5
    cases h6
    omega

/-- Orders 1 and 2 are added at 100.00, then order 1 is moved to 101.00 (call 2)
and back to 100.00 (call 3): the queue at 100.00 is `[2, 3]`, node 2 placed by
call 1 and node 3 (order 1) by call 3, so order 2 is before order 1. -/
theorem queues_in_placement_order_witness :
    level_at fifo_book_4 true 100 = some ⟨100, 30, [2, 3]⟩ ∧
      queue_ids fifo_book_4 [2, 3] = [some 2, some 1] ∧
      [2, 3].Pairwise (placed_before [(1, 0), (2, 1), (3, 3)]) ∧
      [2, 3].Sublist [2, 3] :=
  ⟨by decide, by decide,
    ((queues_in_placement_order fifo_book_4 (history_invariant fifo_book_4_history).1).2
      _ 4 fifo_book_4_history).1 true (100, ⟨100, 30, [2, 3]⟩) (by decide),
    ((queues_in_placement_order fifo_book_4 (history_invariant fifo_book_4_history).1).2
      _ 4 fifo_book_4_history).2.2 true (100, ⟨100, 30, [2, 3]⟩) 2 3 1 3 (by decide)
      (by decide) (by decide) (by decide) (by decide) (by decide)⟩

end OrderBook
